import Mathlib

/-!
# Gesture tracker of `Game.cpp`

A shallow embedding of `class GestureTracker` (`src/Game.cpp`, lines 85-275):
the per-tick classification of the dominant contour into a raw finger count,
the hold-to-confirm stability filter, and `consumeTrigger`.

Modelling conventions.

* A finite `float` or `double` is the rational number it denotes.  Every arithmetic
  operation of the code is the exact operation followed by IEEE 754 rounding to nearest,
  ties to even (`f32round` for `float`, `f64round` for `double`); each operation is
  rounded on its own, as on x86-64 (no fused multiply-add).  An overflowing result
  (IEEE infinity) is represented by `2^128`, resp. `2^1024`; NaN only arises in the angle
  test, where it makes the comparison false.  Elapsed times are finite and, coming from
  `sf::Clock`, non-negative.
* `std::sqrt` is correctly rounded (IEEE 754); `acos` is taken as correctly rounded.
* The OpenCV calls are library code.  A captured frame is represented by what the
  library pipeline returns for it: the contours found in the region of interest,
  each with the value of `contourArea`, `convexHull` and `convexityDefects` on it.
  A library call that throws is outside the model: every statement is about frames
  for which the library calls return.
* `std::vector::operator[]` is unchecked; an index outside the vector is modelled
  by `none`.
-/

namespace GestureQuiz

/-- The type `cv::Point`: integer pixel coordinates. -/
structure Point where
  x : Int
  y : Int
deriving DecidableEq, Repr

/-- The type `cv::Vec4i` as filled by `convexityDefects`:
`v0` start index, `v1` end index, `v2` farthest-point index, `v3` fixed-point depth. -/
structure Vec4i where
  v0 : Int
  v1 : Int
  v2 : Int
  v3 : Int
deriving DecidableEq, Repr

/-- One entry of `contours`, with the library results the tick reads for it:
`area` is `contourArea(contours[i])`, `hullIndices` is what `convexHull` writes,
`defects` is what `convexityDefects` writes. -/
structure Contour where
  points : List Point
  area : ℚ
  hullIndices : List Int
  defects : List Vec4i
deriving DecidableEq

/-- The fields of `class GestureTracker`; `capOpened` stands for `cap.isOpened()`. -/
structure GestureTracker where
  capOpened : Bool
  detectedFingers : Int
  lastStableCount : Int
  holdTime : ℚ
  triggerAction : Bool
  isWindowOpen : Bool
  isActive : Bool
deriving DecidableEq

/-- Rounding of a rational to an integer, to nearest with ties to even. -/
def roundHalfEven (q : ℚ) : Int :=
  if q - ⌊q⌋ < 1 / 2 then ⌊q⌋
  else if 1 / 2 < q - ⌊q⌋ then ⌊q⌋ + 1
  else if ⌊q⌋ % 2 = 0 then ⌊q⌋ else ⌊q⌋ + 1

/-- Binary search for the binade of `a`: from `2^e ≤ a < 2^(e + 2^k)` to the exponent
`r` with `2^r ≤ a < 2^(r+1)`. -/
def binadeSearch (a : ℚ) : Nat → Int → Int
  | 0, e => e
  | k + 1, e =>
    if (2 : ℚ) ^ (e + 2 ^ k) ≤ a then binadeSearch a k (e + 2 ^ k) else binadeSearch a k e

/-- IEEE 754 rounding to nearest, ties to even, into the binary format with `p` significant
bits and exponents `emin .. emax` (`emax - emin < 2^k`), subnormals included.  A result
that overflows (IEEE infinity) is represented by `2^(emax+1)`, above every finite value. -/
def roundTo (p : Nat) (emin emax : Int) (k : Nat) (x : ℚ) : ℚ :=
  let a := |x|
  let inf : ℚ := (2 : ℚ) ^ (emax + 1)
  let r : ℚ :=
    if inf ≤ a then inf
    else
      let e := if a < (2 : ℚ) ^ emin then emin else binadeSearch a k emin
      let u : ℚ := (2 : ℚ) ^ (e - ((p : Int) - 1))
      min ((roundHalfEven (a / u) : ℚ) * u) inf
  if x < 0 then -r else r

/-- Rounding to `float` (binary32). -/
def f32round (x : ℚ) : ℚ := roundTo 24 (-126) 127 8 x

/-- Rounding to `double` (binary64). -/
def f64round (x : ℚ) : ℚ := roundTo 53 (-1022) 1023 11 x

/-- Addition of two `float`s, as in `holdTime += dt`. -/
def f32add (a b : ℚ) : ℚ := f32round (a + b)

/-- The value of a `float` that starts at 0 and has the elapsed times `es` added to it one
after the other, every addition rounded to `float`. -/
def f32sum (es : List ℚ) : ℚ := es.foldl f32add 0

/-- Bit by bit integer square root: with `r = 0` and `n < 4^k`, the largest `y` with
`y * y ≤ n`. -/
def sqrtBits (n : Nat) : Nat → Nat → Nat
  | 0, r => r
  | k + 1, r =>
    if (r + 2 ^ k) * (r + 2 ^ k) ≤ n then sqrtBits n k (r + 2 ^ k) else sqrtBits n k r

/-- The function `std::sqrt` on a non-negative normal `double`: the exact square root rounded
to nearest.  The argument is scaled by a power of 4 into `[2^108, 2^110)`, so that the integer
part `y` of the root has 55 bits, two more than a `double` keeps; an inexact root is rounded as
`y + 1/2`, which lies on the same side of every rounding boundary. -/
def f64sqrt (x : ℚ) : ℚ :=
  if x ≤ 0 then 0
  else
    let e := if x < (2 : ℚ) ^ (-1022 : Int) then -1022 else binadeSearch x 11 (-1022)
    let s : Int := (109 - e) / 2
    let t : ℚ := x * (4 : ℚ) ^ s
    let y : Nat := sqrtBits ⌊t⌋.toNat 55 0
    if (y : ℚ) * y = t then f64round ((y : ℚ) / (2 : ℚ) ^ s)
    else f64round (((y : ℚ) + 1 / 2) / (2 : ℚ) ^ s)

/-- The constant `const float REQUIRED_HOLD_TIME = 0.2f`: the `float` nearest to 0.2, which
is `13421773 / 2^26`, a little above 0.2. -/
def REQUIRED_HOLD_TIME : ℚ := f32round (1 / 5)

/-- A freshly constructed tracker: the in-class member initialisers, camera closed. -/
def GestureTracker.init : GestureTracker :=
  { capOpened := false
    detectedFingers := 0
    lastStableCount := 0
    holdTime := 0
    triggerAction := false
    isWindowOpen := false
    isActive := false }

/-- Unchecked element access `vec[i]` with an `int` index: `none` outside the vector. -/
def at? {α : Type} (vec : List α) (i : Int) : Option α :=
  if 0 ≤ i then vec[i.toNat]? else none

/-- Squared Euclidean length of `p - q`; `norm(p - q)` is its square root. -/
def normSq (p q : Point) : Int :=
  (p.x - q.x) * (p.x - q.x) + (p.y - q.y) * (p.y - q.y)

/-- Cross product of the two sides of the triangle that meet at the far point: zero exactly
when start, far point and end lie on one line. -/
def crossAtFar (pStart pEnd pFar : Point) : Int :=
  (pStart.x - pFar.x) * (pEnd.y - pFar.y) - (pStart.y - pFar.y) * (pEnd.x - pFar.x)

/-- Dot product of the two sides of the triangle that meet at the far point. -/
def dotAtFar (pStart pEnd pFar : Point) : Int :=
  (pStart.x - pFar.x) * (pEnd.x - pFar.x) + (pStart.y - pFar.y) * (pEnd.y - pFar.y)

/-- The angle test in exact arithmetic, as geometry has it: with `a`, `b`, `c` the exact
side lengths, `acos((b*b + c*c - a*a) / (2*b*c)) * 180 / pi` is at most 90 exactly when
`b, c > 0` and the numerator is non-negative.  The code evaluates the same formula in
`double` arithmetic: see `angleLE90Double`. -/
def angleLE90 (pStart pEnd pFar : Point) : Bool :=
  let a2 := normSq pEnd pStart
  let b2 := normSq pFar pStart
  let c2 := normSq pFar pEnd
  decide (b2 ≠ 0) && decide (c2 ≠ 0) && decide (0 ≤ b2 + c2 - a2)

/-- The call `norm(p - q)` on `cv::Point`s:
`std::sqrt((double)d.x * d.x + (double)d.y * d.y)` with `d = p - q`. -/
def normF64 (p q : Point) : ℚ :=
  f64sqrt (f64round (f64round (((p.x - q.x) * (p.x - q.x) : Int) : ℚ)
    + f64round (((p.y - q.y) * (p.y - q.y) : Int) : ℚ)))

/-- The argument of `acos` in line 212, `(b * b + c * c - a * a) / (2 * b * c)`, every
operation rounded to `double`; `none` when the divisor is zero (the quotient is then NaN
or an infinity, and so is the angle). -/
def cosineOfSides (a b c : ℚ) : Option ℚ :=
  let num := f64round (f64round (f64round (b * b) + f64round (c * c)) - f64round (a * a))
  let den := f64round (f64round (2 * b) * c)
  if den = 0 then none else some (f64round (num / den))

/-- Lines 209-212 up to the argument of `acos`: the three sides `a = norm(pEnd - pStart)`,
`b = norm(pFar - pStart)`, `c = norm(pFar - pEnd)` and the quotient formed from them. -/
def cosineF64 (pStart pEnd pFar : Point) : Option ℚ :=
  cosineOfSides (normF64 pEnd pStart) (normF64 pFar pStart) (normF64 pFar pEnd)

/-- The `double` nearest to pi / 2, `0x1.921fb54442d18p+0`; `CV_PI` is twice this value. -/
def HALF_PI_F64 : ℚ := 884279719003555 / 562949953421312

/-- The largest `double` `t` for which `acos(-t)`, rounded to nearest, is still
`HALF_PI_F64`: `0x1.cb3b399d747f2p-55`, just below `sin(HALF_PI_F64 + 2^-53 - pi/2)`. -/
def ACOS_HALF_PI_SLACK : ℚ := 4039441654719481 / 81129638414606681695789005144064

/-- The test `angle <= 90` of lines 209-215 on the `double`
`angle = acos((b*b + c*c - a*a) / (2*b*c)) * 180 / CV_PI`.
For an argument `x` above 1 `acos` returns NaN and the comparison is false, and likewise
when the divisor is zero.  For `x ≤ 1` the function `acos` is decreasing, and
`acos(x) * 180 / CV_PI` is at most 90 exactly when `acos(x)` is at most `HALF_PI_F64`
(see `right_angle_degrees`), that is when `x ≥ -ACOS_HALF_PI_SLACK`. -/
def angleLE90Double (pStart pEnd pFar : Point) : Bool :=
  match cosineF64 pStart pEnd pFar with
  | none => false
  | some x => decide (-ACOS_HALF_PI_SLACK ≤ x ∧ x ≤ 1)

/-- The loop `for (const auto& v : defects)` of lines 197-219, threading `count`. -/
def countGaps (maxContour : List Point) : List Vec4i → Int → Option Int
  | [], count => some count
  | v :: rest, count =>
    let depth : ℚ := f32round (f32round (v.v3 : ℚ) / 256)
    if depth > 10 then
      match at? maxContour v.v0, at? maxContour v.v1, at? maxContour v.v2 with
      | some pStart, some pEnd, some pFar =>
        if angleLE90Double pStart pEnd pFar then countGaps maxContour rest (count + 1)
        else countGaps maxContour rest count
      | _, _, _ => none
    else countGaps maxContour rest count

/-- The loop of lines 176-182 from index `i` on, threading `(maxIdx, maxArea)`. -/
def largestFrom : List Contour → Nat → Nat × ℚ → Nat × ℚ
  | [], _, acc => acc
  | c :: rest, i, (maxIdx, maxArea) =>
    if c.area > maxArea then largestFrom rest (i + 1) (i, c.area)
    else largestFrom rest (i + 1) (maxIdx, maxArea)

/-- Lines 174-182: `maxIdx = 0`, `maxArea = 0`, then the loop over all contours. -/
def largest (contours : List Contour) : Nat × ℚ :=
  largestFrom contours 0 (0, 0)

/-- Lines 170-235: the value the tick stores in `detectedFingers`
(`none`: an unchecked index was out of range). -/
def rawFingerCount (contours : List Contour) : Option Int :=
  if !contours.isEmpty then
    let (maxIdx, maxArea) := largest contours
    if maxArea > 3000 then
      match contours[maxIdx]? with
      | none => none
      | some maxC =>
        let counted : Option Int :=
          if maxC.hullIndices.length > 3 then countGaps maxC.points maxC.defects 0
          else some 0
        match counted with
        | none => none
        | some count =>
          let detectedFingers := count + 1
          some (if detectedFingers > 5 then 5 else detectedFingers)
    else some 0
  else some 0

/-- Lines 237-261: the stability logic, run after `detectedFingers` was stored,
followed by `imshow` (`isWindowOpen = true`). -/
def stability (s : GestureTracker) (dt : ℚ) : GestureTracker :=
  if s.detectedFingers = s.lastStableCount ∧ s.detectedFingers > 0 then
    let holdTime := f32add s.holdTime dt
    if holdTime ≥ REQUIRED_HOLD_TIME then
      { s with holdTime := holdTime, triggerAction := true, isWindowOpen := true }
    else
      { s with holdTime := holdTime, triggerAction := false, isWindowOpen := true }
  else
    { s with lastStableCount := s.detectedFingers, holdTime := 0, triggerAction := false,
             isWindowOpen := true }

/-- A processed tick whose classification gave `raw`: store it, then run the filter. -/
def tick (s : GestureTracker) (raw : Int) (dt : ℚ) : GestureTracker :=
  stability { s with detectedFingers := raw } dt

/-- The method `void update(float dt, bool isActive)`.  `frame` is what `cap >> frame`
delivers: `none` for an empty frame, otherwise the contours found in the mask. -/
def update (s : GestureTracker) (dt : ℚ) (isActive : Bool)
    (frame : Option (List Contour)) : Option GestureTracker :=
  if !s.capOpened then some s
  else if !isActive then
    (if s.isWindowOpen then some { s with isWindowOpen := false } else some s)
  else
    match frame with
    | none => some s
    | some contours =>
      match rawFingerCount contours with
      | none => none
      | some raw => some (tick s raw dt)

/-- The method `bool consumeTrigger(int& outFingerCount)`: the returned flag, the
caller's variable after the call, and the tracker after the call. -/
def consumeTrigger (s : GestureTracker) (outFingerCount : Int) : Bool × Int × GestureTracker :=
  if s.triggerAction then
    (true, s.lastStableCount, { s with holdTime := 0, triggerAction := false })
  else
    (false, outFingerCount, s)

/-- The method `void stopCamera()`. -/
def stopCamera (s : GestureTracker) : GestureTracker :=
  let s1 := if s.capOpened then { s with capOpened := false } else s
  if s1.isWindowOpen then { s1 with isWindowOpen := false } else s1

/-- The method `void setEnabled(bool enabled)`; `open0` and `open1` tell whether
`cap.open(0)` and `cap.open(1)` leave the device opened. -/
def setEnabled (s : GestureTracker) (enabled : Bool) (open0 open1 : Bool) : GestureTracker :=
  if enabled then
    if !s.capOpened then
      let s1 := { s with capOpened := open0 }
      if !s1.capOpened then { s1 with capOpened := open1 } else s1
    else s
  else stopCamera s

/-- The postcondition of `convexityDefects` on a contour that the unchecked accesses of
lines 204-206 rely on: the three indices of every defect lie inside the contour. -/
def DefectsInRange (c : Contour) : Prop :=
  ∀ v ∈ c.defects,
    (0 ≤ v.v0 ∧ v.v0 < c.points.length) ∧ (0 ≤ v.v1 ∧ v.v1 < c.points.length) ∧
      (0 ≤ v.v2 ∧ v.v2 < c.points.length)

instance (c : Contour) : Decidable (DefectsInRange c) := by
  unfold DefectsInRange; infer_instance

/-- A defect that the loop counts as a finger gap: its depth `(float)v3 / 256.0f` exceeds
10 and the angle the code computes at the far point passes the test `angle <= 90`. -/
def isFingerGap (maxContour : List Point) (v : Vec4i) : Bool :=
  decide (f32round (f32round (v.v3 : ℚ) / 256) > 10) &&
    (match at? maxContour v.v0, at? maxContour v.v1, at? maxContour v.v2 with
     | some pStart, some pEnd, some pFar => angleLE90Double pStart pEnd pFar
     | _, _, _ => false)

/-- Number of defects of a contour that the loop counts as finger gaps. -/
def gaps (c : Contour) : Nat :=
  (c.defects.filter (isFingerGap c.points)).length

/-- The contour lies in a frame of 1448 by 1448 pixels, as every contour found in the 300 by
300 region of interest does: any two of its points are then at most 2048 pixels apart. -/
def InFrame (pts : List Point) : Prop :=
  ∀ p ∈ pts, (0 ≤ p.x ∧ p.x ≤ 1448) ∧ (0 ≤ p.y ∧ p.y ≤ 1448)

instance (pts : List Point) : Decidable (InFrame pts) := by
  unfold InFrame; infer_instance

/-- A finger gap in the words of the specification: a defect whose normalised depth
(`v3 / 256`) exceeds 10 and whose angle at the far point, in exact geometry, is at most
90 degrees. -/
def isExactGap (maxContour : List Point) (v : Vec4i) : Bool :=
  decide ((v.v3 : ℚ) / 256 > 10) &&
    (match at? maxContour v.v0, at? maxContour v.v1, at? maxContour v.v2 with
     | some pStart, some pEnd, some pFar => angleLE90 pStart pEnd pFar
     | _, _, _ => false)

/-- Number of finger gaps, in the words of the specification, among the defects of a
contour. -/
def exactGaps (c : Contour) : Nat :=
  (c.defects.filter (isExactGap c.points)).length

/-- A defect whose normalised depth exceeds 10 and whose angle at the far point, in exact
geometry, is below 90 degrees in a proper triangle: the dot product of the two sides at the
far point is positive and start, far point and end are not on one line. -/
def isAcuteGap (maxContour : List Point) (v : Vec4i) : Bool :=
  decide ((v.v3 : ℚ) / 256 > 10) &&
    (match at? maxContour v.v0, at? maxContour v.v1, at? maxContour v.v2 with
     | some pStart, some pEnd, some pFar =>
       decide (dotAtFar pStart pEnd pFar > 0) && decide (crossAtFar pStart pEnd pFar ≠ 0)
     | _, _, _ => false)

/-- Number of defects of a contour that are finger gaps with an angle below 90 degrees. -/
def acuteGaps (c : Contour) : Nat :=
  (c.defects.filter (isAcuteGap c.points)).length

/-- States reachable from a freshly constructed tracker by calls of its public methods.
`update` is an arbitrary call of the method; `tick` is a processed update whose
classification gave a raw count in `[0,5]`. -/
inductive Reachable : GestureTracker → Prop
  | init : Reachable GestureTracker.init
  | setEnabled {s : GestureTracker} (enabled open0 open1 : Bool) :
      Reachable s → Reachable (setEnabled s enabled open0 open1)
  | update {s s1 : GestureTracker} (dt : ℚ) (isActive : Bool) (frame : Option (List Contour)) :
      Reachable s → update s dt isActive frame = some s1 → Reachable s1
  | tick {s : GestureTracker} (raw : Int) (dt : ℚ) :
      Reachable s → 0 ≤ raw → raw ≤ 5 → Reachable (tick s raw dt)
  | consumeTrigger {s : GestureTracker} (outFingerCount : Int) :
      Reachable s → Reachable (consumeTrigger s outFingerCount).2.2

/-- An open hand in the region of interest: four fingers of width 10 with three valleys,
enclosed area 5000; the hull and the three defects as OpenCV reports them. -/
def handContour : Contour :=
  { points := [⟨0, 0⟩, ⟨0, 60⟩, ⟨10, 60⟩, ⟨20, 20⟩, ⟨30, 65⟩, ⟨40, 65⟩, ⟨50, 20⟩,
               ⟨60, 65⟩, ⟨70, 65⟩, ⟨80, 20⟩, ⟨90, 60⟩, ⟨100, 60⟩, ⟨100, 0⟩]
    area := 5000
    hullIndices := [0, 1, 4, 8, 11, 12]
    defects := [⟨1, 4, 3, 10942⟩, ⟨4, 8, 6, 11520⟩, ⟨8, 11, 9, 10942⟩] }

/-- A noise blob of area 12 next to the hand. -/
def noiseContour : Contour :=
  { points := [⟨200, 200⟩, ⟨200, 204⟩, ⟨203, 204⟩, ⟨203, 200⟩]
    area := 12
    hullIndices := [0, 1, 2, 3]
    defects := [] }

/-- The tracker after a held gesture: the camera is opened on device 0 and the
count 3 is shown on three ticks lasting `0.05f`, `0.1f` and `0.1f` seconds. -/
def heldThree : GestureTracker :=
  tick (tick (tick (setEnabled GestureTracker.init true true false) 3 (f32round (1 / 20)))
    3 (f32round (1 / 10))) 3 (f32round (1 / 10))

/-- An armed tracker holds a count between 1 and 5. -/
def ArmedCountInRange (s : GestureTracker) : Prop :=
  s.triggerAction = true → 1 ≤ s.lastStableCount ∧ s.lastStableCount ≤ 5

/-- A freshly constructed tracker after processed ticks that all classify to the raw
count `c`, with elapsed times `es` in order and no `consumeTrigger` in between. -/
def showCount (c : Int) (es : List ℚ) : GestureTracker :=
  es.foldl (fun s e => tick s c e) GestureTracker.init

/-- The method `setEnabled` with its calls of `cap.open` made visible: `dev i` tells whether
`cap.open(i)` leaves the device opened; the second component lists the indices passed
to `cap.open`, in call order. -/
def setEnabledLog (s : GestureTracker) (enabled : Bool) (dev : Nat → Bool) :
    GestureTracker × List Nat :=
  if enabled then
    if !s.capOpened then
      let s1 := { s with capOpened := dev 0 }
      if !s1.capOpened then ({ s1 with capOpened := dev 1 }, [0, 1]) else (s1, [0])
    else (s, [])
  else (stopCamera s, [])

/-- One call of a public method of the tracker, with what the environment answers:
the outcome of the two `cap.open` attempts, or the frame read by `cap >> frame`. -/
inductive Call
  | setEnabled (enabled open0 open1 : Bool)
  | update (dt : ℚ) (isActive : Bool) (frame : Option (List Contour))
  | consumeTrigger (outFingerCount : Int)

/-- Effect of one call: the tracker afterwards and, for a `consumeTrigger` that returned
`true`, the finger count it delivered. -/
def runCall (s : GestureTracker) : Call → Option (GestureTracker × Option Int)
  | Call.setEnabled enabled open0 open1 => some (setEnabled s enabled open0 open1, none)
  | Call.update dt isActive frame =>
    match update s dt isActive frame with
    | none => none
    | some s1 => some (s1, none)
  | Call.consumeTrigger outFingerCount =>
    if (consumeTrigger s outFingerCount).1 then
      some ((consumeTrigger s outFingerCount).2.2, some (consumeTrigger s outFingerCount).2.1)
    else some ((consumeTrigger s outFingerCount).2.2, none)

/-- A sequence of calls, in order: the final tracker and the events delivered. -/
def runCalls : GestureTracker → List Call → Option (GestureTracker × List Int)
  | s, [] => some (s, [])
  | s, c :: rest =>
    match runCall s c with
    | none => none
    | some (s1, ev) =>
      match runCalls s1 rest with
      | none => none
      | some (s2, evs) => some (s2, ev.toList ++ evs)

/-- An armed tracker holds the count it currently detects, that count is positive, and
it has been held for the required time. -/
def ArmedHolds (s : GestureTracker) : Prop :=
  s.triggerAction = true →
    s.lastStableCount = s.detectedFingers ∧ s.detectedFingers > 0 ∧ s.holdTime ≥ 1 / 5

/-- A triangular blob of area 5000: its convex hull has three points and no defect. -/
def triangleContour : Contour :=
  { points := [⟨0, 0⟩, ⟨0, 100⟩, ⟨100, 0⟩]
    area := 5000
    hullIndices := [0, 1, 2]
    defects := [] }

/-- The tracker with the camera opened on device 0 after the count 3 was seen on two
ticks of `0.05f` and `0.1f` seconds: it holds 3 with `holdTime = 0.1f` and is not armed. -/
def holdingThree : GestureTracker :=
  tick (tick (setEnabled GestureTracker.init true true false) 3 (f32round (1 / 20)))
    3 (f32round (1 / 10))

/-- The angle of line 212 over the reals:
`acos((b*b + c*c - a*a) / (2*b*c)) * 180 / CV_PI` with `a = norm(pEnd - pStart)`,
`b = norm(pFar - pStart)`, `c = norm(pFar - pEnd)`. -/
noncomputable def angleDegrees (pStart pEnd pFar : Point) : ℝ :=
  let a := Real.sqrt (normSq pEnd pStart)
  let b := Real.sqrt (normSq pFar pStart)
  let c := Real.sqrt (normSq pFar pEnd)
  Real.arccos ((b * b + c * c - a * a) / (2 * b * c)) * 180 / Real.pi

/-- A rectangular blob of 60 by 50 pixels: enclosed area exactly 3000, a hull of four
points and no defect. -/
def rectangleContour : Contour :=
  { points := [⟨0, 0⟩, ⟨0, 50⟩, ⟨60, 50⟩, ⟨60, 0⟩]
    area := 3000
    hullIndices := [0, 1, 2, 3]
    defects := [] }

/-- A record of the elapsed times that lead to an event.  `processed` lists `dt` of the
ticks processed since the last delivered event (or since construction), in order.
`holding` lists `dt` of the ticks that added to `holdTime` since `holdTime` was last set to
0: the ticks, at the end of `processed`, on which the raw count matched the held count. -/
structure Meter where
  processed : List ℚ
  holding : List ℚ
deriving DecidableEq

/-- The meter after one call on tracker `s`: a processed tick records its `dt`, a tick that
resets `holdTime` starts a new hold, a `consumeTrigger` that delivers an event restarts the
measurement. -/
def meterCall (s : GestureTracker) (m : Meter) : Call → Meter
  | Call.setEnabled _ _ _ => m
  | Call.update dt isActive frame =>
    if s.capOpened && isActive then
      match frame with
      | none => m
      | some contours =>
        match rawFingerCount contours with
        | none => m
        | some raw =>
          if raw = s.lastStableCount ∧ raw > 0 then
            { processed := m.processed ++ [dt], holding := m.holding ++ [dt] }
          else { processed := m.processed ++ [dt], holding := [] }
    else m
  | Call.consumeTrigger _ =>
    if s.triggerAction then { processed := [], holding := [] } else m

/-- A sequence of calls with the meter running: for every event delivered, in order, the
meter reading at the moment of delivery. -/
def eventGaps : GestureTracker → Meter → List Call → Option (List Meter)
  | _, _, [] => some []
  | s, m, c :: rest =>
    match runCall s c with
    | none => none
    | some (s1, ev) =>
      match eventGaps s1 (meterCall s m c) rest with
      | none => none
      | some gs => some (if ev.isSome then m :: gs else gs)

/-- The meter agrees with the tracker: `holdTime` is what the `float` additions of the
recorded holding ticks give, these ticks are the last of the processed ones, and an armed
tracker has reached the threshold. -/
def MeterCovers (s : GestureTracker) (m : Meter) : Prop :=
  s.holdTime = f32sum m.holding ∧ m.holding <:+ m.processed ∧
    (s.triggerAction = true → REQUIRED_HOLD_TIME ≤ s.holdTime)

/-- What one iteration of the main loop feeds the tracker: the frame time, whether
`currentState == QUIZ_MODE` at line 715, the frame the camera delivers, and the
`setEnabled(cameraEnabled)` calls of this iteration's click handlers (lines 838, 909)
with the outcome of their open attempts. -/
structure LoopInput where
  dt : ℚ
  inQuizMode : Bool
  frame : Option (List Contour)
  cameraToggles : List (Bool × Bool × Bool)

/-- What one iteration of the main loop observes: `triggerAction` on entry, the game
state flag passed to `update`, and the result of `consumeTrigger`. -/
structure LoopRecord where
  armedAtStart : Bool
  inQuizMode : Bool
  gestureTriggered : Bool
  gestureFingers : Int
deriving DecidableEq

/-- Lines 715-717 followed by the camera toggles of the event handlers:
`update(dt, currentState == QUIZ_MODE)`, `gestureFingers = 0`, `consumeTrigger`. -/
def loopIteration (s : GestureTracker) (inp : LoopInput) : Option (GestureTracker × LoopRecord) :=
  match update s inp.dt inp.inQuizMode inp.frame with
  | none => none
  | some s1 =>
    let gestureFingers : Int := 0
    let r := consumeTrigger s1 gestureFingers
    some (inp.cameraToggles.foldl (fun t c => setEnabled t c.1 c.2.1 c.2.2) r.2.2,
      { armedAtStart := s.triggerAction, inQuizMode := inp.inQuizMode,
        gestureTriggered := r.1, gestureFingers := r.2.1 })

/-- The main loop over a sequence of iterations: the tracker at the end and what every
iteration observed. -/
def mainLoop : GestureTracker → List LoopInput → Option (GestureTracker × List LoopRecord)
  | s, [] => some (s, [])
  | s, inp :: rest =>
    match loopIteration s inp with
    | none => none
    | some (s1, r) =>
      match mainLoop s1 rest with
      | none => none
      | some (s2, rs) => some (s2, r :: rs)

/-- A session at the camera: enable on device 0, show the open hand (raw count 4) on three
ticks of `0.1f` seconds, consume, keep showing it on two ticks of 0.125 s, consume again. -/
def handSession : List Call :=
  [Call.setEnabled true true false,
   Call.update (f32round (1 / 10)) true (some [noiseContour, handContour]),
   Call.update (f32round (1 / 10)) true (some [noiseContour, handContour]),
   Call.update (f32round (1 / 10)) true (some [noiseContour, handContour]),
   Call.consumeTrigger 0,
   Call.update (1 / 8) true (some [noiseContour, handContour]),
   Call.update (1 / 8) true (some [noiseContour, handContour]),
   Call.consumeTrigger 0]

/-- The `float` nearest to 0.15, `5033165 / 2^25`. -/
def DT_015 : ℚ := f32round (3 / 20)

/-- The `float` `13421771 / 2^28`, about 0.0499999933: two units in the last place below
`0.05f`. -/
def DT_SHORT : ℚ := 13421771 / 268435456

/-- A session in which the second event comes early: after the first event the open hand
stays in view for two more ticks of `DT_015` and `DT_SHORT` seconds, whose `float` sum is
`0.2f` although the elapsed times sum to less than 0.2 s. -/
def shortSession : List Call :=
  [Call.setEnabled true true false,
   Call.update (1 / 4) true (some [noiseContour, handContour]),
   Call.update (1 / 4) true (some [noiseContour, handContour]),
   Call.consumeTrigger 0,
   Call.update DT_015 true (some [noiseContour, handContour]),
   Call.update DT_SHORT true (some [noiseContour, handContour]),
   Call.consumeTrigger 0]

/-- An L-shaped blob: the square of side 100 with the corner square of side 20 cut out.
Area 9600, a hull of 5 points, and one convexity defect, at the inner corner (80, 80)
between the hull points (100, 80) and (80, 100); its depth is `20 / sqrt 2`, 3620 in
fixed point, and the angle at the inner corner is a right angle. -/
def notchContour : Contour :=
  { points := [⟨0, 0⟩, ⟨100, 0⟩, ⟨100, 80⟩, ⟨80, 80⟩, ⟨80, 100⟩, ⟨0, 100⟩]
    area := 9600
    hullIndices := [0, 1, 2, 4, 5]
    defects := [⟨2, 4, 3, 3620⟩] }

/-- Five iterations of the main loop: the camera button is clicked off and on again (the
second click opens device 0), then the open hand is in view on two iterations in quiz
mode and on a third one while the game is not in quiz mode. -/
def pausedSession : List LoopInput :=
  [{ dt := 1 / 4, inQuizMode := false, frame := none, cameraToggles := [(false, false, false)] },
   { dt := 1 / 4, inQuizMode := false, frame := none, cameraToggles := [(true, true, false)] },
   { dt := 1 / 4, inQuizMode := true, frame := some [handContour], cameraToggles := [] },
   { dt := 1 / 4, inQuizMode := true, frame := some [handContour], cameraToggles := [] },
   { dt := 1 / 4, inQuizMode := false, frame := some [handContour], cameraToggles := [] }]

/-- The tracker at the end of `pausedSession`. -/
def pausedSessionEnd : GestureTracker :=
  { capOpened := true, detectedFingers := 4, lastStableCount := 4, holdTime := 0,
    triggerAction := false, isWindowOpen := false, isActive := false }

/-- What the iterations of `pausedSession` observe: one event, the count 4, on the second
iteration in quiz mode. -/
def pausedSessionLog : List LoopRecord :=
  [{ armedAtStart := false, inQuizMode := false, gestureTriggered := false, gestureFingers := 0 },
   { armedAtStart := false, inQuizMode := false, gestureTriggered := false, gestureFingers := 0 },
   { armedAtStart := false, inQuizMode := true, gestureTriggered := false, gestureFingers := 0 },
   { armedAtStart := false, inQuizMode := true, gestureTriggered := true, gestureFingers := 4 },
   { armedAtStart := false, inQuizMode := false, gestureTriggered := false, gestureFingers := 0 }]

/-! ### The quiz game around the tracker -/

/-- The type `enum GameState`. -/
inductive GameState
  | MENU
  | SELECT_DIFFICULTY
  | SET_LIMIT
  | SETTINGS
  | QUIZ_MODE
  | PAUSED
  | GAME_OVER
deriving DecidableEq, Repr

/-- The type `struct QuizQuestion`; a `std::string` is its list of characters. -/
structure QuizQuestion where
  questionText : List Char
  options : List (List Char)
  correctAnswerIndex : Int
  userSelectedOption : Int := -1
deriving DecidableEq, Repr

/-- The variables of `main` that the gesture handler, `loadQuestion` and `startGame` read
or write.  `currentQuestionIndex` is an `unsigned int`. -/
structure Game where
  currentState : GameState
  allQuestions : List QuizQuestion
  currentQuestionIndex : Nat
  score : Int
  totalQuestions : Int
  actualTotalQuestions : Int
  comboStreak : Int
  isAnswerLocked : Bool
  autoNext : Bool
  timeLeft : ℚ
  shakeTime : ℚ
  isTypingCustomAmount : Bool
  customInputString : List Char
deriving DecidableEq

/-- The constant `const float TIME_PER_QUESTION = 15.0f`. -/
def TIME_PER_QUESTION : ℚ := 15

/-- Conversion of an `int` to `unsigned int`, as in the comparison of line 625. -/
def toUnsigned (x : Int) : Nat := (x % 4294967296).toNat

/-- Lines 988-1038: the body of `if (gestureTriggered)`.  `options` is an array of four
buttons; an index outside it, or outside `allQuestions`, is modelled by `none`. -/
def handleGesture (g : Game) (gestureFingers : Int) : Option Game :=
  if gestureFingers = 5 then
    if g.currentState = GameState.QUIZ_MODE then some { g with currentState := GameState.PAUSED }
    else if g.currentState = GameState.PAUSED then
      some { g with currentState := GameState.QUIZ_MODE }
    else some g
  else if g.currentState = GameState.QUIZ_MODE ∧ g.isAnswerLocked = false then
    let selectedIndex : Int :=
      if gestureFingers = 1 then 0
      else if gestureFingers = 2 then 1
      else if gestureFingers = 3 then 2
      else if gestureFingers = 4 then 3
      else -1
    if selectedIndex ≠ -1 then
      match g.allQuestions[g.currentQuestionIndex]? with
      | none => none
      | some q =>
        let currentQ : QuizQuestion := { q with userSelectedOption := selectedIndex }
        let questions := g.allQuestions.set g.currentQuestionIndex currentQ
        if selectedIndex = currentQ.correctAnswerIndex then
          if 0 ≤ selectedIndex ∧ selectedIndex < 4 then
            some { g with allQuestions := questions, score := g.score + 1,
                          comboStreak := g.comboStreak + 1, isAnswerLocked := true,
                          autoNext := true }
          else none
        else
          if (0 ≤ selectedIndex ∧ selectedIndex < 4) ∧
              (0 ≤ currentQ.correctAnswerIndex ∧ currentQ.correctAnswerIndex < 4) then
            some { g with allQuestions := questions, shakeTime := 1 / 2, comboStreak := 0,
                          isAnswerLocked := true, autoNext := true }
          else none
    else some g
  else some g

/-- The lambda `loadQuestion` (lines 624-663). -/
def loadQuestion (g : Game) : Option Game :=
  if g.currentQuestionIndex < toUnsigned g.actualTotalQuestions then
    match g.allQuestions[g.currentQuestionIndex]? with
    | none => none
    | some q =>
      if q.options.length < 4 then none
      else if q.userSelectedOption ≠ -1 then
        if (0 ≤ q.correctAnswerIndex ∧ q.correctAnswerIndex < 4) ∧
            (0 ≤ q.userSelectedOption ∧ q.userSelectedOption < 4) then
          some { g with isAnswerLocked := true, timeLeft := 0, autoNext := false }
        else none
      else
        some { g with isAnswerLocked := false, timeLeft := TIME_PER_QUESTION, autoNext := false }
  else some { g with currentState := GameState.GAME_OVER }

/-- The lambda `startGame` (lines 666-680); `shuffle` is the permutation `std::shuffle`
applies with the generator of this call. -/
def startGame (g : Game) (limit : Int) (shuffle : List QuizQuestion → List QuizQuestion) :
    Option Game :=
  let g1 : Game := { g with score := 0, currentQuestionIndex := 0 }
  let g2 : Game :=
    { g1 with allQuestions := g1.allQuestions.map (fun q => { q with userSelectedOption := -1 }) }
  let g3 : Game := { g2 with actualTotalQuestions := min limit g2.totalQuestions }
  let g4 : Game := { g3 with allQuestions := shuffle g3.allQuestions }
  match loadQuestion g4 with
  | none => none
  | some g5 =>
    some { g5 with currentState := GameState.QUIZ_MODE, isTypingCustomAmount := false,
                   customInputString := [] }

/-- The function `getHighScore`; `file` is the integer stored in `highscore.txt`, `none`
when the file is missing or unreadable. -/
def getHighScore (file : Option Int) : Int :=
  match file with
  | some highScore => highScore
  | none => 0

/-- The function `saveHighScore`: the content of `highscore.txt` afterwards. -/
def saveHighScore (file : Option Int) (currentScore : Int) : Option Int :=
  let oldHigh := getHighScore file
  if currentScore > oldHigh then some currentScore else file

/-- Two loaded questions: the answer to the first is option C, to the second option A. -/
def sampleQuestions : List QuizQuestion :=
  [{ questionText := "2 + 2 = ?".toList,
     options := ["2".toList, "3".toList, "4".toList, "5".toList], correctAnswerIndex := 2 },
   { questionText := "1 + 0 = ?".toList,
     options := ["1".toList, "0".toList, "2".toList, "3".toList], correctAnswerIndex := 0 }]

/-- A game in quiz mode on the first of the sample questions, not yet answered. -/
def sampleGame : Game :=
  { currentState := GameState.QUIZ_MODE, allQuestions := sampleQuestions,
    currentQuestionIndex := 0, score := 0, totalQuestions := 2, actualTotalQuestions := 2,
    comboStreak := 0, isAnswerLocked := false, autoNext := false, timeLeft := 15,
    shakeTime := 0, isTypingCustomAmount := false, customInputString := [] }

/-! ### Loading questions: lines 1480-1509 -/

/-- Successive `getline(stream, segment, delim)` calls on a stream holding the given
characters: the segments extracted until a call extracts nothing at end of input.
`cur` holds, reversed, the characters of the segment being read. -/
def getlines (delim : Char) : List Char → List Char → List (List Char)
  | [], cur => if cur.isEmpty then [] else [cur.reverse]
  | c :: cs, cur =>
    if c = delim then cur.reverse :: getlines delim cs []
    else getlines delim cs (c :: cur)

/-- The C function `isspace` in the "C" locale. -/
def isspace (c : Char) : Bool :=
  c = ' ' || (9 ≤ c.toNat && c.toNat ≤ 13)

/-- The function `std::stoi` in base 10: leading white space, an optional sign, then
digits up to the first other character.  `none` stands for the exception it throws:
`invalid_argument` without a digit, `out_of_range` outside `int`. -/
def stoi (str : List Char) : Option Int :=
  let s1 := str.dropWhile isspace
  let negative : Bool := s1.head? = some '-'
  let s2 := if s1.head? = some '-' ∨ s1.head? = some '+' then s1.tail else s1
  let digits := s2.takeWhile Char.isDigit
  if digits.isEmpty then none
  else
    let magnitude : Int := digits.foldl (fun acc d => acc * 10 + ((d.toNat : Int) - 48)) 0
    let value : Int := if negative then -magnitude else magnitude
    if -2147483648 ≤ value ∧ value ≤ 2147483647 then some value else none

/-- Lines 1497-1501: every occurrence of a backslash followed by `n` becomes a newline. -/
def replaceEscapedNewlines : List Char → List Char
  | [] => []
  | [c] => [c]
  | c :: d :: rest =>
    if c = Char.ofNat 92 ∧ d = 'n' then Char.ofNat 10 :: replaceEscapedNewlines rest
    else c :: replaceEscapedNewlines (d :: rest)

/-- The `while (getline(file, line))` loop of lines 1486-1507 over the remaining lines,
threading the vector `questions`. -/
def loadLoop : List (List Char) → List QuizQuestion → List QuizQuestion
  | [], questions => questions
  | line :: rest, questions =>
    if line.isEmpty ∨ line.head? = some '#' then loadLoop rest questions
    else
      match getlines '|' line [] with
      | [p0, p1, p2, p3, p4, p5] =>
        match stoi p5 with
        | none => loadLoop rest questions
        | some correctAnswerIndex =>
          if correctAnswerIndex ≥ 0 ∧ correctAnswerIndex < 4 then
            loadLoop rest (questions ++
              [{ questionText := replaceEscapedNewlines p0, options := [p1, p2, p3, p4],
                 correctAnswerIndex := correctAnswerIndex }])
          else loadLoop rest questions
      | _ => loadLoop rest questions

/-- The function `loadQuestionsFromFile`; `file` is the content of the named file, `none`
when it cannot be opened. -/
def loadQuestionsFromFile (file : Option (List Char)) : List QuizQuestion :=
  match file with
  | none => []
  | some content => loadLoop (getlines (Char.ofNat 10) content []) []

/-- The question a single line of the file stands for, in the words of the specification:
none for an empty line, a line starting with `#`, a line that does not split on `|` into
exactly 6 fields, or a sixth field that does not parse as an integer in `[0,3]`. -/
def lineQuestion (line : List Char) : Option QuizQuestion :=
  if line = [] then none
  else if line.head? = some '#' then none
  else if (getlines '|' line []).length ≠ 6 then none
  else
    match stoi ((getlines '|' line []).getD 5 []) with
    | none => none
    | some n =>
      if 0 ≤ n ∧ n ≤ 3 then
        some { questionText := replaceEscapedNewlines ((getlines '|' line []).getD 0 []),
               options := [(getlines '|' line []).getD 1 [], (getlines '|' line []).getD 2 [],
                           (getlines '|' line []).getD 3 [], (getlines '|' line []).getD 4 []],
               correctAnswerIndex := n }
      else none

/-- A question file with a comment, two well-formed lines, an empty line, a line with
five fields, a line whose answer index is 4 and a line whose answer is not a number. -/
def sampleFile : List Char :=
  ("# questions" ++ String.singleton (Char.ofNat 10) ++
   "2 + 2 = ?|2|3|4|5|2" ++ String.singleton (Char.ofNat 10) ++
   String.singleton (Char.ofNat 10) ++
   "too|few|fields|here|1" ++ String.singleton (Char.ofNat 10) ++
   "index|a|b|c|d|4" ++ String.singleton (Char.ofNat 10) ++
   "word|a|b|c|d|two" ++ String.singleton (Char.ofNat 10) ++
   "1 + 0 = ?|1|0|2|3|0" ++ String.singleton (Char.ofNat 10)).toList

end GestureQuiz

namespace GestureQuiz

/-! ## Rounding to `float` and `double` -/

theorem roundHalfEven_ge (q : ℚ) (n : Int) (h : (n : ℚ) ≤ q) : n ≤ roundHalfEven q := by
  have hf : n ≤ ⌊q⌋ := Int.le_floor.mpr h
  unfold roundHalfEven
  split_ifs <;> omega

theorem roundHalfEven_le (q : ℚ) (n : Int) (h : q ≤ (n : ℚ)) : roundHalfEven q ≤ n := by
  have hf : ⌊q⌋ ≤ n := by
    have := Int.floor_le q
    exact_mod_cast (Int.floor_le q).trans h
  rcases lt_or_eq_of_le hf with hlt | heq
  · unfold roundHalfEven
    split_ifs <;> omega
  · have hq : q = ⌊q⌋ := by
      apply le_antisymm
      · rw [heq]; exact h
      · exact Int.floor_le q
    unfold roundHalfEven
    have h0 : q - ⌊q⌋ < 1 / 2 := by
      rw [← hq]; norm_num
    rw [if_pos h0]
    omega

theorem binadeSearch_spec (a : ℚ) (k : Nat) (e : Int)
    (h1 : (2 : ℚ) ^ e ≤ a) (h2 : a < (2 : ℚ) ^ (e + 2 ^ k)) :
    (2 : ℚ) ^ (binadeSearch a k e) ≤ a ∧ a < (2 : ℚ) ^ (binadeSearch a k e + 1) := by
  induction k generalizing e with
  | zero =>
    simp only [binadeSearch]
    exact ⟨h1, by simpa using h2⟩
  | succ k ih =>
    simp only [binadeSearch]
    by_cases h : (2 : ℚ) ^ (e + 2 ^ k) ≤ a
    · rw [if_pos h]
      apply ih _ h
      have : e + 2 ^ k + 2 ^ k = e + 2 ^ (k + 1) := by ring
      rw [this]
      exact h2
    · rw [if_neg h]
      exact ih e h1 (lt_of_not_le h)

theorem two_zpow_pos (e : Int) : (0 : ℚ) < (2 : ℚ) ^ e := zpow_pos (by norm_num) e

/-- The three ways `f32round` treats a positive number: overflow, the subnormal range,
and a normal binade with exponent `e`. -/
theorem f32round_pos (x : ℚ) (hx : 0 < x) :
    ((2 : ℚ) ^ (128 : Int) ≤ x ∧ f32round x = (2 : ℚ) ^ (128 : Int)) ∨
    (x < (2 : ℚ) ^ (-126 : Int) ∧
      f32round x = min ((roundHalfEven (x / (2 : ℚ) ^ (-149 : Int)) : ℚ) * (2 : ℚ) ^ (-149 : Int))
        ((2 : ℚ) ^ (128 : Int))) ∨
    ∃ e : Int, (2 : ℚ) ^ e ≤ x ∧ x < (2 : ℚ) ^ (e + 1) ∧
      f32round x = min ((roundHalfEven (x / (2 : ℚ) ^ (e - 23)) : ℚ) * (2 : ℚ) ^ (e - 23))
        ((2 : ℚ) ^ (128 : Int)) := by
  have habs : |x| = x := abs_of_pos hx
  have hneg : ¬ x < 0 := not_lt.mpr (le_of_lt hx)
  unfold f32round roundTo
  simp only [habs, hneg, if_false]
  have h128 : (127 : Int) + 1 = 128 := by norm_num
  have h23 : ((24 : Nat) : Int) - 1 = 23 := by norm_num
  rw [h128, h23]
  by_cases hover : (2 : ℚ) ^ (128 : Int) ≤ x
  · left
    exact ⟨hover, by rw [if_pos hover]⟩
  · right
    rw [if_neg hover]
    by_cases hsub : x < (2 : ℚ) ^ (-126 : Int)
    · left
      refine ⟨hsub, ?_⟩
      rw [if_pos hsub]
      norm_num
    · right
      rw [if_neg hsub]
      have hspec := binadeSearch_spec x 8 (-126) (le_of_not_lt hsub)
        (lt_of_lt_of_le (lt_of_not_le hover) (zpow_le_zpow_right₀ (by norm_num) (by norm_num)))
      exact ⟨binadeSearch x 8 (-126), hspec.1, hspec.2, rfl⟩

/-- In a normal binade the rounded value stays inside the closed binade. -/
theorem round_in_binade (x : ℚ) (e : Int) (h1 : (2 : ℚ) ^ e ≤ x) (h2 : x < (2 : ℚ) ^ (e + 1)) :
    (2 : ℚ) ^ e ≤ (roundHalfEven (x / (2 : ℚ) ^ (e - 23)) : ℚ) * (2 : ℚ) ^ (e - 23) ∧
    (roundHalfEven (x / (2 : ℚ) ^ (e - 23)) : ℚ) * (2 : ℚ) ^ (e - 23) ≤ (2 : ℚ) ^ (e + 1) := by
  have hu : (0 : ℚ) < (2 : ℚ) ^ (e - 23) := two_zpow_pos _
  have hlo : (2 : ℚ) ^ e = ((2 ^ 23 : Int) : ℚ) * (2 : ℚ) ^ (e - 23) := by
    rw [zpow_sub₀ (by norm_num : (2 : ℚ) ≠ 0)]
    push_cast
    field_simp
    ring
  have hhi : (2 : ℚ) ^ (e + 1) = ((2 ^ 24 : Int) : ℚ) * (2 : ℚ) ^ (e - 23) := by
    rw [zpow_sub₀ (by norm_num : (2 : ℚ) ≠ 0), zpow_add₀ (by norm_num : (2 : ℚ) ≠ 0)]
    push_cast
    field_simp
    ring
  constructor
  · rw [hlo]
    apply mul_le_mul_of_nonneg_right _ (le_of_lt hu)
    have : ((2 ^ 23 : Int) : ℚ) ≤ x / (2 : ℚ) ^ (e - 23) := by
      rw [le_div_iff₀ hu, ← hlo]
      exact h1
    exact_mod_cast roundHalfEven_ge _ _ this
  · rw [hhi]
    apply mul_le_mul_of_nonneg_right _ (le_of_lt hu)
    have : x / (2 : ℚ) ^ (e - 23) ≤ ((2 ^ 24 : Int) : ℚ) := by
      rw [div_le_iff₀ hu, ← hhi]
      exact le_of_lt h2
    exact_mod_cast roundHalfEven_le _ _ this

/-- The value of `0.2f`. -/
theorem REQUIRED_HOLD_TIME_eq : REQUIRED_HOLD_TIME = 13421773 / 67108864 := by
  decide!

/-- The constant `0.2f` lies above 0.2. -/
theorem fifth_lt_required : (1 : ℚ) / 5 < REQUIRED_HOLD_TIME := by
  rw [REQUIRED_HOLD_TIME_eq]
  norm_num

/-- Rounding to `float` never takes a value at or above `0.2f` below `0.2f`. -/
theorem f32round_ge_required (x : ℚ) (h : REQUIRED_HOLD_TIME ≤ x) :
    REQUIRED_HOLD_TIME ≤ f32round x := by
  have hT : REQUIRED_HOLD_TIME = 13421773 / 67108864 := REQUIRED_HOLD_TIME_eq
  have hx : 0 < x := lt_of_lt_of_le (by rw [hT]; norm_num) h
  rcases f32round_pos x hx with ⟨_, hr⟩ | ⟨hsub, _⟩ | ⟨e, h1, h2, hr⟩
  · rw [hr, hT]
    norm_num
  · exfalso
    have : (2 : ℚ) ^ (-126 : Int) < REQUIRED_HOLD_TIME := by
      rw [hT]
      norm_num
    linarith
  · rw [hr]
    apply le_min _ (by rw [hT]; norm_num)
    have hbin := round_in_binade x e h1 h2
    rcases lt_trichotomy e (-3) with hlt | heq | hgt
    · exfalso
      have h3 : (2 : ℚ) ^ (e + 1) ≤ (2 : ℚ) ^ (-3 : Int) :=
        zpow_le_zpow_right₀ (by norm_num) (by omega)
      have : (2 : ℚ) ^ (-3 : Int) < REQUIRED_HOLD_TIME := by
        rw [hT]
        norm_num
      linarith
    · subst heq
      have hu : (2 : ℚ) ^ ((-3 : Int) - 23) = 1 / 67108864 := by norm_num
      rw [hu]
      have hq : ((13421773 : Int) : ℚ) ≤ x / (1 / 67108864) := by
        rw [hT] at h
        rw [le_div_iff₀ (by norm_num)]
        push_cast
        linarith
      have hn := roundHalfEven_ge _ _ hq
      have hn' : ((13421773 : Int) : ℚ) ≤ (roundHalfEven (x / (1 / 67108864)) : ℚ) := by
        exact_mod_cast hn
      rw [hT]
      push_cast at hn'
      linarith
    · have h3 : (2 : ℚ) ^ (-2 : Int) ≤ (2 : ℚ) ^ e :=
        zpow_le_zpow_right₀ (by norm_num) (by omega)
      have : REQUIRED_HOLD_TIME < (2 : ℚ) ^ (-2 : Int) := by
        rw [hT]
        norm_num
      linarith [hbin.1]

theorem f32round_nonpos (x : ℚ) (hx : x ≤ 0) : f32round x ≤ 0 := by
  unfold f32round roundTo
  simp only
  rcases lt_or_eq_of_le hx with hneg | hzero
  · rw [if_pos hneg]
    have hu : ∀ e : Int, (0 : ℚ) ≤ (roundHalfEven (|x| / (2 : ℚ) ^ e) : ℚ) * (2 : ℚ) ^ e := by
      intro e
      apply mul_nonneg _ (le_of_lt (two_zpow_pos e))
      have : ((0 : Int) : ℚ) ≤ |x| / (2 : ℚ) ^ e := by
        simpa using div_nonneg (abs_nonneg x) (le_of_lt (two_zpow_pos e))
      exact_mod_cast roundHalfEven_ge _ _ this
    have hinf : (0 : ℚ) ≤ (2 : ℚ) ^ ((127 : Int) + 1) := le_of_lt (two_zpow_pos _)
    split_ifs
    · exact neg_nonpos.mpr hinf
    · exact neg_nonpos.mpr (le_min (hu _) hinf)
    · exact neg_nonpos.mpr (le_min (hu _) hinf)
  · subst hzero
    norm_num [roundHalfEven]

/-- A `float` that is at least 0.2 is at least `0.2f`: no `float` lies in between. -/
theorem f32round_ge_fifth (y : ℚ) (h : 1 / 5 ≤ f32round y) : REQUIRED_HOLD_TIME ≤ f32round y := by
  have hT : REQUIRED_HOLD_TIME = 13421773 / 67108864 := REQUIRED_HOLD_TIME_eq
  have hy : 0 < y := by
    by_contra hn
    have := f32round_nonpos y (not_lt.mp hn)
    linarith
  rcases f32round_pos y hy with ⟨_, hr⟩ | ⟨hsub, hr⟩ | ⟨e, h1, h2, hr⟩
  · rw [hr, hT]
    norm_num
  · exfalso
    rw [hr] at h
    have hu : (0 : ℚ) < (2 : ℚ) ^ (-149 : Int) := two_zpow_pos _
    have hq : y / (2 : ℚ) ^ (-149 : Int) ≤ ((2 ^ 23 : Int) : ℚ) := by
      rw [div_le_iff₀ hu]
      have : ((2 ^ 23 : Int) : ℚ) * (2 : ℚ) ^ (-149 : Int) = (2 : ℚ) ^ (-126 : Int) := by
        norm_num
      rw [this]
      exact le_of_lt hsub
    have hn := roundHalfEven_le _ _ hq
    have hn' : (roundHalfEven (y / (2 : ℚ) ^ (-149 : Int)) : ℚ) ≤ ((2 ^ 23 : Int) : ℚ) := by
      exact_mod_cast hn
    have hle : (roundHalfEven (y / (2 : ℚ) ^ (-149 : Int)) : ℚ) * (2 : ℚ) ^ (-149 : Int)
        ≤ ((2 ^ 23 : Int) : ℚ) * (2 : ℚ) ^ (-149 : Int) :=
      mul_le_mul_of_nonneg_right hn' (le_of_lt hu)
    have hsmall : ((2 ^ 23 : Int) : ℚ) * (2 : ℚ) ^ (-149 : Int) < 1 / 5 := by norm_num
    have := min_le_left ((roundHalfEven (y / (2 : ℚ) ^ (-149 : Int)) : ℚ) * (2 : ℚ) ^ (-149 : Int))
      ((2 : ℚ) ^ (128 : Int))
    linarith
  · rw [hr] at h ⊢
    apply le_min _ (by rw [hT]; norm_num)
    have hbin := round_in_binade y e h1 h2
    have hmin := min_le_left ((roundHalfEven (y / (2 : ℚ) ^ (e - 23)) : ℚ) * (2 : ℚ) ^ (e - 23))
      ((2 : ℚ) ^ (128 : Int))
    rcases lt_trichotomy e (-3) with hlt | heq | hgt
    · exfalso
      have h3 : (2 : ℚ) ^ (e + 1) ≤ (2 : ℚ) ^ (-3 : Int) :=
        zpow_le_zpow_right₀ (by norm_num) (by omega)
      have h4 : (1 : ℚ) / 5 ≤ (2 : ℚ) ^ (-3 : Int) :=
        le_trans h (le_trans hmin (le_trans hbin.2 h3))
      norm_num at h4
    · subst heq
      have hu : (2 : ℚ) ^ ((-3 : Int) - 23) = 1 / 67108864 := by norm_num
      rw [hu] at h hmin ⊢
      have h5 : (1 : ℚ) / 5 ≤ (roundHalfEven (y / (1 / 67108864)) : ℚ) * (1 / 67108864) :=
        le_trans h hmin
      have hn : (13421772 : ℚ) < (roundHalfEven (y / (1 / 67108864)) : ℚ) := by
        linarith
      have hn' : (13421772 : Int) < roundHalfEven (y / (1 / 67108864)) := by
        exact_mod_cast hn
      have hn2 : ((13421773 : Int) : ℚ) ≤ (roundHalfEven (y / (1 / 67108864)) : ℚ) := by
        exact_mod_cast (show (13421773 : Int) ≤ roundHalfEven (y / (1 / 67108864)) by omega)
      rw [hT]
      push_cast at hn2
      linarith
    · have h3 : (2 : ℚ) ^ (-2 : Int) ≤ (2 : ℚ) ^ e :=
        zpow_le_zpow_right₀ (by norm_num) (by omega)
      have : REQUIRED_HOLD_TIME < (2 : ℚ) ^ (-2 : Int) := by
        rw [hT]
        norm_num
      linarith [hbin.1]


/-- Rounding to `float` never crosses a normal `float` `n * 2^(e-23)` from above. -/
theorem f32round_ge_float (n e : Int) (hn1 : 2 ^ 23 ≤ n) (hn2 : n < 2 ^ 24)
    (he1 : -126 ≤ e) (he2 : e ≤ 127) (x : ℚ) (h : (n : ℚ) * (2 : ℚ) ^ (e - 23) ≤ x) :
    (n : ℚ) * (2 : ℚ) ^ (e - 23) ≤ f32round x := by
  have hu : (0 : ℚ) < (2 : ℚ) ^ (e - 23) := two_zpow_pos _
  have hlo : (2 : ℚ) ^ e = ((2 ^ 23 : Int) : ℚ) * (2 : ℚ) ^ (e - 23) := by
    rw [zpow_sub₀ (by norm_num : (2 : ℚ) ≠ 0)]
    push_cast
    field_simp
    ring
  have hhi : (2 : ℚ) ^ (e + 1) = ((2 ^ 24 : Int) : ℚ) * (2 : ℚ) ^ (e - 23) := by
    rw [zpow_sub₀ (by norm_num : (2 : ℚ) ≠ 0), zpow_add₀ (by norm_num : (2 : ℚ) ≠ 0)]
    push_cast
    field_simp
    ring
  have hr1 : (2 : ℚ) ^ e ≤ (n : ℚ) * (2 : ℚ) ^ (e - 23) := by
    rw [hlo]
    exact mul_le_mul_of_nonneg_right (by exact_mod_cast hn1) (le_of_lt hu)
  have hr2 : (n : ℚ) * (2 : ℚ) ^ (e - 23) < (2 : ℚ) ^ (e + 1) := by
    rw [hhi]
    exact mul_lt_mul_of_pos_right (by exact_mod_cast hn2) hu
  have hx : 0 < x := lt_of_lt_of_le (lt_of_lt_of_le (two_zpow_pos e) hr1) h
  have htop : (2 : ℚ) ^ (e + 1) ≤ (2 : ℚ) ^ (128 : Int) :=
    zpow_le_zpow_right₀ (by norm_num) (by omega)
  rcases f32round_pos x hx with ⟨_, hr⟩ | ⟨hsub, _⟩ | ⟨e1, h1, h2, hr⟩
  · rw [hr]
    exact le_of_lt (lt_of_lt_of_le hr2 htop)
  · exfalso
    have h3 : (2 : ℚ) ^ (-126 : Int) ≤ (2 : ℚ) ^ e :=
      zpow_le_zpow_right₀ (by norm_num) he1
    linarith
  · rw [hr]
    apply le_min _ (le_of_lt (lt_of_lt_of_le hr2 htop))
    have hbin := round_in_binade x e1 h1 h2
    rcases lt_trichotomy e1 e with hlt | heq | hgt
    · exfalso
      have h3 : (2 : ℚ) ^ (e1 + 1) ≤ (2 : ℚ) ^ e :=
        zpow_le_zpow_right₀ (by norm_num) (by omega)
      linarith
    · subst heq
      apply mul_le_mul_of_nonneg_right _ (le_of_lt hu)
      have hq : (n : ℚ) ≤ x / (2 : ℚ) ^ (e1 - 23) := by
        rw [le_div_iff₀ hu]
        exact h
      exact_mod_cast roundHalfEven_ge _ _ hq
    · have h3 : (2 : ℚ) ^ (e + 1) ≤ (2 : ℚ) ^ e1 :=
        zpow_le_zpow_right₀ (by norm_num) (by omega)
      linarith [hbin.1]

/-- Rounding to `float` never crosses a normal `float` `n * 2^(e-23)` from below. -/
theorem f32round_le_float (n e : Int) (hn1 : 2 ^ 23 ≤ n) (hn2 : n < 2 ^ 24)
    (he1 : -126 ≤ e) (he2 : e ≤ 127) (x : ℚ) (h : x ≤ (n : ℚ) * (2 : ℚ) ^ (e - 23)) :
    f32round x ≤ (n : ℚ) * (2 : ℚ) ^ (e - 23) := by
  have hu : (0 : ℚ) < (2 : ℚ) ^ (e - 23) := two_zpow_pos _
  have hlo : (2 : ℚ) ^ e = ((2 ^ 23 : Int) : ℚ) * (2 : ℚ) ^ (e - 23) := by
    rw [zpow_sub₀ (by norm_num : (2 : ℚ) ≠ 0)]
    push_cast
    field_simp
    ring
  have hhi : (2 : ℚ) ^ (e + 1) = ((2 ^ 24 : Int) : ℚ) * (2 : ℚ) ^ (e - 23) := by
    rw [zpow_sub₀ (by norm_num : (2 : ℚ) ≠ 0), zpow_add₀ (by norm_num : (2 : ℚ) ≠ 0)]
    push_cast
    field_simp
    ring
  have hr1 : (2 : ℚ) ^ e ≤ (n : ℚ) * (2 : ℚ) ^ (e - 23) := by
    rw [hlo]
    exact mul_le_mul_of_nonneg_right (by exact_mod_cast hn1) (le_of_lt hu)
  have hr2 : (n : ℚ) * (2 : ℚ) ^ (e - 23) < (2 : ℚ) ^ (e + 1) := by
    rw [hhi]
    exact mul_lt_mul_of_pos_right (by exact_mod_cast hn2) hu
  have hrpos : (0 : ℚ) < (n : ℚ) * (2 : ℚ) ^ (e - 23) := lt_of_lt_of_le (two_zpow_pos e) hr1
  have htop : (2 : ℚ) ^ (e + 1) ≤ (2 : ℚ) ^ (128 : Int) :=
    zpow_le_zpow_right₀ (by norm_num) (by omega)
  by_cases hx : 0 < x
  · rcases f32round_pos x hx with ⟨hov, _⟩ | ⟨hsub, hr⟩ | ⟨e1, h1, h2, hr⟩
    · exfalso
      linarith
    · rw [hr]
      apply le_trans (min_le_left _ _)
      have hu1 : (0 : ℚ) < (2 : ℚ) ^ (-149 : Int) := two_zpow_pos _
      have hq : x / (2 : ℚ) ^ (-149 : Int) ≤ ((2 ^ 23 : Int) : ℚ) := by
        rw [div_le_iff₀ hu1]
        have : ((2 ^ 23 : Int) : ℚ) * (2 : ℚ) ^ (-149 : Int) = (2 : ℚ) ^ (-126 : Int) := by
          norm_num
        rw [this]
        exact le_of_lt hsub
      have hn := roundHalfEven_le _ _ hq
      have hn1 : (roundHalfEven (x / (2 : ℚ) ^ (-149 : Int)) : ℚ) ≤ ((2 ^ 23 : Int) : ℚ) := by
        exact_mod_cast hn
      have hle : (roundHalfEven (x / (2 : ℚ) ^ (-149 : Int)) : ℚ) * (2 : ℚ) ^ (-149 : Int)
          ≤ ((2 ^ 23 : Int) : ℚ) * (2 : ℚ) ^ (-149 : Int) :=
        mul_le_mul_of_nonneg_right hn1 (le_of_lt hu1)
      have h126 : ((2 ^ 23 : Int) : ℚ) * (2 : ℚ) ^ (-149 : Int) = (2 : ℚ) ^ (-126 : Int) := by
        norm_num
      have h3 : (2 : ℚ) ^ (-126 : Int) ≤ (2 : ℚ) ^ e :=
        zpow_le_zpow_right₀ (by norm_num) he1
      exact le_trans hle (le_trans (le_of_eq h126) (le_trans h3 hr1))
    · rw [hr]
      apply le_trans (min_le_left _ _)
      have hbin := round_in_binade x e1 h1 h2
      rcases lt_trichotomy e1 e with hlt | heq | hgt
      · have h3 : (2 : ℚ) ^ (e1 + 1) ≤ (2 : ℚ) ^ e :=
          zpow_le_zpow_right₀ (by norm_num) (by omega)
        linarith [hbin.2]
      · subst heq
        apply mul_le_mul_of_nonneg_right _ (le_of_lt hu)
        have hq : x / (2 : ℚ) ^ (e1 - 23) ≤ (n : ℚ) := by
          rw [div_le_iff₀ hu]
          exact h
        exact_mod_cast roundHalfEven_le _ _ hq
      · exfalso
        have h3 : (2 : ℚ) ^ (e + 1) ≤ (2 : ℚ) ^ e1 :=
          zpow_le_zpow_right₀ (by norm_num) (by omega)
        linarith
  · have := f32round_nonpos x (not_lt.mp hx)
    linarith

/-- The depth test of lines 198-199, `(float)v[3] / 256.0f > 10`, decides `v3 / 256 > 10`:
the conversion to `float` and the division round, but never across 2560 or 10. -/
theorem depth_test_iff (d : Int) :
    f32round (f32round (d : ℚ) / 256) > 10 ↔ (d : ℚ) / 256 > 10 := by
  have e2560 : ((10485760 : Int) : ℚ) * (2 : ℚ) ^ ((11 : Int) - 23) = 2560 := by norm_num
  have e2561 : ((10489856 : Int) : ℚ) * (2 : ℚ) ^ ((11 : Int) - 23) = 2561 := by norm_num
  have e10 : ((10485760 : Int) : ℚ) * (2 : ℚ) ^ ((3 : Int) - 23) = 10 := by norm_num
  have e10a : ((10489856 : Int) : ℚ) * (2 : ℚ) ^ ((3 : Int) - 23) = 2561 / 256 := by norm_num
  constructor
  · intro h
    by_contra hn
    have hd : (d : ℚ) ≤ 2560 := by
      have := not_lt.mp hn
      rw [div_le_iff₀ (by norm_num)] at this
      linarith
    have h1 := f32round_le_float 10485760 11 (by norm_num) (by norm_num) (by norm_num)
      (by norm_num) (d : ℚ) (by rw [e2560]; exact hd)
    rw [e2560] at h1
    have h2 := f32round_le_float 10485760 3 (by norm_num) (by norm_num) (by norm_num)
      (by norm_num) (f32round (d : ℚ) / 256) (by rw [e10]; linarith)
    rw [e10] at h2
    linarith
  · intro h
    have hd : (2560 : ℚ) < (d : ℚ) := by
      rw [gt_iff_lt, lt_div_iff₀ (by norm_num)] at h
      linarith
    have hd1 : (2561 : ℚ) ≤ (d : ℚ) := by
      have : (2560 : Int) < d := by exact_mod_cast hd
      exact_mod_cast (show (2561 : Int) ≤ d by omega)
    have h1 := f32round_ge_float 10489856 11 (by norm_num) (by norm_num) (by norm_num)
      (by norm_num) (d : ℚ) (by rw [e2561]; exact hd1)
    rw [e2561] at h1
    have h2 := f32round_ge_float 10489856 3 (by norm_num) (by norm_num) (by norm_num)
      (by norm_num) (f32round (d : ℚ) / 256) (by rw [e10a]; linarith)
    rw [e10a] at h2
    have : (10 : ℚ) < 2561 / 256 := by norm_num
    linarith

/-! ## Rounding to `double`, and the law of cosines in `double` arithmetic -/

theorem roundHalfEven_int (z : Int) : roundHalfEven (z : ℚ) = z := by
  unfold roundHalfEven
  simp

theorem roundHalfEven_error (q : ℚ) : |(roundHalfEven q : ℚ) - q| ≤ 1 / 2 := by
  have h1 := Int.floor_le q
  have h2 := Int.lt_floor_add_one q
  rw [abs_le]
  unfold roundHalfEven
  split_ifs with ha hb hc
  · constructor <;> linarith
  · push_cast
    constructor <;> linarith
  · have h3 : (1 : ℚ) / 2 ≤ q - ⌊q⌋ := not_lt.mp ha
    constructor <;> linarith
  · have h3 : q - ⌊q⌋ ≤ (1 : ℚ) / 2 := not_lt.mp hb
    push_cast
    constructor <;> linarith

/-- The three ways `f64round` treats a positive number: overflow, the subnormal range,
and a normal binade with exponent `e`. -/
theorem f64round_pos (x : ℚ) (hx : 0 < x) :
    ((2 : ℚ) ^ (1024 : Int) ≤ x ∧ f64round x = (2 : ℚ) ^ (1024 : Int)) ∨
    (x < (2 : ℚ) ^ (-1022 : Int) ∧
      f64round x = min ((roundHalfEven (x / (2 : ℚ) ^ (-1074 : Int)) : ℚ) * (2 : ℚ) ^ (-1074 : Int))
        ((2 : ℚ) ^ (1024 : Int))) ∨
    ∃ e : Int, (2 : ℚ) ^ e ≤ x ∧ x < (2 : ℚ) ^ (e + 1) ∧
      f64round x = min ((roundHalfEven (x / (2 : ℚ) ^ (e - 52)) : ℚ) * (2 : ℚ) ^ (e - 52))
        ((2 : ℚ) ^ (1024 : Int)) := by
  have habs : |x| = x := abs_of_pos hx
  have hneg : ¬ x < 0 := not_lt.mpr (le_of_lt hx)
  unfold f64round roundTo
  simp only [habs, hneg, if_false]
  have h1024 : (1023 : Int) + 1 = 1024 := by norm_num
  have h52 : ((53 : Nat) : Int) - 1 = 52 := by norm_num
  rw [h1024, h52]
  by_cases hover : (2 : ℚ) ^ (1024 : Int) ≤ x
  · left
    exact ⟨hover, by rw [if_pos hover]⟩
  · right
    rw [if_neg hover]
    by_cases hsub : x < (2 : ℚ) ^ (-1022 : Int)
    · left
      refine ⟨hsub, ?_⟩
      rw [if_pos hsub]
      norm_num
    · right
      rw [if_neg hsub]
      have hspec := binadeSearch_spec x 11 (-1022) (le_of_not_lt hsub)
        (lt_of_lt_of_le (lt_of_not_le hover) (zpow_le_zpow_right₀ (by norm_num) (by norm_num)))
      exact ⟨binadeSearch x 11 (-1022), hspec.1, hspec.2, rfl⟩

/-- In a normal binade the value rounded to `double` stays inside the closed binade. -/
theorem round_in_binade64 (x : ℚ) (e : Int) (h1 : (2 : ℚ) ^ e ≤ x) (h2 : x < (2 : ℚ) ^ (e + 1)) :
    (2 : ℚ) ^ e ≤ (roundHalfEven (x / (2 : ℚ) ^ (e - 52)) : ℚ) * (2 : ℚ) ^ (e - 52) ∧
    (roundHalfEven (x / (2 : ℚ) ^ (e - 52)) : ℚ) * (2 : ℚ) ^ (e - 52) ≤ (2 : ℚ) ^ (e + 1) := by
  have hu : (0 : ℚ) < (2 : ℚ) ^ (e - 52) := two_zpow_pos _
  have hlo : (2 : ℚ) ^ e = ((2 ^ 52 : Int) : ℚ) * (2 : ℚ) ^ (e - 52) := by
    rw [zpow_sub₀ (by norm_num : (2 : ℚ) ≠ 0)]
    push_cast
    field_simp
    ring
  have hhi : (2 : ℚ) ^ (e + 1) = ((2 ^ 53 : Int) : ℚ) * (2 : ℚ) ^ (e - 52) := by
    rw [zpow_sub₀ (by norm_num : (2 : ℚ) ≠ 0), zpow_add₀ (by norm_num : (2 : ℚ) ≠ 0)]
    push_cast
    field_simp
    ring
  constructor
  · rw [hlo]
    apply mul_le_mul_of_nonneg_right _ (le_of_lt hu)
    have : ((2 ^ 52 : Int) : ℚ) ≤ x / (2 : ℚ) ^ (e - 52) := by
      rw [le_div_iff₀ hu, ← hlo]
      exact h1
    exact_mod_cast roundHalfEven_ge _ _ this
  · rw [hhi]
    apply mul_le_mul_of_nonneg_right _ (le_of_lt hu)
    have : x / (2 : ℚ) ^ (e - 52) ≤ ((2 ^ 53 : Int) : ℚ) := by
      rw [div_le_iff₀ hu, ← hhi]
      exact le_of_lt h2
    exact_mod_cast roundHalfEven_le _ _ this

/-- Rounding a number of the normal range to `double` changes it by at most the fraction
`2^-53` of its size. -/
theorem f64round_error (x : ℚ) (h1 : (2 : ℚ) ^ (-1022 : Int) ≤ x) (h2 : x < (2 : ℚ) ^ (1023 : Int)) :
    |f64round x - x| ≤ x / 2 ^ 53 := by
  have hx : 0 < x := lt_of_lt_of_le (two_zpow_pos _) h1
  rcases f64round_pos x hx with ⟨hov, _⟩ | ⟨hsub, _⟩ | ⟨e, he1, he2, hr⟩
  · exfalso
    have : (2 : ℚ) ^ (1023 : Int) ≤ (2 : ℚ) ^ (1024 : Int) :=
      zpow_le_zpow_right₀ (by norm_num) (by norm_num)
    linarith
  · exfalso
    linarith
  · have he : e < 1023 := by
      by_contra hn
      have : (2 : ℚ) ^ (1023 : Int) ≤ (2 : ℚ) ^ e :=
        zpow_le_zpow_right₀ (by norm_num) (by omega)
      linarith
    have hu : (0 : ℚ) < (2 : ℚ) ^ (e - 52) := two_zpow_pos _
    have herr := roundHalfEven_error (x / (2 : ℚ) ^ (e - 52))
    have hbin := round_in_binade64 x e he1 he2
    have htop : (2 : ℚ) ^ (e + 1) ≤ (2 : ℚ) ^ (1024 : Int) :=
      zpow_le_zpow_right₀ (by norm_num) (by omega)
    rw [hr, min_eq_left (le_trans hbin.2 htop)]
    have hsplit : (roundHalfEven (x / (2 : ℚ) ^ (e - 52)) : ℚ) * (2 : ℚ) ^ (e - 52) - x
        = ((roundHalfEven (x / (2 : ℚ) ^ (e - 52)) : ℚ) - x / (2 : ℚ) ^ (e - 52))
          * (2 : ℚ) ^ (e - 52) := by
      field_simp
    rw [hsplit, abs_mul, abs_of_pos hu]
    have hu2 : (2 : ℚ) ^ (e - 52) = (2 : ℚ) ^ e / 2 ^ 52 := by
      rw [zpow_sub₀ (by norm_num : (2 : ℚ) ≠ 0)]
      norm_num
    calc |(roundHalfEven (x / (2 : ℚ) ^ (e - 52)) : ℚ) - x / (2 : ℚ) ^ (e - 52)|
          * (2 : ℚ) ^ (e - 52)
        ≤ 1 / 2 * (2 : ℚ) ^ (e - 52) := mul_le_mul_of_nonneg_right herr (le_of_lt hu)
      _ = (2 : ℚ) ^ e / 2 ^ 53 := by
        rw [hu2]
        ring
      _ ≤ x / 2 ^ 53 := div_le_div_of_nonneg_right he1 (by norm_num)

theorem f64round_zero : f64round 0 = 0 := by
  decide!

theorem f64round_neg (x : ℚ) : f64round (-x) = -f64round x := by
  rcases lt_trichotomy x 0 with h | h | h
  · have h1 : ¬ (-x < 0) := by linarith
    unfold f64round roundTo
    simp only [abs_neg, h, h1, if_true, if_false, neg_neg]
  · subst h
    simp [f64round_zero]
  · have h1 : -x < 0 := by linarith
    have h2 : ¬ (x < 0) := by linarith
    unfold f64round roundTo
    simp only [abs_neg, h1, h2, if_true, if_false]

/-- Rounding to `double` keeps a number that is at most 1 at most 1. -/
theorem f64round_le_one (x : ℚ) (h : x ≤ 1) : f64round x ≤ 1 := by
  by_cases hx : 0 < x
  · rcases f64round_pos x hx with ⟨hov, _⟩ | ⟨hsub, hr⟩ | ⟨e, he1, he2, hr⟩
    · exfalso
      have : (1 : ℚ) < (2 : ℚ) ^ (1024 : Int) := by norm_num
      linarith
    · rw [hr]
      apply le_trans (min_le_left _ _)
      have hu1 : (0 : ℚ) < (2 : ℚ) ^ (-1074 : Int) := two_zpow_pos _
      have hq : x / (2 : ℚ) ^ (-1074 : Int) ≤ ((2 ^ 52 : Int) : ℚ) := by
        rw [div_le_iff₀ hu1]
        have : ((2 ^ 52 : Int) : ℚ) * (2 : ℚ) ^ (-1074 : Int) = (2 : ℚ) ^ (-1022 : Int) := by
          rw [show (-1022 : Int) = 52 + (-1074) by norm_num,
            zpow_add₀ (by norm_num : (2 : ℚ) ≠ 0)]
          norm_num
        rw [this]
        exact le_of_lt hsub
      have hn := roundHalfEven_le _ _ hq
      have hn1 : (roundHalfEven (x / (2 : ℚ) ^ (-1074 : Int)) : ℚ) ≤ ((2 ^ 52 : Int) : ℚ) := by
        exact_mod_cast hn
      have hle : (roundHalfEven (x / (2 : ℚ) ^ (-1074 : Int)) : ℚ) * (2 : ℚ) ^ (-1074 : Int)
          ≤ ((2 ^ 52 : Int) : ℚ) * (2 : ℚ) ^ (-1074 : Int) :=
        mul_le_mul_of_nonneg_right hn1 (le_of_lt hu1)
      have h126 : ((2 ^ 52 : Int) : ℚ) * (2 : ℚ) ^ (-1074 : Int) ≤ 1 := by
        rw [show ((2 ^ 52 : Int) : ℚ) = (2 : ℚ) ^ (52 : Int) by norm_num,
          ← zpow_add₀ (by norm_num : (2 : ℚ) ≠ 0)]
        exact zpow_le_one_of_nonpos₀ (by norm_num) (by norm_num)
      exact le_trans hle h126
    · rw [hr]
      apply le_trans (min_le_left _ _)
      have hbin := round_in_binade64 x e he1 he2
      rcases lt_trichotomy e 0 with hlt | heq | hgt
      · have h3 : (2 : ℚ) ^ (e + 1) ≤ 1 := zpow_le_one_of_nonpos₀ (by norm_num) (by omega)
        exact le_trans hbin.2 h3
      · subst heq
        have hu : (2 : ℚ) ^ ((0 : Int) - 52) = 1 / 2 ^ 52 := by norm_num
        rw [hu]
        have hq : x / (1 / 2 ^ 52) ≤ ((2 ^ 52 : Int) : ℚ) := by
          rw [div_le_iff₀ (by norm_num)]
          push_cast
          linarith
        have hn := roundHalfEven_le _ _ hq
        have hn1 : (roundHalfEven (x / (1 / 2 ^ 52)) : ℚ) ≤ ((2 ^ 52 : Int) : ℚ) := by
          exact_mod_cast hn
        push_cast at hn1
        calc (roundHalfEven (x / (1 / 2 ^ 52)) : ℚ) * (1 / 2 ^ 52)
            ≤ 2 ^ 52 * (1 / 2 ^ 52) := mul_le_mul_of_nonneg_right hn1 (by norm_num)
          _ = 1 := by norm_num
      · exfalso
        have h3 : (2 : ℚ) ^ (1 : Int) ≤ (2 : ℚ) ^ e :=
          zpow_le_zpow_right₀ (by norm_num) (by omega)
        norm_num at h3
        linarith
  · have hx0 : x ≤ 0 := not_lt.mp hx
    rcases lt_or_eq_of_le hx0 with hneg | hzero
    · have hpos : 0 < -x := by linarith
      have hnn : 0 ≤ f64round (-x) := by
        rcases f64round_pos (-x) hpos with ⟨_, hr⟩ | ⟨_, hr⟩ | ⟨e, _, _, hr⟩
        · rw [hr]
          exact le_of_lt (two_zpow_pos _)
        · rw [hr]
          apply le_min _ (le_of_lt (two_zpow_pos _))
          apply mul_nonneg _ (le_of_lt (two_zpow_pos _))
          have : ((0 : Int) : ℚ) ≤ -x / (2 : ℚ) ^ (-1074 : Int) := by
            simpa using div_nonneg (le_of_lt hpos) (le_of_lt (two_zpow_pos (-1074)))
          exact_mod_cast roundHalfEven_ge _ _ this
        · rw [hr]
          apply le_min _ (le_of_lt (two_zpow_pos _))
          apply mul_nonneg _ (le_of_lt (two_zpow_pos _))
          have : ((0 : Int) : ℚ) ≤ -x / (2 : ℚ) ^ (e - 52) := by
            simpa using div_nonneg (le_of_lt hpos) (le_of_lt (two_zpow_pos (e - 52)))
          exact_mod_cast roundHalfEven_ge _ _ this
      rw [f64round_neg] at hnn
      linarith
    · rw [hzero, f64round_zero]
      norm_num

/-- Natural numbers below `2^53` are `double`s. -/
theorem f64round_nat (k : Nat) (hk : k < 2 ^ 53) : f64round (k : ℚ) = k := by
  rcases Nat.eq_zero_or_pos k with h0 | hpos
  · subst h0
    simpa using f64round_zero
  · have hk1 : (1 : ℚ) ≤ (k : ℚ) := by exact_mod_cast hpos
    have hk2 : (k : ℚ) < 2 ^ 53 := by exact_mod_cast hk
    have hx : (0 : ℚ) < (k : ℚ) := by linarith
    rcases f64round_pos (k : ℚ) hx with ⟨hov, _⟩ | ⟨hsub, _⟩ | ⟨e, he1, he2, hr⟩
    · exfalso
      have : (2 : ℚ) ^ 53 < (2 : ℚ) ^ (1024 : Int) := by norm_num
      linarith
    · exfalso
      have : (2 : ℚ) ^ (-1022 : Int) ≤ 1 := zpow_le_one_of_nonpos₀ (by norm_num) (by norm_num)
      linarith
    · have he0 : 0 ≤ e := by
        by_contra hn
        have : (2 : ℚ) ^ (e + 1) ≤ 1 := zpow_le_one_of_nonpos₀ (by norm_num) (by omega)
        linarith
      have he52 : e ≤ 52 := by
        by_contra hn
        have : (2 : ℚ) ^ (53 : Int) ≤ (2 : ℚ) ^ e :=
          zpow_le_zpow_right₀ (by norm_num) (by omega)
        norm_num at this
        linarith
      obtain ⟨m, hm⟩ : ∃ m : Nat, e - 52 = -(m : Int) := ⟨(52 - e).toNat, by omega⟩
      have hu : (2 : ℚ) ^ (e - 52) = 1 / 2 ^ m := by
        rw [hm, zpow_neg, zpow_natCast, one_div]
      have hpow : (0 : ℚ) < 2 ^ m := by positivity
      have hq : (k : ℚ) / (1 / 2 ^ m) = (((k * 2 ^ m : Nat) : Int) : ℚ) := by
        push_cast
        field_simp
      rw [hr, hu, hq, roundHalfEven_int]
      have hval : (((k * 2 ^ m : Nat) : Int) : ℚ) * (1 / 2 ^ m) = (k : ℚ) := by
        push_cast
        field_simp
      rw [hval]
      apply min_eq_left
      have : (2 : ℚ) ^ 53 < (2 : ℚ) ^ (1024 : Int) := by norm_num
      linarith

theorem sqrtBits_spec (n : Nat) (k r : Nat) (h1 : r * r ≤ n)
    (h2 : n < (r + 2 ^ k) * (r + 2 ^ k)) :
    sqrtBits n k r * sqrtBits n k r ≤ n ∧
      n < (sqrtBits n k r + 1) * (sqrtBits n k r + 1) := by
  induction k generalizing r with
  | zero => simpa [sqrtBits] using ⟨h1, h2⟩
  | succ k ih =>
    simp only [sqrtBits]
    split_ifs with h
    · apply ih _ h
      have : r + 2 ^ k + 2 ^ k = r + 2 ^ (k + 1) := by ring
      rw [this]
      exact h2
    · exact ih r h1 (not_le.mp h)

/-- What `f64sqrt` rounds, for an integer between 1 and `2^22`: a number `z` between 1 and
4096 whose square is within `2^-30` of the integer. -/
theorem f64sqrt_spec (n : Nat) (h1 : 1 ≤ n) (h2 : n ≤ 4194304) :
    ∃ z : ℚ, f64sqrt (n : ℚ) = f64round z ∧ 1 ≤ z ∧ z ≤ 4096 ∧ |z * z - n| ≤ 1 / 2 ^ 30 := by
  have hn1 : (1 : ℚ) ≤ (n : ℚ) := by exact_mod_cast h1
  have hn2 : (n : ℚ) ≤ 4194304 := by exact_mod_cast h2
  have hx : ¬ ((n : ℚ) ≤ 0) := by linarith
  have hsmall : (2 : ℚ) ^ (-1022 : Int) ≤ 1 :=
    zpow_le_one_of_nonpos₀ (by norm_num) (by norm_num)
  have hsub : ¬ ((n : ℚ) < (2 : ℚ) ^ (-1022 : Int)) := by linarith
  have hlarge : (n : ℚ) < (2 : ℚ) ^ ((-1022 : Int) + 2 ^ 11) := by
    have : (4194304 : ℚ) < (2 : ℚ) ^ ((-1022 : Int) + 2 ^ 11) := by norm_num
    linarith
  obtain ⟨he1, he2⟩ := binadeSearch_spec (n : ℚ) 11 (-1022) (by linarith) hlarge
  generalize hedef : binadeSearch (n : ℚ) 11 (-1022) = e at he1 he2
  have he0 : 0 ≤ e := by
    by_contra hn
    have : (2 : ℚ) ^ (e + 1) ≤ 1 := zpow_le_one_of_nonpos₀ (by norm_num) (by omega)
    linarith
  have he22 : e ≤ 22 := by
    by_contra hn
    have : (2 : ℚ) ^ (23 : Int) ≤ (2 : ℚ) ^ e :=
      zpow_le_zpow_right₀ (by norm_num) (by omega)
    norm_num at this
    linarith
  obtain ⟨k, hk⟩ : ∃ k : Nat, e = (k : Int) := ⟨e.toNat, by omega⟩
  obtain ⟨m, hm⟩ : ∃ m : Nat, (109 - e) / 2 = (m : Int) := ⟨((109 - e) / 2).toNat, by omega⟩
  have hm1 : 108 ≤ k + 2 * m := by omega
  have hm2 : k + 2 * m ≤ 109 := by omega
  have hm3 : 43 ≤ m := by omega
  have hm4 : m ≤ 54 := by omega
  -- the binade of `n` in natural numbers
  have hk1 : 2 ^ k ≤ n := by
    have : ((2 ^ k : Nat) : ℚ) ≤ (n : ℚ) := by
      push_cast
      rw [hk, zpow_natCast] at he1
      exact he1
    exact_mod_cast this
  have hk2 : n < 2 ^ (k + 1) := by
    have : (n : ℚ) < ((2 ^ (k + 1) : Nat) : ℚ) := by
      push_cast
      rw [hk] at he2
      have : ((k : Int) + 1) = ((k + 1 : Nat) : Int) := by push_cast; ring
      rw [this, zpow_natCast] at he2
      exact he2
    exact_mod_cast this
  -- the scaled argument
  have hT1 : 2 ^ 108 ≤ n * 4 ^ m := by
    calc 2 ^ 108 ≤ 2 ^ (k + 2 * m) := Nat.pow_le_pow_right (by norm_num) hm1
      _ = 2 ^ k * 4 ^ m := by rw [pow_add, pow_mul]; norm_num
      _ ≤ n * 4 ^ m := Nat.mul_le_mul_right _ hk1
  have hT2 : n * 4 ^ m < 2 ^ 110 := by
    calc n * 4 ^ m < 2 ^ (k + 1) * 4 ^ m :=
          Nat.mul_lt_mul_of_pos_right hk2 (by positivity)
      _ = 2 ^ (k + 1 + 2 * m) := by rw [pow_add (2 : Nat) (k + 1), pow_mul]; norm_num
      _ ≤ 2 ^ 110 := Nat.pow_le_pow_right (by norm_num) (by omega)
  obtain ⟨hy1, hy2⟩ := sqrtBits_spec (n * 4 ^ m) 55 0 (by simp)
    (by simpa using (by calc n * 4 ^ m < 2 ^ 110 := hT2
                          _ = 2 ^ 55 * 2 ^ 55 := by norm_num))
  generalize hydef : sqrtBits (n * 4 ^ m) 55 0 = y at hy1 hy2
  have hy3 : n * 4 ^ m ≤ y * y + 2 * y := by
    have : (y + 1) * (y + 1) = y * y + 2 * y + 1 := by ring
    rw [this] at hy2
    exact Nat.lt_succ_iff.mp hy2
  have hy54 : 2 ^ 54 ≤ y := by
    by_contra hn
    have h3 : y + 1 ≤ 2 ^ 54 := by omega
    have h4 : (y + 1) * (y + 1) ≤ 2 ^ 54 * 2 ^ 54 := Nat.mul_le_mul h3 h3
    have h5 : (2 : Nat) ^ 54 * 2 ^ 54 = 2 ^ 108 := by norm_num
    omega
  have hy55 : y < 2 ^ 55 := by
    by_contra hn
    have h3 : 2 ^ 55 ≤ y := by omega
    have h4 : 2 ^ 55 * 2 ^ 55 ≤ y * y := Nat.mul_le_mul h3 h3
    have h5 : (2 : Nat) ^ 55 * 2 ^ 55 = 2 ^ 110 := by norm_num
    omega
  -- everything as rational numbers
  have hP0 : (0 : ℚ) < (2 : ℚ) ^ m := by positivity
  have hP1 : (2 : ℚ) ^ 43 ≤ (2 : ℚ) ^ m := pow_le_pow_right₀ (by norm_num) hm3
  have hP2 : (2 : ℚ) ^ m ≤ (2 : ℚ) ^ 54 := pow_le_pow_right₀ (by norm_num) hm4
  have h4P : (4 : ℚ) ^ m = (2 : ℚ) ^ m * (2 : ℚ) ^ m := by
    rw [← mul_pow]
    norm_num
  have hY1 : (y : ℚ) * y ≤ (n : ℚ) * ((2 : ℚ) ^ m * (2 : ℚ) ^ m) := by
    rw [← h4P]
    exact_mod_cast hy1
  have hY3 : (n : ℚ) * ((2 : ℚ) ^ m * (2 : ℚ) ^ m) ≤ (y : ℚ) * y + 2 * y := by
    rw [← h4P]
    exact_mod_cast hy3
  have hY54 : (2 : ℚ) ^ 54 ≤ (y : ℚ) := by exact_mod_cast hy54
  have hY55 : (y : ℚ) + 1 ≤ (2 : ℚ) ^ 55 := by exact_mod_cast hy55
  have hfloor : ⌊(n : ℚ) * (4 : ℚ) ^ ((m : Int))⌋.toNat = n * 4 ^ m := by
    rw [zpow_natCast]
    have : (n : ℚ) * (4 : ℚ) ^ m = (((n * 4 ^ m : Nat) : Int) : ℚ) := by push_cast; ring
    rw [this, Int.floor_intCast, Int.toNat_natCast]
  have hzs : (2 : ℚ) ^ ((m : Int)) = (2 : ℚ) ^ m := zpow_natCast 2 m
  -- bounds shared by both branches
  have key : ∀ z : ℚ, (y : ℚ) ≤ z * (2 : ℚ) ^ m → z * (2 : ℚ) ^ m ≤ (y : ℚ) + 1 / 2 →
      1 ≤ z ∧ z ≤ 4096 ∧ |z * z - n| ≤ 1 / 2 ^ 30 := by
    intro z hz1 hz2
    have hzpos : 0 < z := by
      by_contra hn
      have : z * (2 : ℚ) ^ m ≤ 0 := mul_nonpos_of_nonpos_of_nonneg (not_lt.mp hn) hP0.le
      have : (0 : ℚ) < (2 : ℚ) ^ 54 := by norm_num
      linarith
    refine ⟨?_, ?_, ?_⟩
    · by_contra hn
      have hlt : z < 1 := not_le.mp hn
      have : z * (2 : ℚ) ^ m < 1 * (2 : ℚ) ^ m := mul_lt_mul_of_pos_right hlt hP0
      linarith
    · by_contra hn
      have hlt : 4096 < z := not_le.mp hn
      have h3 : 4096 * (2 : ℚ) ^ m < z * (2 : ℚ) ^ m := mul_lt_mul_of_pos_right hlt hP0
      have h4 : (4096 : ℚ) * 2 ^ 43 ≤ 4096 * (2 : ℚ) ^ m := by linarith
      norm_num at h4 hY55 hz2 hP1
      linarith
    · have hsq : (z * z - n) * ((2 : ℚ) ^ m * (2 : ℚ) ^ m)
          = (z * (2 : ℚ) ^ m) * (z * (2 : ℚ) ^ m) - (n : ℚ) * ((2 : ℚ) ^ m * (2 : ℚ) ^ m) := by
        ring
      have hlow : (y : ℚ) * y ≤ (z * (2 : ℚ) ^ m) * (z * (2 : ℚ) ^ m) := by
        have hy0 : (0 : ℚ) ≤ (y : ℚ) := by positivity
        exact mul_le_mul hz1 hz1 hy0 (le_trans hy0 hz1)
      have hupp : (z * (2 : ℚ) ^ m) * (z * (2 : ℚ) ^ m)
          ≤ ((y : ℚ) + 1 / 2) * ((y : ℚ) + 1 / 2) := by
        have hz0 : (0 : ℚ) ≤ z * (2 : ℚ) ^ m := by positivity
        exact mul_le_mul hz2 hz2 hz0 (le_trans hz0 hz2)
      have hPP : (2 : ℚ) ^ 86 ≤ (2 : ℚ) ^ m * (2 : ℚ) ^ m := by
        have : (2 : ℚ) ^ 43 * (2 : ℚ) ^ 43 ≤ (2 : ℚ) ^ m * (2 : ℚ) ^ m :=
          mul_le_mul hP1 hP1 (by positivity) hP0.le
        norm_num at this ⊢
        linarith
      have hPPpos : (0 : ℚ) < (2 : ℚ) ^ m * (2 : ℚ) ^ m := by positivity
      rw [abs_le]
      constructor
      · -- z*z - n ≥ -2y / P² ≥ -2^-30
        by_contra hn
        have hlt : z * z - n < -(1 / 2 ^ 30) := not_le.mp hn
        have h5 : (z * z - n) * ((2 : ℚ) ^ m * (2 : ℚ) ^ m)
            < -(1 / 2 ^ 30) * ((2 : ℚ) ^ m * (2 : ℚ) ^ m) :=
          mul_lt_mul_of_pos_right hlt hPPpos
        have h6 : -(1 / 2 ^ 30) * ((2 : ℚ) ^ m * (2 : ℚ) ^ m) ≤ -(1 / 2 ^ 30) * (2 : ℚ) ^ 86 := by
          have : (1 : ℚ) / 2 ^ 30 * (2 : ℚ) ^ 86 ≤ 1 / 2 ^ 30 * ((2 : ℚ) ^ m * (2 : ℚ) ^ m) :=
            mul_le_mul_of_nonneg_left hPP (by norm_num)
          linarith
        rw [hsq] at h5
        norm_num at h6 hY55
        linarith
      · by_contra hn
        have hlt : 1 / 2 ^ 30 < z * z - n := not_le.mp hn
        have h5 : 1 / 2 ^ 30 * ((2 : ℚ) ^ m * (2 : ℚ) ^ m)
            < (z * z - n) * ((2 : ℚ) ^ m * (2 : ℚ) ^ m) :=
          mul_lt_mul_of_pos_right hlt hPPpos
        have h6 : (1 : ℚ) / 2 ^ 30 * (2 : ℚ) ^ 86 ≤ 1 / 2 ^ 30 * ((2 : ℚ) ^ m * (2 : ℚ) ^ m) :=
          mul_le_mul_of_nonneg_left hPP (by norm_num)
        rw [hsq] at h5
        have h7 : ((y : ℚ) + 1 / 2) * ((y : ℚ) + 1 / 2) = (y : ℚ) * y + y + 1 / 4 := by ring
        norm_num at h6 hY55
        linarith
  unfold f64sqrt
  simp only [hx, hsub, if_false, hedef, hm, hfloor, hydef, hzs]
  split_ifs with hexact
  · refine ⟨(y : ℚ) / (2 : ℚ) ^ m, rfl, ?_⟩
    apply key
    · rw [div_mul_cancel₀ _ (ne_of_gt hP0)]
    · rw [div_mul_cancel₀ _ (ne_of_gt hP0)]
      linarith
  · refine ⟨((y : ℚ) + 1 / 2) / (2 : ℚ) ^ m, rfl, ?_⟩
    apply key
    · rw [div_mul_cancel₀ _ (ne_of_gt hP0)]
      linarith
    · rw [div_mul_cancel₀ _ (ne_of_gt hP0)]

/-- The square of the computed square root of an integer between 1 and `2^22` is within
`2^-28` of the integer. -/
theorem f64sqrt_sq (n : Nat) (h1 : 1 ≤ n) (h2 : n ≤ 4194304) :
    1 / 2 ≤ f64sqrt (n : ℚ) ∧ f64sqrt (n : ℚ) ≤ 4097 ∧
      |f64sqrt (n : ℚ) * f64sqrt (n : ℚ) - n| ≤ 1 / 2 ^ 28 := by
  obtain ⟨z, hz, hz1, hz2, hz3⟩ := f64sqrt_spec n h1 h2
  have hn2 : (n : ℚ) ≤ 4194304 := by exact_mod_cast h2
  have herr := f64round_error z
    (le_trans (zpow_le_one_of_nonpos₀ (by norm_num) (by norm_num)) hz1)
    (lt_of_le_of_lt hz2 (by norm_num))
  rw [← hz] at herr
  rw [abs_le] at herr hz3
  obtain ⟨e1, e2⟩ := herr
  obtain ⟨z3a, z3b⟩ := hz3
  set b := f64sqrt (n : ℚ) with hb
  have hu : z / 2 ^ 53 ≤ 4096 / 2 ^ 53 := div_le_div_of_nonneg_right hz2 (by norm_num)
  have hb1 : z - 4096 / 2 ^ 53 ≤ b := by linarith
  have hb2 : b ≤ z + 4096 / 2 ^ 53 := by linarith
  refine ⟨by norm_num at hb1 ⊢; linarith, by norm_num at hb2 ⊢; linarith, ?_⟩
  have hd : b * b - z * z = (b - z) * (b + z) := by ring
  have hsum1 : 0 ≤ b + z := by norm_num at hb1 ⊢; linarith
  have hsum2 : b + z ≤ 8193 := by norm_num at hb2 ⊢; linarith
  have hzz : z * z ≤ 4194305 := by norm_num at z3b ⊢; linarith
  -- |b - z| ≤ z * 2^-53 and b + z ≤ (2 + 2^-53) z
  have hbz1 : b - z ≤ z / 2 ^ 53 := by linarith
  have hbz2 : -(z / 2 ^ 53) ≤ b - z := by linarith
  have hbz3 : b + z ≤ 3 * z := by
    have : z / 2 ^ 53 ≤ z := div_le_self (by linarith) (by norm_num)
    linarith
  have hprod1 : (b - z) * (b + z) ≤ z / 2 ^ 53 * (3 * z) := by
    by_cases hs : 0 ≤ b - z
    · exact mul_le_mul hbz1 hbz3 hsum1 (by positivity)
    · have : (b - z) * (b + z) ≤ 0 :=
        mul_nonpos_of_nonpos_of_nonneg (le_of_lt (not_le.mp hs)) hsum1
      have : (0 : ℚ) ≤ z / 2 ^ 53 * (3 * z) := by positivity
      linarith
  have hprod2 : -(z / 2 ^ 53 * (3 * z)) ≤ (b - z) * (b + z) := by
    by_cases hs : 0 ≤ b - z
    · have : 0 ≤ (b - z) * (b + z) := mul_nonneg hs hsum1
      have : (0 : ℚ) ≤ z / 2 ^ 53 * (3 * z) := by positivity
      linarith
    · have h5 : -(b - z) * (b + z) ≤ z / 2 ^ 53 * (3 * z) :=
        mul_le_mul (by linarith) hbz3 hsum1 (by positivity)
      linarith
  have hq : z / 2 ^ 53 * (3 * z) = 3 * (z * z) / 2 ^ 53 := by ring
  have hq2 : 3 * (z * z) / 2 ^ 53 ≤ 3 * 4194305 / 2 ^ 53 :=
    div_le_div_of_nonneg_right (by linarith) (by norm_num)
  rw [abs_le]
  constructor
  · norm_num at hq2 z3a hprod2 hq ⊢
    linarith
  · norm_num at hq2 z3b hprod1 hq ⊢
    linarith

theorem f64round_nonneg (x : ℚ) (hx : 0 ≤ x) : 0 ≤ f64round x := by
  rcases lt_or_eq_of_le hx with hpos | hzero
  · rcases f64round_pos x hpos with ⟨_, hr⟩ | ⟨_, hr⟩ | ⟨e, _, _, hr⟩
    · rw [hr]
      exact le_of_lt (two_zpow_pos _)
    · rw [hr]
      apply le_min _ (le_of_lt (two_zpow_pos _))
      apply mul_nonneg _ (le_of_lt (two_zpow_pos _))
      have : ((0 : Int) : ℚ) ≤ x / (2 : ℚ) ^ (-1074 : Int) := by
        simpa using div_nonneg (le_of_lt hpos) (le_of_lt (two_zpow_pos (-1074)))
      exact_mod_cast roundHalfEven_ge _ _ this
    · rw [hr]
      apply le_min _ (le_of_lt (two_zpow_pos _))
      apply mul_nonneg _ (le_of_lt (two_zpow_pos _))
      have : ((0 : Int) : ℚ) ≤ x / (2 : ℚ) ^ (e - 52) := by
        simpa using div_nonneg (le_of_lt hpos) (le_of_lt (two_zpow_pos (e - 52)))
      exact_mod_cast roundHalfEven_ge _ _ this
  · rw [← hzero, f64round_zero]

/-- Rounding a number between `2^-40` and `2^40` to `double` changes it by at most the
fraction `2^-53` of its size. -/
theorem f64round_rel (x : ℚ) (h1 : 1 / 2 ^ 40 ≤ x) (h2 : x ≤ 2 ^ 40) :
    x - x / 2 ^ 53 ≤ f64round x ∧ f64round x ≤ x + x / 2 ^ 53 := by
  have hlo : (2 : ℚ) ^ (-1022 : Int) ≤ 1 / 2 ^ 40 := by
    rw [show (1 : ℚ) / 2 ^ 40 = (2 : ℚ) ^ (-40 : Int) by norm_num]
    exact zpow_le_zpow_right₀ (by norm_num) (by norm_num)
  have hhi : (2 : ℚ) ^ 40 < (2 : ℚ) ^ (1023 : Int) := by
    rw [show (2 : ℚ) ^ 40 = (2 : ℚ) ^ (40 : Int) by norm_num]
    exact zpow_lt_zpow_right₀ (by norm_num) (by norm_num)
  have herr := f64round_error x (le_trans hlo h1) (lt_of_le_of_lt h2 hhi)
  rw [abs_le] at herr
  constructor <;> linarith [herr.1, herr.2]

/-- Rounding a number between `2^-40` and `M ≤ 2^40` to `double` moves it by at most
`M / 2^53`. -/
theorem f64round_near (x M : ℚ) (h1 : 1 / 2 ^ 40 ≤ x) (h2 : x ≤ M) (hM : M ≤ 2 ^ 40) :
    x - M / 2 ^ 53 ≤ f64round x ∧ f64round x ≤ x + M / 2 ^ 53 := by
  obtain ⟨r1, r2⟩ := f64round_rel x h1 (le_trans h2 hM)
  have hdiv : x / 2 ^ 53 ≤ M / 2 ^ 53 := div_le_div_of_nonneg_right h2 (by norm_num)
  constructor <;> linarith

/-- The rounded square of the computed square root of an integer between 1 and `2^22` is
within `2^-27` of the integer. -/
theorem f64_sq_round (n : Nat) (h1 : 1 ≤ n) (h2 : n ≤ 4194304) :
    |f64round (f64sqrt (n : ℚ) * f64sqrt (n : ℚ)) - n| ≤ 1 / 2 ^ 27 := by
  obtain ⟨_, _, hsq⟩ := f64sqrt_sq n h1 h2
  have hn1 : (1 : ℚ) ≤ (n : ℚ) := by exact_mod_cast h1
  have hn2 : (n : ℚ) ≤ 4194304 := by exact_mod_cast h2
  rw [abs_le] at hsq ⊢
  obtain ⟨s1, s2⟩ := hsq
  have hnear := f64round_near (f64sqrt (n : ℚ) * f64sqrt (n : ℚ)) 4194305
    (by norm_num at s1 ⊢; linarith) (by norm_num at s2 ⊢; linarith) (by norm_num)
  obtain ⟨r1, r2⟩ := hnear
  constructor
  · norm_num at s1 r1 ⊢
    linarith
  · norm_num at s2 r2 ⊢
    linarith

/-- The numerator of the quotient: the rounded difference keeps the sign of `N` and stays
within `2^-23` of it, when the difference is within `2^-24` of a non-zero integer `N`. -/
theorem numerator_bounds (d N : ℚ) (h1 : N - 1 / 2 ^ 24 ≤ d) (h2 : d ≤ N + 1 / 2 ^ 24)
    (hN1 : -8388608 ≤ N) (hN2 : N ≤ 8388608) :
    (N ≤ -1 → f64round d ≤ -(1 / 4) ∧ -8388610 ≤ f64round d) ∧
    (1 ≤ N → 0 < f64round d ∧ f64round d ≤ N + 1 / 2 ^ 23) := by
  constructor
  · intro hN
    have hdl : 1 / 2 ≤ -d := by
      norm_num at h2 ⊢
      linarith
    have hdu : -d ≤ 8388609 := by
      norm_num at h1 ⊢
      linarith
    obtain ⟨r1, r2⟩ := f64round_near (-d) 8388609 (le_trans (by norm_num) hdl) hdu
      (by norm_num)
    rw [f64round_neg] at r1 r2
    norm_num at r1 r2
    constructor <;> linarith
  · intro hN
    have hdl : 1 / 2 ≤ d := by
      norm_num at h1 ⊢
      linarith
    have hdu : d ≤ 8388609 := by
      norm_num at h2 ⊢
      linarith
    obtain ⟨r1, r2⟩ := f64round_near d 8388609 (le_trans (by norm_num) hdl) hdu (by norm_num)
    norm_num at r1 r2 h2 ⊢
    constructor <;> linarith

/-- The divisor of the quotient, `2 * b * c` in `double` arithmetic, for `b` and `c`
between 1/2 and 4097. -/
theorem divisor_bounds (b c : ℚ) (hbl : 1 / 2 ≤ b) (hbu : b ≤ 4097) (hcl : 1 / 2 ≤ c)
    (hcu : c ≤ 4097) :
    1 / 8 ≤ f64round (f64round (2 * b) * c) ∧ f64round (f64round (2 * b) * c) ≤ 67108864 ∧
    2 * (b * c) - 1 / 2 ^ 26 ≤ f64round (f64round (2 * b) * c) := by
  obtain ⟨hT1, hT2⟩ := f64round_near (2 * b) 16384 (le_trans (by norm_num) (by linarith : (1 : ℚ) ≤ 2 * b))
    (by linarith) (by norm_num)
  generalize f64round (2 * b) = tb at *
  norm_num at hT1 hT2
  have htb1 : 1 / 2 ≤ tb := by linarith
  have htb2 : tb ≤ 8195 := by linarith
  have hP1 : 1 / 4 ≤ tb * c := by
    have : (1 : ℚ) / 2 * (1 / 2) ≤ tb * c := mul_le_mul htb1 hcl (by norm_num) (by linarith)
    linarith
  have hP2 : tb * c ≤ 8195 * 4097 := mul_le_mul htb2 hcu (by linarith) (by norm_num)
  norm_num at hP2
  obtain ⟨hD1, hD2⟩ := f64round_near (tb * c) 33574915 (le_trans (by norm_num) hP1)
    hP2 (by norm_num)
  generalize f64round (tb * c) = den at *
  norm_num at hD1 hD2
  have h1 : (2 * b - 1 / 2 ^ 39) * c ≤ tb * c :=
    mul_le_mul_of_nonneg_right (by norm_num; linarith) (by linarith)
  have h2 : (2 * b - 1 / 2 ^ 39) * c = 2 * (b * c) - c / 2 ^ 39 := by ring
  have h3 : c / 2 ^ 39 ≤ 4097 / 2 ^ 39 := div_le_div_of_nonneg_right hcu (by norm_num)
  rw [h2] at h1
  norm_num at h1 h3 ⊢
  refine ⟨by linarith, by linarith, by linarith⟩

/-- A negative numerator over a positive divisor: the rounded quotient is below `-2^-30`. -/
theorem quotient_negative (num den : ℚ) (hn1 : num ≤ -(1 / 4)) (hn2 : -8388610 ≤ num)
    (hd1 : 1 / 8 ≤ den) (hd2 : den ≤ 67108864) : f64round (num / den) ≤ -(1 / 2 ^ 30) := by
  have hdenpos : 0 < den := by linarith
  have hq1 : 1 / 2 ^ 29 ≤ -(num / den) := by
    rw [← neg_div, le_div_iff₀ hdenpos]
    norm_num
    linarith
  have hq2 : -(num / den) ≤ 2 ^ 27 := by
    rw [← neg_div, div_le_iff₀ hdenpos]
    norm_num
    linarith
  obtain ⟨r1, _⟩ := f64round_rel (-(num / den)) (le_trans (by norm_num) hq1)
    (le_trans hq2 (by norm_num))
  rw [f64round_neg] at r1
  have hhalf : -(num / den) / 2 ^ 53 ≤ -(num / den) / 2 := by
    apply div_le_div_of_nonneg_left _ (by norm_num) (by norm_num)
    linarith [show (0 : ℚ) < 1 / 2 ^ 29 by norm_num]
  norm_num at hq1 hhalf r1 ⊢
  linarith

/-- A positive numerator that does not exceed the divisor: the rounded quotient lies
between 0 and 1. -/
theorem quotient_unit (num den : ℚ) (hn : 0 < num) (hnd : num ≤ den) :
    0 ≤ f64round (num / den) ∧ f64round (num / den) ≤ 1 := by
  have hdenpos : 0 < den := lt_of_lt_of_le hn hnd
  have hq0 : 0 ≤ num / den := div_nonneg hn.le hdenpos.le
  have hq1 : num / den ≤ 1 := by
    rw [div_le_iff₀ hdenpos]
    linarith
  exact ⟨f64round_nonneg _ hq0, f64round_le_one _ hq1⟩

/-- The product `2 b c` against `N = nb + nc - na` for a proper triangle. -/
theorem product_bound (b c nb nc N : ℚ) (hbl : 1 / 2 ≤ b) (hcl : 1 / 2 ≤ c)
    (hnb1 : 1 ≤ nb) (hnc1 : 1 ≤ nc) (hnb2 : nb ≤ 4194304) (hnc2 : nc ≤ 4194304)
    (hbsq : nb - 1 / 2 ^ 28 ≤ b * b) (hcsq : nc - 1 / 2 ^ 28 ≤ c * c)
    (hN2 : N ≤ 8388608) (hproper : 4 * nb * nc ≥ N * N + 4) :
    N + 1 / 2 ^ 23 + 1 / 2 ^ 26 ≤ 2 * (b * c) := by
  have h1 : (nb - 1 / 2 ^ 28) * (nc - 1 / 2 ^ 28) ≤ (b * b) * (c * c) :=
    mul_le_mul hbsq hcsq (by norm_num; linarith) (by nlinarith)
  have h2 : (nb - 1 / 2 ^ 28) * (nc - 1 / 2 ^ 28)
      = nb * nc - (nb + nc) / 2 ^ 28 + 1 / 2 ^ 56 := by ring
  have h3 : (nb + nc) / 2 ^ 28 ≤ 8388608 / 2 ^ 28 :=
    div_le_div_of_nonneg_right (by linarith) (by norm_num)
  have h4 : (2 * (b * c)) * (2 * (b * c)) = 4 * ((b * b) * (c * c)) := by ring
  have hsq : N * N + 3 ≤ (2 * (b * c)) * (2 * (b * c)) := by
    rw [h4]
    rw [h2] at h1
    norm_num at h1 h3 ⊢
    linarith
  by_contra hlt
  have h5 : 2 * (b * c) < N + 1 / 2 ^ 23 + 1 / 2 ^ 26 := not_le.mp hlt
  have hbc0 : 0 ≤ 2 * (b * c) := by
    have : 0 ≤ b * c := mul_nonneg (by linarith) (by linarith)
    linarith
  have h6 : (2 * (b * c)) * (2 * (b * c))
      < (N + 1 / 2 ^ 23 + 1 / 2 ^ 26) * (N + 1 / 2 ^ 23 + 1 / 2 ^ 26) :=
    mul_lt_mul'' h5 h5 hbc0 hbc0
  have h7 : (N + 1 / 2 ^ 23 + 1 / 2 ^ 26) * (N + 1 / 2 ^ 23 + 1 / 2 ^ 26)
      = N * N + N * (2 * (1 / 2 ^ 23 + 1 / 2 ^ 26))
        + (1 / 2 ^ 23 + 1 / 2 ^ 26) * (1 / 2 ^ 23 + 1 / 2 ^ 26) := by ring
  have h8 : N * (2 * (1 / 2 ^ 23 + 1 / 2 ^ 26)) ≤ 8388608 * (2 * (1 / 2 ^ 23 + 1 / 2 ^ 26)) :=
    mul_le_mul_of_nonneg_right hN2 (by norm_num)
  rw [h7] at h6
  norm_num at h6 h8 hsq
  linarith

/-- The `double` evaluation of the law of cosines on the computed square roots of three
squared side lengths between 1 and `2^22`: with `N = nb + nc - na`, a negative `N` gives a
quotient below `-2^-30`, and a positive `N` of a proper triangle (`4 nb nc ≥ N^2 + 4`)
gives a quotient between 0 and 1. -/
theorem cosine_core (na nb nc : Nat) (ha1 : 1 ≤ na) (ha2 : na ≤ 4194304)
    (hb1 : 1 ≤ nb) (hb2 : nb ≤ 4194304) (hc1 : 1 ≤ nc) (hc2 : nc ≤ 4194304) :
    ((nb : ℚ) + nc - na ≤ -1 →
      ∃ x, cosineOfSides (f64sqrt (na : ℚ)) (f64sqrt (nb : ℚ)) (f64sqrt (nc : ℚ)) = some x ∧
        x ≤ -(1 / 2 ^ 30)) ∧
    ((nb : ℚ) + nc - na ≥ 1 →
      4 * (nb : ℚ) * nc ≥ ((nb : ℚ) + nc - na) * ((nb : ℚ) + nc - na) + 4 →
      ∃ x, cosineOfSides (f64sqrt (na : ℚ)) (f64sqrt (nb : ℚ)) (f64sqrt (nc : ℚ)) = some x ∧
        0 ≤ x ∧ x ≤ 1) := by
  have hna1 : (1 : ℚ) ≤ (na : ℚ) := by exact_mod_cast ha1
  have hna2 : (na : ℚ) ≤ 4194304 := by exact_mod_cast ha2
  have hnb1 : (1 : ℚ) ≤ (nb : ℚ) := by exact_mod_cast hb1
  have hnb2 : (nb : ℚ) ≤ 4194304 := by exact_mod_cast hb2
  have hnc1 : (1 : ℚ) ≤ (nc : ℚ) := by exact_mod_cast hc1
  have hnc2 : (nc : ℚ) ≤ 4194304 := by exact_mod_cast hc2
  obtain ⟨hbl, hbu, hbsq⟩ := f64sqrt_sq nb hb1 hb2
  obtain ⟨hcl, hcu, hcsq⟩ := f64sqrt_sq nc hc1 hc2
  have hA := f64_sq_round na ha1 ha2
  have hB := f64_sq_round nb hb1 hb2
  have hC := f64_sq_round nc hc1 hc2
  obtain ⟨hd1, hd2, hd3⟩ := divisor_bounds _ _ hbl hbu hcl hcu
  unfold cosineOfSides
  simp only
  generalize f64sqrt (na : ℚ) = a at *
  generalize f64sqrt (nb : ℚ) = b at *
  generalize f64sqrt (nc : ℚ) = c at *
  generalize f64round (f64round (2 * b) * c) = den at *
  generalize f64round (a * a) = A at *
  generalize f64round (b * b) = B at *
  generalize f64round (c * c) = C at *
  rw [abs_le] at hA hB hC hbsq hcsq
  obtain ⟨hA1, hA2⟩ := hA
  obtain ⟨hB1, hB2⟩ := hB
  obtain ⟨hC1, hC2⟩ := hC
  obtain ⟨hbsq1, _⟩ := hbsq
  obtain ⟨hcsq1, _⟩ := hcsq
  norm_num at hA1 hA2 hB1 hB2 hC1 hC2
  have hBC1 : 1 ≤ B + C := by linarith
  have hBC2 : B + C ≤ 8388609 := by linarith
  obtain ⟨hS1, hS2⟩ := f64round_near (B + C) 8388609 (le_trans (by norm_num) hBC1) hBC2
    (by norm_num)
  generalize f64round (B + C) = S at *
  norm_num at hS1 hS2
  have hdiff1 : ((nb : ℚ) + nc - na) - 1 / 2 ^ 24 ≤ S - A := by
    norm_num
    linarith
  have hdiff2 : S - A ≤ ((nb : ℚ) + nc - na) + 1 / 2 ^ 24 := by
    norm_num
    linarith
  obtain ⟨hneg, hpos⟩ := numerator_bounds (S - A) ((nb : ℚ) + nc - na) hdiff1 hdiff2
    (by linarith) (by linarith)
  generalize f64round (S - A) = num at *
  have hden0 : den ≠ 0 := by
    intro h0
    rw [h0] at hd1
    norm_num at hd1
  rw [if_neg hden0]
  constructor
  · intro hN
    obtain ⟨n1, n2⟩ := hneg hN
    exact ⟨_, rfl, quotient_negative num den n1 n2 hd1 hd2⟩
  · intro hN hproper
    obtain ⟨n1, n2⟩ := hpos hN
    have hprod := product_bound b c nb nc ((nb : ℚ) + nc - na) hbl hcl hnb1 hnc1 hnb2 hnc2
      (by linarith) (by linarith) (by linarith) hproper
    have hnd : num ≤ den := by
      norm_num at hprod hd3 n2
      linarith
    obtain ⟨q1, q2⟩ := quotient_unit num den n1 hnd
    exact ⟨_, rfl, q1, q2⟩

theorem f64round_int (z : Int) (h0 : 0 ≤ z) (h1 : z < 2 ^ 53) : f64round (z : ℚ) = z := by
  obtain ⟨k, rfl⟩ := Int.eq_ofNat_of_zero_le h0
  have hk : k < 2 ^ 53 := by exact_mod_cast h1
  simpa using f64round_nat k hk

/-! ## A `float` sum against the exact sum -/

theorem f32round_zero : f32round 0 = 0 := by
  decide!

theorem f32round_nonneg (x : ℚ) (hx : 0 ≤ x) : 0 ≤ f32round x := by
  rcases lt_or_eq_of_le hx with hpos | hzero
  · rcases f32round_pos x hpos with ⟨_, hr⟩ | ⟨_, hr⟩ | ⟨e, _, _, hr⟩
    · rw [hr]
      exact le_of_lt (two_zpow_pos _)
    · rw [hr]
      apply le_min _ (le_of_lt (two_zpow_pos _))
      apply mul_nonneg _ (le_of_lt (two_zpow_pos _))
      have : ((0 : Int) : ℚ) ≤ x / (2 : ℚ) ^ (-149 : Int) := by
        simpa using div_nonneg (le_of_lt hpos) (le_of_lt (two_zpow_pos (-149)))
      exact_mod_cast roundHalfEven_ge _ _ this
    · rw [hr]
      apply le_min _ (le_of_lt (two_zpow_pos _))
      apply mul_nonneg _ (le_of_lt (two_zpow_pos _))
      have : ((0 : Int) : ℚ) ≤ x / (2 : ℚ) ^ (e - 23) := by
        simpa using div_nonneg (le_of_lt hpos) (le_of_lt (two_zpow_pos (e - 23)))
      exact_mod_cast roundHalfEven_ge _ _ this
  · rw [← hzero, f32round_zero]

/-- Rounding to `float` raises a non-negative number by at most the fraction `2^-24` of its
size, or by `2^-150` in the subnormal range. -/
theorem f32round_upper (x : ℚ) (hx : 0 ≤ x) :
    f32round x ≤ x * (1 + 1 / 2 ^ 24) + 1 / 2 ^ 150 := by
  rcases lt_or_eq_of_le hx with hpos | hzero
  · have hscale : ∀ u : ℚ, 0 < u →
        (roundHalfEven (x / u) : ℚ) * u ≤ x + u / 2 := by
      intro u hu
      have herr := roundHalfEven_error (x / u)
      rw [abs_le] at herr
      have h1 : (roundHalfEven (x / u) : ℚ) ≤ x / u + 1 / 2 := by linarith [herr.2]
      have h2 : (roundHalfEven (x / u) : ℚ) * u ≤ (x / u + 1 / 2) * u :=
        mul_le_mul_of_nonneg_right h1 hu.le
      have h3 : (x / u + 1 / 2) * u = x + u / 2 := by
        field_simp
        ring
      linarith
    rcases f32round_pos x hpos with ⟨hov, hr⟩ | ⟨_, hr⟩ | ⟨e, he1, _, hr⟩
    · rw [hr]
      have : (0 : ℚ) ≤ x * (1 / 2 ^ 24) := by positivity
      have h150 : (0 : ℚ) < 1 / 2 ^ 150 := by positivity
      linarith
    · rw [hr]
      apply le_trans (min_le_left _ _)
      have h := hscale ((2 : ℚ) ^ (-149 : Int)) (two_zpow_pos _)
      have hu : (2 : ℚ) ^ (-149 : Int) / 2 = 1 / 2 ^ 150 := by
        rw [zpow_neg]
        norm_num
      rw [hu] at h
      have : (0 : ℚ) ≤ x * (1 / 2 ^ 24) := by positivity
      linarith
    · rw [hr]
      apply le_trans (min_le_left _ _)
      have h := hscale ((2 : ℚ) ^ (e - 23)) (two_zpow_pos _)
      have hu : (2 : ℚ) ^ (e - 23) / 2 = (2 : ℚ) ^ e / 2 ^ 24 := by
        rw [zpow_sub₀ (by norm_num : (2 : ℚ) ≠ 0)]
        norm_num
        ring
      have hle : (2 : ℚ) ^ e / 2 ^ 24 ≤ x / 2 ^ 24 :=
        div_le_div_of_nonneg_right he1 (by norm_num)
      have h150 : (0 : ℚ) < 1 / 2 ^ 150 := by positivity
      rw [hu] at h
      have hx24 : x * (1 + 1 / 2 ^ 24) = x + x / 2 ^ 24 := by ring
      rw [hx24]
      linarith
  · rw [← hzero, f32round_zero]
    norm_num

/-- A `float` accumulated from `a` by adding non-negative elapsed times exceeds the exact
sum by at most the fraction `(1 + 2^-24)^k - 1` for `k` additions (and `2^-150` for each
addition in the subnormal range). -/
theorem foldl_f32add_upper (es : List ℚ) (a : ℚ) (ha : 0 ≤ a) (hes : ∀ e ∈ es, 0 ≤ e) :
    0 ≤ es.foldl f32add a ∧
    es.foldl f32add a
      ≤ (1 + 1 / 2 ^ 24) ^ es.length * (a + es.sum + (es.length : ℚ) / 2 ^ 150) := by
  induction es generalizing a with
  | nil => simp [ha]
  | cons e rest ih =>
    have he : 0 ≤ e := hes e (List.mem_cons_self e rest)
    have hrest : ∀ x ∈ rest, 0 ≤ x := fun x hx => hes x (List.mem_cons_of_mem e hx)
    have hae : 0 ≤ a + e := by linarith
    have h0 : 0 ≤ f32add a e := f32round_nonneg _ hae
    have hup : f32add a e ≤ (a + e) * (1 + 1 / 2 ^ 24) + 1 / 2 ^ 150 := f32round_upper _ hae
    obtain ⟨i1, i2⟩ := ih (f32add a e) h0 hrest
    simp only [List.foldl_cons, List.length_cons, List.sum_cons]
    refine ⟨i1, le_trans i2 ?_⟩
    have hsum : 0 ≤ rest.sum := List.sum_nonneg hrest
    have hlen : (0 : ℚ) ≤ (rest.length : ℚ) / 2 ^ 150 := by positivity
    have hpow : (0 : ℚ) ≤ (1 + 1 / 2 ^ 24) ^ rest.length := by positivity
    have hsucc : (1 + 1 / 2 ^ 24 : ℚ) ^ (rest.length + 1)
        = (1 + 1 / 2 ^ 24) ^ rest.length * (1 + 1 / 2 ^ 24) := pow_succ _ _
    rw [hsucc, mul_assoc]
    apply mul_le_mul_of_nonneg_left _ hpow
    push_cast
    have hexp : (1 + 1 / 2 ^ 24) * (a + (e + rest.sum) + ((rest.length : ℚ) + 1) / 2 ^ 150)
        = (a + e) * (1 + 1 / 2 ^ 24) + 1 / 2 ^ 150 + rest.sum + (rest.length : ℚ) / 2 ^ 150
          + (1 / 2 ^ 24) * (rest.sum + ((rest.length : ℚ) + 1) / 2 ^ 150) := by ring
    rw [hexp]
    have hextra : (0 : ℚ) ≤ (1 / 2 ^ 24) * (rest.sum + ((rest.length : ℚ) + 1) / 2 ^ 150) := by
      positivity
    linarith

/-- The `float` sum of non-negative elapsed times against their exact sum. -/
theorem f32sum_upper (es : List ℚ) (hes : ∀ e ∈ es, 0 ≤ e) :
    f32sum es ≤ (1 + 1 / 2 ^ 24) ^ es.length * (es.sum + (es.length : ℚ) / 2 ^ 150) := by
  have h := (foldl_f32add_upper es 0 (le_refl _) hes).2
  rw [zero_add] at h
  exact h

/-! ## Stability filter: lines 237-261 -/

theorem tick_reset (s : GestureTracker) (raw : Int) (dt : ℚ)
    (h : ¬ (raw = s.lastStableCount ∧ raw > 0)) :
    tick s raw dt =
      { s with detectedFingers := raw, lastStableCount := raw, holdTime := 0,
               triggerAction := false, isWindowOpen := true } := by
  simp only [tick, stability, h, if_false]

theorem tick_hold (s : GestureTracker) (raw : Int) (dt : ℚ)
    (h : raw = s.lastStableCount) (hpos : raw > 0) :
    tick s raw dt =
      { s with detectedFingers := raw, holdTime := f32add s.holdTime dt,
               triggerAction := decide (f32add s.holdTime dt ≥ REQUIRED_HOLD_TIME),
               isWindowOpen := true } := by
  subst h
  by_cases ht : f32add s.holdTime dt ≥ REQUIRED_HOLD_TIME
  · simp only [tick, stability, hpos, ht, true_and, and_self, if_true, decide_True]
  · simp only [tick, stability, hpos, ht, true_and, and_self, if_true, if_false, decide_False]

theorem normSq_nonneg (p q : Point) : 0 ≤ normSq p q := by
  unfold normSq
  nlinarith [mul_self_nonneg (p.x - q.x), mul_self_nonneg (p.y - q.y)]

theorem normSq_eq_zero (p q : Point) : normSq p q = 0 ↔ p = q := by
  constructor
  · intro h
    unfold normSq at h
    have hx : (p.x - q.x) * (p.x - q.x) = 0 := by
      nlinarith [mul_self_nonneg (p.x - q.x), mul_self_nonneg (p.y - q.y)]
    have hy : (p.y - q.y) * (p.y - q.y) = 0 := by
      nlinarith [mul_self_nonneg (p.x - q.x), mul_self_nonneg (p.y - q.y)]
    have hx1 : p.x - q.x = 0 := mul_self_eq_zero.mp hx
    have hy1 : p.y - q.y = 0 := mul_self_eq_zero.mp hy
    cases p
    cases q
    simp only [Point.mk.injEq]
    simp only at hx1 hy1
    constructor <;> omega
  · rintro rfl
    unfold normSq
    ring

theorem normSq_dot (pStart pEnd pFar : Point) :
    normSq pFar pStart + normSq pFar pEnd - normSq pEnd pStart
      = 2 * dotAtFar pStart pEnd pFar := by
  unfold normSq dotAtFar
  ring

theorem angleDegrees_le_iff (pStart pEnd pFar : Point)
    (hs : pFar ≠ pStart) (he : pFar ≠ pEnd) :
    angleDegrees pStart pEnd pFar ≤ 90 ↔
      0 ≤ normSq pFar pStart + normSq pFar pEnd - normSq pEnd pStart := by
  have hB : (0 : ℝ) < (normSq pFar pStart : ℝ) := by
    have h1 : 0 < normSq pFar pStart :=
      lt_of_le_of_ne (normSq_nonneg _ _) (fun h => hs ((normSq_eq_zero _ _).mp h.symm))
    exact_mod_cast h1
  have hC : (0 : ℝ) < (normSq pFar pEnd : ℝ) := by
    have h1 : 0 < normSq pFar pEnd :=
      lt_of_le_of_ne (normSq_nonneg _ _) (fun h => he ((normSq_eq_zero _ _).mp h.symm))
    exact_mod_cast h1
  have hA : (0 : ℝ) ≤ (normSq pEnd pStart : ℝ) := by
    exact_mod_cast normSq_nonneg pEnd pStart
  have hb : 0 < Real.sqrt (normSq pFar pStart) := Real.sqrt_pos.mpr hB
  have hc : 0 < Real.sqrt (normSq pFar pEnd) := Real.sqrt_pos.mpr hC
  have hden : 0 < 2 * Real.sqrt (normSq pFar pStart) * Real.sqrt (normSq pFar pEnd) := by
    positivity
  have hpi : 0 < Real.pi := Real.pi_pos
  unfold angleDegrees
  simp only
  rw [Real.mul_self_sqrt (le_of_lt hB), Real.mul_self_sqrt (le_of_lt hC), Real.mul_self_sqrt hA]
  rw [div_le_iff₀ hpi]
  have h90 : Real.arccos (((normSq pFar pStart : ℝ) + (normSq pFar pEnd : ℝ)
      - (normSq pEnd pStart : ℝ)) /
      (2 * Real.sqrt (normSq pFar pStart) * Real.sqrt (normSq pFar pEnd))) * 180 ≤ 90 * Real.pi
      ↔ Real.arccos (((normSq pFar pStart : ℝ) + (normSq pFar pEnd : ℝ)
      - (normSq pEnd pStart : ℝ)) /
      (2 * Real.sqrt (normSq pFar pStart) * Real.sqrt (normSq pFar pEnd))) ≤ Real.pi / 2 := by
    constructor <;> intro h <;> linarith
  rw [h90, Real.arccos_le_pi_div_two, div_nonneg_iff]
  constructor
  · rintro (⟨h, _⟩ | ⟨_, h⟩)
    · exact_mod_cast h
    · exact absurd h (not_le.mpr hden)
  · intro h
    left
    exact ⟨by exact_mod_cast h, le_of_lt hden⟩

theorem angleLE90_iff (pStart pEnd pFar : Point) :
    angleLE90 pStart pEnd pFar = true ↔
      pFar ≠ pStart ∧ pFar ≠ pEnd ∧
        0 ≤ normSq pFar pStart + normSq pFar pEnd - normSq pEnd pStart := by
  unfold angleLE90
  simp only [Bool.and_eq_true, decide_eq_true_eq, ne_eq, normSq_eq_zero, and_assoc]

/-! ## The computed angle against the exact angle -/

/-- For sides of squared length below `2^53` the argument of `std::sqrt` in `norm` is
computed exactly. -/
theorem normF64_eq (p q : Point) (h : normSq p q ≤ 4194304) :
    normF64 p q = f64sqrt (((normSq p q).toNat : Nat) : ℚ) := by
  have hx : 0 ≤ (p.x - q.x) * (p.x - q.x) := mul_self_nonneg _
  have hy : 0 ≤ (p.y - q.y) * (p.y - q.y) := mul_self_nonneg _
  unfold normSq at h
  have e1 := f64round_int ((p.x - q.x) * (p.x - q.x)) hx (by norm_num; omega)
  have e2 := f64round_int ((p.y - q.y) * (p.y - q.y)) hy (by norm_num; omega)
  have e3 := f64round_int ((p.x - q.x) * (p.x - q.x) + (p.y - q.y) * (p.y - q.y))
    (by omega) (by norm_num; omega)
  unfold normF64 normSq
  rw [e1, e2]
  have hsum : (((p.x - q.x) * (p.x - q.x) : Int) : ℚ) + (((p.y - q.y) * (p.y - q.y) : Int) : ℚ)
      = (((p.x - q.x) * (p.x - q.x) + (p.y - q.y) * (p.y - q.y) : Int) : ℚ) := by
    push_cast
    ring
  rw [hsum, e3]
  congr 1
  have : (((p.x - q.x) * (p.x - q.x) + (p.y - q.y) * (p.y - q.y)).toNat : Int)
      = (p.x - q.x) * (p.x - q.x) + (p.y - q.y) * (p.y - q.y) := Int.toNat_of_nonneg (by omega)
  exact_mod_cast this.symm

theorem normSq_mul (pStart pEnd pFar : Point) :
    normSq pFar pStart * normSq pFar pEnd
      = dotAtFar pStart pEnd pFar * dotAtFar pStart pEnd pFar
        + crossAtFar pStart pEnd pFar * crossAtFar pStart pEnd pFar := by
  unfold normSq dotAtFar crossAtFar
  ring

/-- The computed angle test against exact geometry, for triangles whose sides are at most
2048 pixels long: an obtuse angle at the far point (negative dot product) is never counted,
and an acute angle of a proper triangle (positive dot product, the three points not on one
line) is always counted.  Only right angles and degenerate triangles depend on the
rounding. -/
theorem angleLE90Double_geometry (pStart pEnd pFar : Point)
    (ha : normSq pEnd pStart ≤ 4194304) (hb : normSq pFar pStart ≤ 4194304)
    (hc : normSq pFar pEnd ≤ 4194304) :
    (dotAtFar pStart pEnd pFar < 0 → angleLE90Double pStart pEnd pFar = false) ∧
    (dotAtFar pStart pEnd pFar > 0 → crossAtFar pStart pEnd pFar ≠ 0 →
      angleLE90Double pStart pEnd pFar = true) := by
  have hmul := normSq_mul pStart pEnd pFar
  have hdot := normSq_dot pStart pEnd pFar
  have ha0 := normSq_nonneg pEnd pStart
  have hb0 := normSq_nonneg pFar pStart
  have hc0 := normSq_nonneg pFar pEnd
  have hslack : (0 : ℚ) < ACOS_HALF_PI_SLACK := by
    unfold ACOS_HALF_PI_SLACK
    norm_num
  have hslack2 : ACOS_HALF_PI_SLACK < 1 / 2 ^ 30 := by
    unfold ACOS_HALF_PI_SLACK
    norm_num
  -- squared sides as natural numbers
  obtain ⟨na, hna⟩ := Int.eq_ofNat_of_zero_le ha0
  obtain ⟨nb, hnb⟩ := Int.eq_ofNat_of_zero_le hb0
  obtain ⟨nc, hnc⟩ := Int.eq_ofNat_of_zero_le hc0
  have ea := normF64_eq pEnd pStart ha
  have eb := normF64_eq pFar pStart hb
  have ec := normF64_eq pFar pEnd hc
  rw [hna] at ha ea hdot
  rw [hnb] at hb eb hdot hmul
  rw [hnc] at hc ec hdot hmul
  simp only [Int.toNat_ofNat] at ea eb ec
  have ha2 : na ≤ 4194304 := by exact_mod_cast ha
  have hb2 : nb ≤ 4194304 := by exact_mod_cast hb
  have hc2 : nc ≤ 4194304 := by exact_mod_cast hc
  unfold angleLE90Double cosineF64
  rw [ea, eb, ec]
  have posprod : dotAtFar pStart pEnd pFar ≠ 0 → 1 ≤ nb ∧ 1 ≤ nc := by
    intro hd
    have h1 : 0 < dotAtFar pStart pEnd pFar * dotAtFar pStart pEnd pFar :=
      mul_self_pos.mpr hd
    have h2 : 0 ≤ crossAtFar pStart pEnd pFar * crossAtFar pStart pEnd pFar :=
      mul_self_nonneg _
    have h3 : (0 : Int) < (nb : Int) * (nc : Int) := by linarith
    constructor
    · by_contra hn
      have : nb = 0 := by omega
      rw [this] at h3
      simp at h3
    · by_contra hn
      have : nc = 0 := by omega
      rw [this] at h3
      simp at h3
  constructor
  · intro hneg
    obtain ⟨hb1, hc1⟩ := posprod (ne_of_lt hneg)
    have ha1 : 1 ≤ na := by omega
    have hN : (nb : ℚ) + nc - na ≤ -1 := by
      have : (nb : Int) + nc - na ≤ -1 := by omega
      exact_mod_cast this
    obtain ⟨x, hx, hx1⟩ := (cosine_core na nb nc ha1 ha2 hb1 hb2 hc1 hc2).1 hN
    rw [hx]
    simp only [decide_eq_false_iff_not, not_and]
    intro h1
    exfalso
    linarith
  · intro hpos hcross
    obtain ⟨hb1, hc1⟩ := posprod (ne_of_gt hpos)
    have hcr : 1 ≤ crossAtFar pStart pEnd pFar * crossAtFar pStart pEnd pFar := by
      have := mul_self_pos.mpr hcross
      omega
    have ha1 : 1 ≤ na := by
      by_contra hn
      have hz : na = 0 := by omega
      rw [hz] at hdot
      -- nb + nc = 2 dot and nb * nc = dot^2 + cross^2 force cross = 0
      have h2 : (nb : Int) + nc = 2 * dotAtFar pStart pEnd pFar := by
        simpa using hdot
      have h1 : ((nb : Int) - nc) * ((nb : Int) - nc)
          = ((nb : Int) + nc) * ((nb : Int) + nc) - 4 * ((nb : Int) * nc) := by ring
      rw [hmul, h2] at h1
      have h3 := mul_self_nonneg ((nb : Int) - nc)
      rw [h1] at h3
      linarith
    have hN : (nb : ℚ) + nc - na ≥ 1 := by
      have : (nb : Int) + nc - na ≥ 1 := by omega
      exact_mod_cast this
    have hproper : 4 * (nb : ℚ) * nc ≥ ((nb : ℚ) + nc - na) * ((nb : ℚ) + nc - na) + 4 := by
      have : 4 * (nb : Int) * nc ≥ ((nb : Int) + nc - na) * ((nb : Int) + nc - na) + 4 := by
        rw [hdot]
        nlinarith
      exact_mod_cast this
    obtain ⟨x, hx, hx0, hx1⟩ := (cosine_core na nb nc ha1 ha2 hb1 hb2 hc1 hc2).2 hN hproper
    rw [hx]
    simp only [decide_eq_true_eq]
    exact ⟨by linarith, hx1⟩

theorem angleDegrees_lt_iff (pStart pEnd pFar : Point)
    (hs : pFar ≠ pStart) (he : pFar ≠ pEnd) :
    angleDegrees pStart pEnd pFar < 90 ↔
      0 < normSq pFar pStart + normSq pFar pEnd - normSq pEnd pStart := by
  have hB : (0 : ℝ) < (normSq pFar pStart : ℝ) := by
    have h1 : 0 < normSq pFar pStart :=
      lt_of_le_of_ne (normSq_nonneg _ _) (fun h => hs ((normSq_eq_zero _ _).mp h.symm))
    exact_mod_cast h1
  have hC : (0 : ℝ) < (normSq pFar pEnd : ℝ) := by
    have h1 : 0 < normSq pFar pEnd :=
      lt_of_le_of_ne (normSq_nonneg _ _) (fun h => he ((normSq_eq_zero _ _).mp h.symm))
    exact_mod_cast h1
  have hA : (0 : ℝ) ≤ (normSq pEnd pStart : ℝ) := by
    exact_mod_cast normSq_nonneg pEnd pStart
  have hb : 0 < Real.sqrt (normSq pFar pStart) := Real.sqrt_pos.mpr hB
  have hc : 0 < Real.sqrt (normSq pFar pEnd) := Real.sqrt_pos.mpr hC
  have hden : 0 < 2 * Real.sqrt (normSq pFar pStart) * Real.sqrt (normSq pFar pEnd) := by
    positivity
  have hpi : 0 < Real.pi := Real.pi_pos
  unfold angleDegrees
  simp only
  rw [Real.mul_self_sqrt (le_of_lt hB), Real.mul_self_sqrt (le_of_lt hC), Real.mul_self_sqrt hA]
  rw [div_lt_iff₀ hpi]
  have h90 : Real.arccos (((normSq pFar pStart : ℝ) + (normSq pFar pEnd : ℝ)
      - (normSq pEnd pStart : ℝ)) /
      (2 * Real.sqrt (normSq pFar pStart) * Real.sqrt (normSq pFar pEnd))) * 180 < 90 * Real.pi
      ↔ Real.arccos (((normSq pFar pStart : ℝ) + (normSq pFar pEnd : ℝ)
      - (normSq pEnd pStart : ℝ)) /
      (2 * Real.sqrt (normSq pFar pStart) * Real.sqrt (normSq pFar pEnd))) < Real.pi / 2 := by
    constructor <;> intro h <;> linarith
  rw [h90, Real.arccos_lt_pi_div_two, div_pos_iff]
  constructor
  · rintro (⟨h, _⟩ | ⟨_, h⟩)
    · exact_mod_cast h
    · exact absurd h (not_lt.mpr (le_of_lt hden))
  · intro h
    left
    exact ⟨by exact_mod_cast h, hden⟩

theorem at?_mem {α : Type} (vec : List α) (i : Int) (p : α) (h : at? vec i = some p) :
    p ∈ vec := by
  unfold at? at h
  split at h
  · exact List.getElem?_mem h
  · exact absurd h (by simp)

/-- Two points of a frame of 1448 by 1448 pixels are at most 2048 pixels apart. -/
theorem normSq_le_of_frame (p q : Point)
    (hp : (0 ≤ p.x ∧ p.x ≤ 1448) ∧ (0 ≤ p.y ∧ p.y ≤ 1448))
    (hq : (0 ≤ q.x ∧ q.x ≤ 1448) ∧ (0 ≤ q.y ∧ q.y ≤ 1448)) : normSq p q ≤ 4194304 := by
  unfold normSq
  have hx : (p.x - q.x) * (p.x - q.x) ≤ 1448 * 1448 := by
    have h1 : -1448 ≤ p.x - q.x := by omega
    have h2 : p.x - q.x ≤ 1448 := by omega
    nlinarith
  have hy : (p.y - q.y) * (p.y - q.y) ≤ 1448 * 1448 := by
    have h1 : -1448 ≤ p.y - q.y := by omega
    have h2 : p.y - q.y ≤ 1448 := by omega
    nlinarith
  omega

theorem normF64_self (p : Point) : normF64 p p = 0 := by
  unfold normF64 f64sqrt
  simp [f64round_zero]

/-- A far point that coincides with the start or the end of the defect makes the divisor
zero, and the defect is not counted. -/
theorem angleLE90Double_degenerate (pStart pEnd pFar : Point)
    (h : pFar = pStart ∨ pFar = pEnd) : angleLE90Double pStart pEnd pFar = false := by
  unfold angleLE90Double cosineF64 cosineOfSides
  rcases h with rfl | rfl
  · simp [normF64_self, f64round_zero]
  · simp [normF64_self, f64round_zero]

/-- For sides of at most 2048 pixels, whatever the computed test accepts has an angle of at
most 90 degrees at a far point distinct from start and end. -/
theorem angleLE90Double_sound (pStart pEnd pFar : Point)
    (ha : normSq pEnd pStart ≤ 4194304) (hb : normSq pFar pStart ≤ 4194304)
    (hc : normSq pFar pEnd ≤ 4194304) (h : angleLE90Double pStart pEnd pFar = true) :
    angleLE90 pStart pEnd pFar = true := by
  rw [angleLE90_iff]
  have hs : pFar ≠ pStart := by
    intro heq
    rw [angleLE90Double_degenerate pStart pEnd pFar (Or.inl heq)] at h
    exact absurd h (by decide)
  have he : pFar ≠ pEnd := by
    intro heq
    rw [angleLE90Double_degenerate pStart pEnd pFar (Or.inr heq)] at h
    exact absurd h (by decide)
  refine ⟨hs, he, ?_⟩
  rw [normSq_dot]
  by_contra hn
  have hneg : dotAtFar pStart pEnd pFar < 0 := by omega
  rw [(angleLE90Double_geometry pStart pEnd pFar ha hb hc).1 hneg] at h
  exact absurd h (by decide)

/-! ## Classification: lines 170-235 -/

theorem at?_isSome {α : Type} (vec : List α) (i : Int) (h0 : 0 ≤ i) (h1 : i < vec.length) :
    ∃ p, at? vec i = some p := by
  have hlt : i.toNat < vec.length := by omega
  refine ⟨vec[i.toNat], ?_⟩
  simp [at?, h0, List.getElem?_eq_getElem hlt]

/-- What the loop counts, in closed form: a defect is a finger gap exactly when its depth
exceeds 10, its three indices lie inside the contour and the computed angle passes. -/
theorem isFingerGap_iff (pts : List Point) (v : Vec4i) :
    isFingerGap pts v = true ↔
      ((v.v3 : ℚ) / 256 > 10 ∧ ∃ pStart pEnd pFar, at? pts v.v0 = some pStart ∧
        at? pts v.v1 = some pEnd ∧ at? pts v.v2 = some pFar ∧
        angleLE90Double pStart pEnd pFar = true) := by
  unfold isFingerGap
  rw [Bool.and_eq_true, decide_eq_true_eq, depth_test_iff]
  constructor
  · rintro ⟨hd, hm⟩
    refine ⟨hd, ?_⟩
    split at hm
    · rename_i pS pE pF hS hE hF
      exact ⟨pS, pE, pF, hS, hE, hF, hm⟩
    · exact absurd hm (by simp)
  · rintro ⟨hd, pS, pE, pF, hS, hE, hF, ha⟩
    refine ⟨hd, ?_⟩
    rw [hS, hE, hF]
    exact ha

/-- Inside the frame the defects the code counts lie between the finger gaps with an angle
below 90 degrees and the finger gaps with an angle of at most 90 degrees. -/
theorem gaps_between (c : Contour) (hframe : InFrame c.points) :
    acuteGaps c ≤ gaps c ∧ gaps c ≤ exactGaps c := by
  have hside : ∀ (i j : Int) (p q : Point), at? c.points i = some p → at? c.points j = some q →
      normSq p q ≤ 4194304 :=
    fun i j p q hp hq => normSq_le_of_frame p q (hframe p (at?_mem _ _ _ hp))
      (hframe q (at?_mem _ _ _ hq))
  constructor
  · apply List.Sublist.length_le
    apply List.monotone_filter_right
    intro v hv
    unfold isAcuteGap at hv
    rw [Bool.and_eq_true, decide_eq_true_eq] at hv
    obtain ⟨hd, hm⟩ := hv
    split at hm
    · rename_i pS pE pF hS hE hF
      rw [Bool.and_eq_true, decide_eq_true_eq, decide_eq_true_eq] at hm
      rw [isFingerGap_iff]
      exact ⟨hd, pS, pE, pF, hS, hE, hF,
        (angleLE90Double_geometry pS pE pF (hside _ _ _ _ hE hS) (hside _ _ _ _ hF hS)
          (hside _ _ _ _ hF hE)).2 hm.1 hm.2⟩
    · exact absurd hm (by simp)
  · apply List.Sublist.length_le
    apply List.monotone_filter_right
    intro v hv
    rw [isFingerGap_iff] at hv
    obtain ⟨hd, pS, pE, pF, hS, hE, hF, ha⟩ := hv
    unfold isExactGap
    rw [Bool.and_eq_true, decide_eq_true_eq, hS, hE, hF]
    exact ⟨hd, angleLE90Double_sound pS pE pF (hside _ _ _ _ hE hS) (hside _ _ _ _ hF hS)
      (hside _ _ _ _ hF hE) ha⟩

theorem countGaps_eq (pts : List Point) (ds : List Vec4i) (count : Int)
    (h : ∀ v ∈ ds, (0 ≤ v.v0 ∧ v.v0 < pts.length) ∧ (0 ≤ v.v1 ∧ v.v1 < pts.length) ∧
      (0 ≤ v.v2 ∧ v.v2 < pts.length)) :
    countGaps pts ds count = some (count + ((ds.filter (isFingerGap pts)).length : Int)) := by
  induction ds generalizing count with
  | nil => simp [countGaps]
  | cons v rest ih =>
    have hv := h v (List.mem_cons_self v rest)
    have hrest : ∀ w ∈ rest, (0 ≤ w.v0 ∧ w.v0 < pts.length) ∧
        (0 ≤ w.v1 ∧ w.v1 < pts.length) ∧ (0 ≤ w.v2 ∧ w.v2 < pts.length) :=
      fun w hw => h w (List.mem_cons_of_mem v hw)
    obtain ⟨pS, hS⟩ := at?_isSome pts v.v0 hv.1.1 hv.1.2
    obtain ⟨pE, hE⟩ := at?_isSome pts v.v1 hv.2.1.1 hv.2.1.2
    obtain ⟨pF, hF⟩ := at?_isSome pts v.v2 hv.2.2.1 hv.2.2.2
    by_cases hd : f32round (f32round (v.v3 : ℚ) / 256) > 10
    · by_cases ha : angleLE90Double pS pE pF = true
      · have hg : isFingerGap pts v = true := by simp [isFingerGap, hd, hS, hE, hF, ha]
        simp only [countGaps, hd, hS, hE, hF, ha, if_true, ih (count + 1) hrest,
          List.filter_cons, hg, List.length_cons]
        congr 1; push_cast; ring
      · have hg : isFingerGap pts v = false := by simp [isFingerGap, hS, hE, hF, ha]
        simp only [countGaps, hd, hS, hE, hF, ha, if_true, ih count hrest,
          List.filter_cons, hg]
        simp
    · have hg : isFingerGap pts v = false := by simp [isFingerGap, hd]
      simp only [countGaps, hd, if_false, ih count hrest, List.filter_cons, hg]
      simp

/-- Whenever the loop runs to its end, it has counted the finger gaps. -/
theorem countGaps_some (pts : List Point) (ds : List Vec4i) (count n : Int)
    (h : countGaps pts ds count = some n) :
    n = count + ((ds.filter (isFingerGap pts)).length : Int) := by
  induction ds generalizing count with
  | nil =>
    simp only [countGaps, Option.some.injEq] at h
    simp [h]
  | cons v rest ih =>
    by_cases hd : f32round (f32round (v.v3 : ℚ) / 256) > 10
    · cases hS : at? pts v.v0 with
      | none => simp [countGaps, hd, hS] at h
      | some pS =>
        cases hE : at? pts v.v1 with
        | none => simp [countGaps, hd, hS, hE] at h
        | some pE =>
          cases hF : at? pts v.v2 with
          | none => simp [countGaps, hd, hS, hE, hF] at h
          | some pF =>
            by_cases ha : angleLE90Double pS pE pF = true
            · have hg : isFingerGap pts v = true := by simp [isFingerGap, hd, hS, hE, hF, ha]
              simp only [countGaps, hd, hS, hE, hF, ha, if_true] at h
              rw [ih (count + 1) h, List.filter_cons, hg]
              simp only [if_true, List.length_cons]
              push_cast
              ring
            · have hg : isFingerGap pts v = false := by simp [isFingerGap, hS, hE, hF, ha]
              simp only [countGaps, hd, hS, hE, hF, ha, if_true] at h
              rw [ih count h, List.filter_cons, hg]
              simp
    · have hg : isFingerGap pts v = false := by simp [isFingerGap, hd]
      simp only [countGaps, hd, if_false] at h
      rw [ih count h, List.filter_cons, hg]
      simp

theorem largestFrom_idx (cs : List Contour) (i : Nat) (acc : Nat × ℚ) :
    (largestFrom cs i acc).1 = acc.1 ∨
      (i ≤ (largestFrom cs i acc).1 ∧ (largestFrom cs i acc).1 < i + cs.length) := by
  induction cs generalizing i acc with
  | nil => left; rfl
  | cons c rest ih =>
    obtain ⟨maxIdx, maxArea⟩ := acc
    by_cases hc : c.area > maxArea
    · simp only [largestFrom, hc, if_true, List.length_cons]
      rcases ih (i + 1) (i, c.area) with h | h
      · right; simp only at h; omega
      · right; omega
    · simp only [largestFrom, hc, if_false, List.length_cons]
      rcases ih (i + 1) (maxIdx, maxArea) with h | h
      · left; exact h
      · right; omega

theorem largestFrom_ge (cs : List Contour) (i : Nat) (acc : Nat × ℚ) :
    acc.2 ≤ (largestFrom cs i acc).2 ∧ ∀ c ∈ cs, c.area ≤ (largestFrom cs i acc).2 := by
  induction cs generalizing i acc with
  | nil => exact ⟨le_refl _, fun c hc => absurd hc (List.not_mem_nil c)⟩
  | cons c rest ih =>
    obtain ⟨maxIdx, maxArea⟩ := acc
    by_cases hc : c.area > maxArea
    · simp only [largestFrom, hc, if_true]
      obtain ⟨h1, h2⟩ := ih (i + 1) (i, c.area)
      refine ⟨le_trans (le_of_lt hc) h1, ?_⟩
      intro d hd
      rcases List.mem_cons.mp hd with rfl | hd
      · exact h1
      · exact h2 d hd
    · simp only [largestFrom, hc, if_false]
      obtain ⟨h1, h2⟩ := ih (i + 1) (maxIdx, maxArea)
      refine ⟨h1, ?_⟩
      intro d hd
      rcases List.mem_cons.mp hd with rfl | hd
      · exact le_trans (le_of_not_lt hc) h1
      · exact h2 d hd

theorem largest_lt_length (cs : List Contour) (h : cs ≠ []) : (largest cs).1 < cs.length := by
  have hpos : 0 < cs.length := List.length_pos.mpr h
  rcases largestFrom_idx cs 0 (0, 0) with h1 | h1
  · unfold largest; simp only at h1; omega
  · unfold largest; omega

theorem rawFingerCount_empty : rawFingerCount [] = some 0 := by
  simp [rawFingerCount]

theorem rawFingerCount_small (cs : List Contour) (h : ¬ (largest cs).2 > 3000) :
    rawFingerCount cs = some 0 := by
  unfold rawFingerCount
  split
  · simp only [h, if_false]
  · rfl

/-- The classification of a frame whose largest area passes the gate, in terms of the
contour the selection loop ends on. -/
theorem rawFingerCount_large (cs : List Contour) (c : Contour) (hne : cs ≠ [])
    (hc : cs[(largest cs).1]? = some c) (harea : (largest cs).2 > 3000) :
    rawFingerCount cs =
      if c.hullIndices.length > 3 then
        (countGaps c.points c.defects 0).map (fun count => min (count + 1) 5)
      else some 1 := by
  have hcs : (!cs.isEmpty) = true := by
    cases cs with
    | nil => exact absurd rfl hne
    | cons a l => rfl
  unfold rawFingerCount
  simp only [hcs, if_true, harea, hc]
  by_cases hh : c.hullIndices.length > 3
  · simp only [hh, if_true]
    cases hcount : countGaps c.points c.defects 0 with
    | none => rfl
    | some count =>
      simp only [Option.map_some']
      congr 1
      by_cases h5 : count + 1 > 5
      · rw [if_pos h5, min_eq_right (le_of_lt h5)]
      · rw [if_neg h5, min_eq_left (le_of_not_lt h5)]
  · simp only [hh, if_false]
    norm_num

theorem rawFingerCount_dominant (cs : List Contour) (c : Contour) (hne : cs ≠ [])
    (hc : cs[(largest cs).1]? = some c) (harea : (largest cs).2 > 3000)
    (hwf : DefectsInRange c) :
    rawFingerCount cs =
      some (if c.hullIndices.length > 3 then min ((gaps c : Int) + 1) 5 else 1) := by
  rw [rawFingerCount_large cs c hne hc harea]
  by_cases hh : c.hullIndices.length > 3
  · simp only [hh, if_true, countGaps_eq c.points c.defects 0 hwf, gaps, zero_add,
      Option.map_some']
  · simp only [hh, if_false]

/-- Partial correctness without any assumption on the defect indices: a count that is
returned for a dominant contour above the gate is the one the finger gaps give. -/
theorem rawFingerCount_dominant_some (cs : List Contour) (c : Contour) (n : Int)
    (hc : cs[(largest cs).1]? = some c) (harea : (largest cs).2 > 3000)
    (h : rawFingerCount cs = some n) :
    n = if c.hullIndices.length > 3 then min ((gaps c : Int) + 1) 5 else 1 := by
  have hne : cs ≠ [] := by
    rintro rfl
    simp at hc
  rw [rawFingerCount_large cs c hne hc harea] at h
  by_cases hh : c.hullIndices.length > 3
  · simp only [hh, if_true] at h ⊢
    cases hcount : countGaps c.points c.defects 0 with
    | none =>
      rw [hcount] at h
      exact absurd h (by simp)
    | some count =>
      rw [hcount] at h
      simp only [Option.map_some', Option.some.injEq] at h
      rw [← h, countGaps_some _ _ _ _ hcount, gaps, zero_add]
  · simp only [hh, if_false, Option.some.injEq] at h ⊢
    exact h.symm

theorem countGaps_ge (pts : List Point) (ds : List Vec4i) (count n : Int)
    (h : countGaps pts ds count = some n) : count ≤ n := by
  have := countGaps_some pts ds count n h
  have hg : (0 : Int) ≤ ((ds.filter (isFingerGap pts)).length : Int) := Nat.cast_nonneg _
  omega

theorem rawFingerCount_bounds (cs : List Contour) (n : Int)
    (h : rawFingerCount cs = some n) : 0 ≤ n ∧ n ≤ 5 := by
  unfold rawFingerCount at h
  split at h
  · simp only at h
    split at h
    · split at h
      · exact absurd h (by simp)
      · split at h
        · exact absurd h (by simp)
        · rename_i maxC _ count hcount
          have hc0 : 0 ≤ count := by
            split at hcount
            · exact countGaps_ge _ _ 0 count hcount
            · simp only [Option.some.injEq] at hcount
              omega
          simp only [Option.some.injEq] at h
          split at h <;> omega
    · simp only [Option.some.injEq] at h
      omega
  · simp only [Option.some.injEq] at h
    omega

theorem largestFrom_first (cs : List Contour) (i mi : Nat) (ma : ℚ) :
    (largestFrom cs i (mi, ma) = (mi, ma) ∧ ∀ c ∈ cs, c.area ≤ ma) ∨
    ∃ (k : Nat) (c : Contour), cs[k]? = some c ∧ largestFrom cs i (mi, ma) = (i + k, c.area) ∧
      ma < c.area ∧ (∀ (j : Nat) (d : Contour), j < k → cs[j]? = some d → d.area < c.area) ∧
      ∀ d ∈ cs, d.area ≤ c.area := by
  induction cs generalizing i mi ma with
  | nil =>
    left
    exact ⟨rfl, fun c hc => absurd hc (List.not_mem_nil c)⟩
  | cons c rest ih =>
    by_cases hc : c.area > ma
    · simp only [largestFrom, hc, if_true]
      right
      rcases ih (i + 1) i c.area with ⟨h1, h2⟩ | ⟨k, c1, hk, hr, hlt, hfirst, hall⟩
      · refine ⟨0, c, List.getElem?_cons_zero, by simpa using h1, hc, ?_, ?_⟩
        · intro j d hj
          exact absurd hj (Nat.not_lt_zero j)
        · intro d hd
          rcases List.mem_cons.mp hd with rfl | hd
          · exact le_refl _
          · exact h2 d hd
      · refine ⟨k + 1, c1, by simpa using hk, ?_, lt_trans hc hlt, ?_, ?_⟩
        · rw [hr]
          congr 1
          omega
        · intro j d hj hd
          cases j with
          | zero =>
            simp only [List.getElem?_cons_zero, Option.some.injEq] at hd
            rw [← hd]
            exact hlt
          | succ j1 =>
            simp only [List.getElem?_cons_succ] at hd
            exact hfirst j1 d (by omega) hd
        · intro d hd
          rcases List.mem_cons.mp hd with rfl | hd
          · exact le_of_lt hlt
          · exact hall d hd
    · simp only [largestFrom, hc, if_false]
      have hle : c.area ≤ ma := le_of_not_lt hc
      rcases ih (i + 1) mi ma with ⟨h1, h2⟩ | ⟨k, c1, hk, hr, hlt, hfirst, hall⟩
      · left
        refine ⟨h1, ?_⟩
        intro d hd
        rcases List.mem_cons.mp hd with rfl | hd
        · exact hle
        · exact h2 d hd
      · right
        refine ⟨k + 1, c1, by simpa using hk, ?_, hlt, ?_, ?_⟩
        · rw [hr]
          congr 1
          omega
        · intro j d hj hd
          cases j with
          | zero =>
            simp only [List.getElem?_cons_zero, Option.some.injEq] at hd
            rw [← hd]
            exact lt_of_le_of_lt hle hlt
          | succ j1 =>
            simp only [List.getElem?_cons_succ] at hd
            exact hfirst j1 d (by omega) hd
        · intro d hd
          rcases List.mem_cons.mp hd with rfl | hd
          · exact le_trans hle (le_of_lt hlt)
          · exact hall d hd

/-- The contour the loop ends on has area `maxArea` whenever `maxArea` is positive, and
`maxArea` is never negative. -/
theorem largest_dominant_area (cs : List Contour) :
    0 ≤ (largest cs).2 ∧
    ∀ c, cs[(largest cs).1]? = some c → (largest cs).2 > 0 → c.area = (largest cs).2 := by
  unfold largest
  rcases largestFrom_first cs 0 0 0 with ⟨h1, _⟩ | ⟨k, c1, hk, hr, hlt, _, _⟩
  · rw [h1]
    exact ⟨le_refl _, fun c _ hpos => absurd hpos (lt_irrefl _)⟩
  · rw [hr]
    simp only [zero_add]
    refine ⟨le_of_lt hlt, ?_⟩
    intro c hc _
    rw [hk] at hc
    simp only [Option.some.injEq] at hc
    rw [hc]

/-- C2, as stated, fails: the L-shaped blob of area 9600 with a hull of 5 points has one
convexity defect, of depth `3620 / 256 > 10` and with a right angle at its far point, so
one finger gap in the sense of the claim and `min (1 + 1) 5 = 2`; but the `double`
evaluation of the angle gives a value above 90, the defect is not counted and the raw
finger count is 1. -/
theorem rawFingerCount_right_angle_notch :
    notchContour.area > 3000 ∧ notchContour.hullIndices.length ≥ 4 ∧
    DefectsInRange notchContour ∧
    [notchContour][(largest [notchContour]).1]? = some notchContour ∧
    notchContour.defects = [⟨2, 4, 3, 3620⟩] ∧ (3620 : ℚ) / 256 > 10 ∧
    at? notchContour.points 2 = some ⟨100, 80⟩ ∧ at? notchContour.points 4 = some ⟨80, 100⟩ ∧
    at? notchContour.points 3 = some ⟨80, 80⟩ ∧
    angleDegrees ⟨100, 80⟩ ⟨80, 100⟩ ⟨80, 80⟩ ≤ 90 ∧
    exactGaps notchContour = 1 ∧ min ((exactGaps notchContour : Int) + 1) 5 = 2 ∧
    InFrame notchContour.points ∧
    cosineF64 ⟨100, 80⟩ ⟨80, 100⟩ ⟨80, 80⟩
      = some (-5764607523034235 / 40564819207303340847894502572032) ∧
    gaps notchContour = 0 ∧
    rawFingerCount [notchContour] = some 1 := by
  refine ⟨by decide!, by decide, by decide, by decide, rfl, by norm_num, by decide, by decide,
    by decide, ?_, by decide!, by decide!, by decide, by decide!, by decide!, by decide!⟩
  exact (angleDegrees_le_iff ⟨100, 80⟩ ⟨80, 100⟩ ⟨80, 80⟩ (by decide) (by decide)).mpr
    (by decide)

/-- C2, amended: when the dominant contour `c` (the entry the selection loop ends on) has
area above 3000 and at least 4 hull points, the raw finger count is `min (g + 1) 5` with
`g` the number of defects the loop counts: those with `v3 / 256 > 10`, indices inside the
contour and an angle at the far point that, as computed in `double` arithmetic, is at most
90.  The count is returned whenever the defect indices lie inside the contour, and every
returned count has this value; so 3 such gaps on a dominant contour of area 5000 give raw
finger count 4.  For a contour inside the frame the count `g` lies between the number of
defects with depth above 10 and an angle below 90 degrees (in a proper triangle) and the
number of defects with depth above 10 and an angle of at most 90 degrees: only defects with
an exact right angle or a degenerate triangle depend on the rounding. -/
theorem rawFingerCount_gaps_plus_one (contours : List Contour) (c : Contour)
    (hdom : contours[(largest contours).1]? = some c)
    (harea : c.area > 3000) (hhull : c.hullIndices.length ≥ 4) :
    (DefectsInRange c → rawFingerCount contours = some (min ((gaps c : Int) + 1) 5)) ∧
    (∀ n : Int, rawFingerCount contours = some n → n = min ((gaps c : Int) + 1) 5) ∧
    (c.area = 5000 → gaps c = 3 → DefectsInRange c → rawFingerCount contours = some 4) ∧
    gaps c = (c.defects.filter (isFingerGap c.points)).length ∧
    (∀ v : Vec4i, isFingerGap c.points v = true ↔
      ((v.v3 : ℚ) / 256 > 10 ∧ ∃ pStart pEnd pFar, at? c.points v.v0 = some pStart ∧
        at? c.points v.v1 = some pEnd ∧ at? c.points v.v2 = some pFar ∧
        angleLE90Double pStart pEnd pFar = true)) ∧
    (InFrame c.points → acuteGaps c ≤ gaps c ∧ gaps c ≤ exactGaps c) := by
  have hne : contours ≠ [] := by
    rintro rfl
    simp at hdom
  have hmem : c ∈ contours := List.getElem?_mem hdom
  have hbig : (largest contours).2 > 3000 :=
    lt_of_lt_of_le harea ((largestFrom_ge contours 0 (0, 0)).2 c hmem)
  have hh : c.hullIndices.length > 3 := hhull
  have hraw : DefectsInRange c →
      rawFingerCount contours = some (min ((gaps c : Int) + 1) 5) := by
    intro hwf
    have h := rawFingerCount_dominant contours c hne hdom hbig hwf
    rw [if_pos hh] at h
    exact h
  refine ⟨hraw, ?_, ?_, rfl, isFingerGap_iff c.points, gaps_between c⟩
  · intro n hn
    have h := rawFingerCount_dominant_some contours c n hdom hbig hn
    rw [if_pos hh] at h
    exact h
  · intro _ hg hwf
    rw [hraw hwf, hg]
    rfl

/-- Witness for C2: the open hand of area 5000 with its three finger gaps. -/
theorem rawFingerCount_gaps_plus_one_witness :
    [noiseContour, handContour][(largest [noiseContour, handContour]).1]? = some handContour ∧
    handContour.area > 3000 ∧ handContour.hullIndices.length ≥ 4 ∧
    DefectsInRange handContour ∧ handContour.area = 5000 ∧ gaps handContour = 3 ∧
    rawFingerCount [noiseContour, handContour] = some 4 ∧ InFrame handContour.points ∧
    acuteGaps handContour = 3 ∧ exactGaps handContour = 3 :=
  ⟨by decide, by decide!, by decide, by decide, by decide!, by decide!,
    (rawFingerCount_gaps_plus_one [noiseContour, handContour] handContour (by decide)
      (by decide!) (by decide)).2.2.1 (by decide!) (by decide!) (by decide),
    by decide, by decide!, by decide!⟩

/-! ## `consumeTrigger`: lines 264-274 -/

theorem heldThree_reachable : Reachable heldThree :=
  Reachable.tick 3 (f32round (1 / 10))
    (Reachable.tick 3 (f32round (1 / 10))
      (Reachable.tick 3 (f32round (1 / 20))
        (Reachable.setEnabled true true false Reachable.init) (by decide) (by decide))
      (by decide) (by decide))
    (by decide) (by decide)

/-- C3: on an armed tracker `consumeTrigger` returns `true`, writes `lastStableCount` to
`outFingerCount`, sets `holdTime` to 0 and `triggerAction` to false, and leaves
`lastStableCount`, `detectedFingers` (and the camera fields) unchanged. -/
theorem consumeTrigger_when_armed (s : GestureTracker) (outFingerCount : Int)
    (h : s.triggerAction = true) :
    (consumeTrigger s outFingerCount).1 = true ∧
    (consumeTrigger s outFingerCount).2.1 = s.lastStableCount ∧
    (consumeTrigger s outFingerCount).2.2.holdTime = 0 ∧
    (consumeTrigger s outFingerCount).2.2.triggerAction = false ∧
    (consumeTrigger s outFingerCount).2.2.lastStableCount = s.lastStableCount ∧
    (consumeTrigger s outFingerCount).2.2.detectedFingers = s.detectedFingers ∧
    (consumeTrigger s outFingerCount).2.2 = { s with holdTime := 0, triggerAction := false } := by
  simp [consumeTrigger, h]

/-- Witness for C3: the tracker after the count 3 was held for three ticks. -/
theorem consumeTrigger_when_armed_witness :
    heldThree.triggerAction = true ∧
    (consumeTrigger heldThree 0).1 = true ∧
    (consumeTrigger heldThree 0).2.1 = heldThree.lastStableCount ∧
    (consumeTrigger heldThree 0).2.2.holdTime = 0 ∧
    (consumeTrigger heldThree 0).2.2.triggerAction = false ∧
    (consumeTrigger heldThree 0).2.2.lastStableCount = heldThree.lastStableCount ∧
    (consumeTrigger heldThree 0).2.2.detectedFingers = heldThree.detectedFingers ∧
    (consumeTrigger heldThree 0).2.2 = { heldThree with holdTime := 0, triggerAction := false } :=
  ⟨by decide!, consumeTrigger_when_armed heldThree 0 (by decide!)⟩

/-- C4: for every tracker state, a second `consumeTrigger` issued right after a first one
returns `false`, leaves the tracker exactly as the first call left it and does not write the
caller's variable; so the two calls together yield an event at most once. -/
theorem consumeTrigger_twice (s : GestureTracker) (outFingerCount : Int) :
    (consumeTrigger (consumeTrigger s outFingerCount).2.2
        (consumeTrigger s outFingerCount).2.1).1 = false ∧
    (consumeTrigger (consumeTrigger s outFingerCount).2.2
        (consumeTrigger s outFingerCount).2.1).2.2 = (consumeTrigger s outFingerCount).2.2 ∧
    (consumeTrigger (consumeTrigger s outFingerCount).2.2
        (consumeTrigger s outFingerCount).2.1).2.1 = (consumeTrigger s outFingerCount).2.1 := by
  by_cases h : s.triggerAction = true
  · simp [consumeTrigger, h]
  · simp [consumeTrigger, h]

/-- C5: on a tracker that is not armed `consumeTrigger` returns `false`, leaves the caller's
`outFingerCount` as it was and leaves the whole tracker state unchanged. -/
theorem consumeTrigger_not_armed (s : GestureTracker) (outFingerCount : Int)
    (h : s.triggerAction = false) :
    (consumeTrigger s outFingerCount).1 = false ∧
    (consumeTrigger s outFingerCount).2.1 = outFingerCount ∧
    (consumeTrigger s outFingerCount).2.2 = s := by
  simp [consumeTrigger, h]

/-- Witness for C5: a freshly constructed tracker and a caller variable holding 7. -/
theorem consumeTrigger_not_armed_witness :
    GestureTracker.init.triggerAction = false ∧
    (consumeTrigger GestureTracker.init 7).1 = false ∧
    (consumeTrigger GestureTracker.init 7).2.1 = 7 ∧
    (consumeTrigger GestureTracker.init 7).2.2 = GestureTracker.init :=
  ⟨by decide, consumeTrigger_not_armed GestureTracker.init 7 (by decide)⟩

/-! ## Events carry a count in `[1,5]` -/

theorem tick_armedCountInRange (s : GestureTracker) (raw : Int) (dt : ℚ) (h5 : raw ≤ 5) :
    ArmedCountInRange (tick s raw dt) := by
  intro harmed
  by_cases h : raw = s.lastStableCount ∧ raw > 0
  · rw [tick_hold s raw dt h.1 h.2]
    simp only
    omega
  · rw [tick_reset s raw dt h] at harmed
    simp at harmed

theorem update_armedCountInRange (s s1 : GestureTracker) (dt : ℚ) (isActive : Bool)
    (frame : Option (List Contour)) (hs : ArmedCountInRange s)
    (h : update s dt isActive frame = some s1) : ArmedCountInRange s1 := by
  unfold update at h
  split at h
  · simp only [Option.some.injEq] at h
    exact h ▸ hs
  · split at h
    · split at h <;> (simp only [Option.some.injEq] at h; subst h; exact hs)
    · split at h
      · simp only [Option.some.injEq] at h
        exact h ▸ hs
      · split at h
        · exact absurd h (by simp)
        · rename_i raw hraw
          simp only [Option.some.injEq] at h
          subst h
          exact tick_armedCountInRange s raw dt (rawFingerCount_bounds _ raw hraw).2

theorem setEnabled_armedCountInRange (s : GestureTracker) (enabled open0 open1 : Bool)
    (hs : ArmedCountInRange s) : ArmedCountInRange (setEnabled s enabled open0 open1) := by
  have h1 : (setEnabled s enabled open0 open1).triggerAction = s.triggerAction := by
    unfold setEnabled stopCamera
    simp only
    split_ifs <;> rfl
  have h2 : (setEnabled s enabled open0 open1).lastStableCount = s.lastStableCount := by
    unfold setEnabled stopCamera
    simp only
    split_ifs <;> rfl
  unfold ArmedCountInRange
  rw [h1, h2]
  exact hs

theorem consume_keeps_armedCountInRange (s : GestureTracker) (outFingerCount : Int)
    (hs : ArmedCountInRange s) : ArmedCountInRange (consumeTrigger s outFingerCount).2.2 := by
  by_cases h : s.triggerAction = true
  · intro harmed
    simp [consumeTrigger, h] at harmed
  · simp only [consumeTrigger, h]
    exact hs

theorem reachable_armedCountInRange (s : GestureTracker) (h : Reachable s) :
    ArmedCountInRange s := by
  induction h with
  | init => intro harmed; simp [GestureTracker.init] at harmed
  | setEnabled enabled open0 open1 _ ih => exact setEnabled_armedCountInRange _ _ _ _ ih
  | update dt isActive frame _ hupd ih => exact update_armedCountInRange _ _ dt isActive frame ih hupd
  | tick raw dt _ _ h5 _ => exact tick_armedCountInRange _ raw dt h5
  | consumeTrigger outFingerCount _ ih => exact consume_keeps_armedCountInRange _ _ ih

/-- C6: in every state reachable from a freshly constructed tracker by `setEnabled`,
`update` (processed or skipped, any elapsed time) and `consumeTrigger` calls, an event
returned by `consumeTrigger` carries a finger count in `[1,5]`; and right after a tick whose
raw count is 0, from any state, `consumeTrigger` returns no event. -/
theorem consumeTrigger_event_in_range (s : GestureTracker) (hreach : Reachable s)
    (outFingerCount : Int) (hevent : (consumeTrigger s outFingerCount).1 = true) :
    (1 ≤ (consumeTrigger s outFingerCount).2.1 ∧ (consumeTrigger s outFingerCount).2.1 ≤ 5) ∧
    ∀ (s0 : GestureTracker) (dt : ℚ) (out0 : Int),
      (consumeTrigger (tick s0 0 dt) out0).1 = false := by
  constructor
  · have harmed : s.triggerAction = true := by
      by_cases h : s.triggerAction = true
      · exact h
      · simp [consumeTrigger, h] at hevent
    have hinv := reachable_armedCountInRange s hreach harmed
    simpa [consumeTrigger, harmed] using hinv
  · intro s0 dt out0
    have h : ¬ ((0 : Int) = s0.lastStableCount ∧ (0 : Int) > 0) := by omega
    rw [tick_reset s0 0 dt h]
    simp [consumeTrigger]

/-- Witness for C6: the event fired after the count 3 was held for three ticks. -/
theorem consumeTrigger_event_in_range_witness :
    Reachable heldThree ∧ (consumeTrigger heldThree 0).1 = true ∧
    (1 ≤ (consumeTrigger heldThree 0).2.1 ∧ (consumeTrigger heldThree 0).2.1 ≤ 5) ∧
    ∀ (s0 : GestureTracker) (dt : ℚ) (out0 : Int),
      (consumeTrigger (tick s0 0 dt) out0).1 = false :=
  ⟨heldThree_reachable, by decide!,
    consumeTrigger_event_in_range heldThree heldThree_reachable 0 (by decide!)⟩

/-! ## Hold accumulation -/

theorem tick_lastStableCount (s : GestureTracker) (raw : Int) (dt : ℚ) :
    (tick s raw dt).lastStableCount = raw := by
  by_cases h : raw = s.lastStableCount ∧ raw > 0
  · rw [tick_hold s raw dt h.1 h.2]
    exact h.1.symm
  · rw [tick_reset s raw dt h]

/-- The `float` sum of a list of elapsed times extended by one more. -/
theorem f32sum_concat (es : List ℚ) (e : ℚ) : f32sum (es ++ [e]) = f32round (f32sum es + e) := by
  simp [f32sum, f32add, List.foldl_append]

/-- A `float` sum is at least 0.2 exactly when it is at least `0.2f`. -/
theorem f32sum_ge_fifth (es : List ℚ) : 1 / 5 ≤ f32sum es ↔ REQUIRED_HOLD_TIME ≤ f32sum es := by
  constructor
  · intro h
    rcases List.eq_nil_or_concat es with rfl | ⟨l, e, rfl⟩
    · simp [f32sum] at h
      norm_num at h
    · rw [List.concat_eq_append, f32sum_concat] at h ⊢
      exact f32round_ge_fifth _ h
  · intro h
    exact le_trans (le_of_lt fifth_lt_required) h

/-- Adding non-negative elapsed times to a `float` that has reached `0.2f` never takes it
below `0.2f` again. -/
theorem foldl_f32add_ge (later : List ℚ) (a : ℚ) (ha : REQUIRED_HOLD_TIME ≤ a)
    (hlater : ∀ e ∈ later, 0 ≤ e) : REQUIRED_HOLD_TIME ≤ later.foldl f32add a := by
  induction later generalizing a with
  | nil => exact ha
  | cons e rest ih =>
    simp only [List.foldl_cons]
    apply ih
    · apply f32round_ge_required
      have := hlater e (List.mem_cons_self e rest)
      linarith
    · exact fun x hx => hlater x (List.mem_cons_of_mem e hx)

/-- Ticks that keep showing the count a tracker already holds: the elapsed times are added
to `holdTime` one by one in `float` arithmetic, and after at least one such tick the tracker
is armed exactly when the new `holdTime` has reached the threshold. -/
theorem foldl_tick_hold (c : Int) (hc : c > 0) (es : List ℚ) (s : GestureTracker)
    (hs : s.lastStableCount = c) :
    (es.foldl (fun s e => tick s c e) s).lastStableCount = c ∧
    (es.foldl (fun s e => tick s c e) s).holdTime = es.foldl f32add s.holdTime ∧
    (es ≠ [] → ((es.foldl (fun s e => tick s c e) s).triggerAction = true ↔
      es.foldl f32add s.holdTime ≥ REQUIRED_HOLD_TIME)) := by
  induction es generalizing s with
  | nil => simp [hs]
  | cons e rest ih =>
    have h1 := tick_hold s c e hs.symm hc
    have hh : (tick s c e).holdTime = f32add s.holdTime e := by rw [h1]
    have ht : (tick s c e).triggerAction
        = decide (f32add s.holdTime e ≥ REQUIRED_HOLD_TIME) := by rw [h1]
    obtain ⟨ihl, ihh, iht⟩ := ih (tick s c e) (tick_lastStableCount s c e)
    simp only [List.foldl_cons]
    rw [hh] at ihh iht
    refine ⟨ihl, ihh, ?_⟩
    intro _
    by_cases hr : rest = []
    · subst hr
      simp only [List.foldl_nil]
      rw [ht]
      simp
    · exact iht hr

/-- After the first tick of a run the tracker holds the count with `holdTime = 0`. -/
theorem tick_init (c : Int) (e : ℚ) :
    (tick GestureTracker.init c e).lastStableCount = c ∧
    (tick GestureTracker.init c e).holdTime = 0 ∧
    (tick GestureTracker.init c e).triggerAction = false := by
  by_cases h : c = GestureTracker.init.lastStableCount ∧ c > 0
  · exfalso
    have h0 : c = 0 := h.1
    omega
  · rw [tick_reset _ c e h]
    exact ⟨rfl, rfl, rfl⟩

theorem showCount_cons (c : Int) (hc : c > 0) (e1 : ℚ) (es : List ℚ) :
    (showCount c (e1 :: es)).lastStableCount = c ∧
    (showCount c (e1 :: es)).holdTime = f32sum es ∧
    ((showCount c (e1 :: es)).triggerAction = true ↔ f32sum es ≥ REQUIRED_HOLD_TIME) := by
  obtain ⟨i1, i2, i3⟩ := tick_init c e1
  obtain ⟨f1, f2, f3⟩ := foldl_tick_hold c hc es (tick GestureTracker.init c e1) i1
  simp only [showCount, List.foldl_cons]
  rw [i2] at f2 f3
  refine ⟨f1, f2, ?_⟩
  by_cases hr : es = []
  · subst hr
    simp only [List.foldl_nil, i3, f32sum]
    rw [REQUIRED_HOLD_TIME_eq]
    norm_num
  · exact f3 hr

/-- C7: on a tick whose raw count differs from `lastStableCount` the filter sets
`lastStableCount` to the raw count, `holdTime` to 0 and `triggerAction` to false, whatever
`holdTime` and `triggerAction` were before; and for the raw sequence 2, 2, 3, from any
state and with any elapsed times, the third tick ends with `holdTime = 0`, not armed and
`lastStableCount = 3`. -/
theorem tick_count_changed (s : GestureTracker) (raw : Int) (dt : ℚ)
    (h : raw ≠ s.lastStableCount) :
    ((tick s raw dt).lastStableCount = raw ∧ (tick s raw dt).holdTime = 0 ∧
      (tick s raw dt).triggerAction = false) ∧
    ∀ (s0 : GestureTracker) (d1 d2 d3 : ℚ),
      (tick (tick (tick s0 2 d1) 2 d2) 3 d3).holdTime = 0 ∧
      (tick (tick (tick s0 2 d1) 2 d2) 3 d3).triggerAction = false ∧
      (tick (tick (tick s0 2 d1) 2 d2) 3 d3).lastStableCount = 3 := by
  have reset : ∀ (t : GestureTracker) (r : Int) (d : ℚ), r ≠ t.lastStableCount →
      (tick t r d).lastStableCount = r ∧ (tick t r d).holdTime = 0 ∧
        (tick t r d).triggerAction = false := by
    intro t r d hr
    have hn : ¬ (r = t.lastStableCount ∧ r > 0) := fun hc => hr hc.1
    rw [tick_reset t r d hn]
    exact ⟨rfl, rfl, rfl⟩
  refine ⟨reset s raw dt h, ?_⟩
  intro s0 d1 d2 d3
  have h2 : (tick (tick s0 2 d1) 2 d2).lastStableCount = 2 := tick_lastStableCount _ 2 d2
  have h3 : (3 : Int) ≠ (tick (tick s0 2 d1) 2 d2).lastStableCount := by
    rw [h2]
    decide
  obtain ⟨a, b, c⟩ := reset (tick (tick s0 2 d1) 2 d2) 3 d3 h3
  exact ⟨b, c, a⟩

/-- Witness for C7: the armed tracker holding 3 sees the count 4. -/
theorem tick_count_changed_witness :
    (4 : Int) ≠ heldThree.lastStableCount ∧
    ((tick heldThree 4 (1 / 10)).lastStableCount = 4 ∧ (tick heldThree 4 (1 / 10)).holdTime = 0 ∧
      (tick heldThree 4 (1 / 10)).triggerAction = false) ∧
    ∀ (s0 : GestureTracker) (d1 d2 d3 : ℚ),
      (tick (tick (tick s0 2 d1) 2 d2) 3 d3).holdTime = 0 ∧
      (tick (tick (tick s0 2 d1) 2 d2) 3 d3).triggerAction = false ∧
      (tick (tick (tick s0 2 d1) 2 d2) 3 d3).lastStableCount = 3 :=
  ⟨by decide!, tick_count_changed heldThree 4 (1 / 10) (by decide!)⟩

/-- C8, as stated, fails: the tracker holds 3 with `holdTime = 0.15f` and sees 3 on a tick
of `13421771 / 2^28` seconds.  `holdTime + dt` is `53687091 / 2^28`, below 0.2, but the
`float` addition rounds it to `0.2f`: the new `holdTime` is not `holdTime + dt`, and the
tracker is armed. -/
theorem tick_hold_rounds_up :
    (3 : Int) = (showCount 3 [1 / 4, DT_015]).lastStableCount ∧
    (showCount 3 [1 / 4, DT_015]).holdTime = 5033165 / 33554432 ∧
    f32round DT_SHORT = DT_SHORT ∧ DT_SHORT = 13421771 / 268435456 ∧
    (showCount 3 [1 / 4, DT_015]).holdTime + DT_SHORT = 53687091 / 268435456 ∧
    (showCount 3 [1 / 4, DT_015]).holdTime + DT_SHORT < 1 / 5 ∧
    (tick (showCount 3 [1 / 4, DT_015]) 3 DT_SHORT).holdTime = 13421773 / 67108864 ∧
    (tick (showCount 3 [1 / 4, DT_015]) 3 DT_SHORT).holdTime
      ≠ (showCount 3 [1 / 4, DT_015]).holdTime + DT_SHORT ∧
    (tick (showCount 3 [1 / 4, DT_015]) 3 DT_SHORT).triggerAction = true := by
  decide!

/-- C8, amended: on a tick whose raw count equals `lastStableCount` and is positive,
`holdTime` becomes the `float` sum of `holdTime` and `dt`, that is `holdTime + dt` rounded
to the nearest `float` (and exactly `holdTime + dt` when that is a `float`),
`lastStableCount` is unchanged, and afterwards `triggerAction` is true if and only if the
new `holdTime` is at least `REQUIRED_HOLD_TIME = 0.2f`, which for a `float` is the same as
being at least 0.2.  The rounding raises a non-negative `holdTime + dt` by at most the
fraction `2^-24` of its size (`2^-150` in the subnormal range). -/
theorem tick_count_held (s : GestureTracker) (raw : Int) (dt : ℚ)
    (h : raw = s.lastStableCount) (hpos : raw > 0) :
    (tick s raw dt).holdTime = f32round (s.holdTime + dt) ∧
    (f32round (s.holdTime + dt) = s.holdTime + dt →
      (tick s raw dt).holdTime = s.holdTime + dt) ∧
    (tick s raw dt).lastStableCount = s.lastStableCount ∧
    ((tick s raw dt).triggerAction = true ↔ (tick s raw dt).holdTime ≥ REQUIRED_HOLD_TIME) ∧
    ((tick s raw dt).triggerAction = true ↔ (tick s raw dt).holdTime ≥ 1 / 5) ∧
    REQUIRED_HOLD_TIME = f32round (1 / 5) ∧ REQUIRED_HOLD_TIME = 13421773 / 67108864 ∧
    (0 ≤ s.holdTime + dt →
      (tick s raw dt).holdTime ≤ (s.holdTime + dt) * (1 + 1 / 2 ^ 24) + 1 / 2 ^ 150) := by
  rw [tick_hold s raw dt h hpos]
  refine ⟨rfl, fun hx => hx, rfl, ?_, ?_, rfl, REQUIRED_HOLD_TIME_eq, f32round_upper _⟩
  · simp
  · simp only [decide_eq_true_eq, f32add, ge_iff_le]
    constructor
    · intro h1
      exact le_trans (le_of_lt fifth_lt_required) h1
    · intro h1
      exact f32round_ge_fifth _ h1

/-- Witness for C8: the tracker holding 3 for `0.1f` seconds sees 3 for another `0.1f`. -/
theorem tick_count_held_witness :
    (3 : Int) = (showCount 3 [f32round (1 / 20), f32round (1 / 10)]).lastStableCount ∧
    (3 : Int) > 0 ∧
    (tick (showCount 3 [f32round (1 / 20), f32round (1 / 10)]) 3 (f32round (1 / 10))).holdTime
      = f32round ((showCount 3 [f32round (1 / 20), f32round (1 / 10)]).holdTime
          + f32round (1 / 10)) ∧
    ((tick (showCount 3 [f32round (1 / 20), f32round (1 / 10)]) 3
        (f32round (1 / 10))).triggerAction = true ↔
      (tick (showCount 3 [f32round (1 / 20), f32round (1 / 10)]) 3
        (f32round (1 / 10))).holdTime ≥ REQUIRED_HOLD_TIME) :=
  ⟨by decide!, by decide,
    (tick_count_held (showCount 3 [f32round (1 / 20), f32round (1 / 10)]) 3
      (f32round (1 / 10)) (by decide!) (by decide)).1,
    (tick_count_held (showCount 3 [f32round (1 / 20), f32round (1 / 10)]) 3
      (f32round (1 / 10)) (by decide!) (by decide)).2.2.2.1⟩

/-- C9, as stated, fails.  With the count 3 shown for 0.25 s on the first tick the
cumulative elapsed time has reached 0.2 s, yet the tracker is not armed after that tick,
and it is still not armed after a second tick of 0.125 s: the first tick only records the
count.  And with elapsed times 0, `0.15f` and `13421771 / 2^28` the tracker is armed after
the third tick although the cumulative elapsed time is still below 0.2 s: `holdTime` is
accumulated in `float` arithmetic. -/
theorem showCount_first_tick_not_counted :
    (0 : ℚ) ≤ 1 / 4 ∧ (0 : ℚ) ≤ 1 / 8 ∧
    ([1 / 4] : List ℚ).sum ≥ REQUIRED_HOLD_TIME ∧
    (showCount 3 [1 / 4]).triggerAction = false ∧
    (showCount 3 [1 / 4, 1 / 8]).triggerAction = false ∧
    (0 : ℚ) ≤ DT_015 ∧ (0 : ℚ) ≤ DT_SHORT ∧
    f32round DT_015 = DT_015 ∧ f32round DT_SHORT = DT_SHORT ∧
    ([0, DT_015, DT_SHORT] : List ℚ).sum < 1 / 5 ∧
    (showCount 3 [0, DT_015, DT_SHORT]).triggerAction = true := by
  decide!

/-- C9, amended: from a freshly constructed tracker with the count `c` in `1..5` shown on
every tick, the first tick only records the count; the elapsed times of the later ticks are
added to `holdTime` in `float` arithmetic, and the tracker is armed after a tick exactly
when this `float` sum is at least `0.2f` (equivalently, at least 0.2); once armed it stays
armed on later ticks with non-negative elapsed times, until `consumeTrigger` is called or
another count is seen.  For counts 3, 3, 3 with elapsed times `0.05f`, `0.1f`, `0.1f` the
tracker is not armed after tick 2, is armed after tick 3 with `holdTime = 0.2f`, and
`consumeTrigger` then returns 3.  With non-negative elapsed times an armed tracker has seen
`k` ticks after the first whose elapsed times sum to at least `0.2 / (1 + 2^-24)^k`, up to
`k * 2^-150`. -/
theorem showCount_armed_iff (c : Int) (hc1 : 1 ≤ c) (hc5 : c ≤ 5) (e1 : ℚ) (es later : List ℚ)
    (hlater : ∀ e ∈ later, 0 ≤ e) :
    ((showCount c (e1 :: es)).triggerAction = true ↔ f32sum es ≥ REQUIRED_HOLD_TIME) ∧
    ((showCount c (e1 :: es)).triggerAction = true ↔ f32sum es ≥ 1 / 5) ∧
    (showCount c (e1 :: es)).holdTime = f32sum es ∧
    (showCount c [e1]).triggerAction = false ∧
    ((showCount c (e1 :: es)).triggerAction = true →
      (showCount c (e1 :: (es ++ later))).triggerAction = true) ∧
    (∀ (c1 : Int) (dt : ℚ), c1 ≠ c →
      (tick (showCount c (e1 :: es)) c1 dt).triggerAction = false) ∧
    (∀ out : Int, (consumeTrigger (showCount c (e1 :: es)) out).2.2.triggerAction = false) ∧
    (showCount 3 [f32round (1 / 20), f32round (1 / 10)]).triggerAction = false ∧
    (showCount 3 [f32round (1 / 20), f32round (1 / 10), f32round (1 / 10)]).triggerAction
      = true ∧
    (consumeTrigger
      (showCount 3 [f32round (1 / 20), f32round (1 / 10), f32round (1 / 10)]) 0).1 = true ∧
    (consumeTrigger
      (showCount 3 [f32round (1 / 20), f32round (1 / 10), f32round (1 / 10)]) 0).2.1 = 3 ∧
    (showCount 3 [f32round (1 / 20), f32round (1 / 10), f32round (1 / 10)]).holdTime
      = REQUIRED_HOLD_TIME ∧
    ((∀ e ∈ es, 0 ≤ e) → (showCount c (e1 :: es)).triggerAction = true →
      1 / 5 ≤ (1 + 1 / 2 ^ 24) ^ es.length * (es.sum + (es.length : ℚ) / 2 ^ 150)) := by
  have hc : c > 0 := by omega
  obtain ⟨hl, hh, ht⟩ := showCount_cons c hc e1 es
  refine ⟨ht, ?_, hh, ?_, ?_, ?_, ?_, by decide!, by decide!, by decide!, by decide!,
    by decide!, ?_⟩
  rotate_right
  · intro hes harmed
    exact le_trans (le_trans (le_of_lt fifth_lt_required) (ht.mp harmed)) (f32sum_upper es hes)
  · rw [ht]
    exact (f32sum_ge_fifth es).symm
  · exact (tick_init c e1).2.2
  · intro harmed
    have h1 := ht.mp harmed
    apply (showCount_cons c hc e1 (es ++ later)).2.2.mpr
    unfold f32sum
    rw [List.foldl_append]
    exact foldl_f32add_ge later _ h1 hlater
  · intro c1 dt hne
    have hn : ¬ (c1 = (showCount c (e1 :: es)).lastStableCount ∧ c1 > 0) := by
      rw [hl]
      exact fun h => hne h.1
    rw [tick_reset _ c1 dt hn]
  · intro out
    by_cases h : (showCount c (e1 :: es)).triggerAction = true
    · simp [consumeTrigger, h]
    · simp [consumeTrigger, h]

/-- Witness for C9: the count 2 on ticks of `0.05f`, `0.15f` and `0.1f` seconds, then 0.25 s
more. -/
theorem showCount_armed_iff_witness :
    (1 : Int) ≤ 2 ∧ (2 : Int) ≤ 5 ∧ (∀ e ∈ ([1 / 4] : List ℚ), 0 ≤ e) ∧
    f32sum [DT_015, f32round (1 / 10)] ≥ REQUIRED_HOLD_TIME ∧
    (showCount 2 (f32round (1 / 20) :: [DT_015, f32round (1 / 10)])).triggerAction = true ∧
    (showCount 2 (f32round (1 / 20) :: ([DT_015, f32round (1 / 10)] ++ [1 / 4]))).triggerAction
      = true :=
  ⟨by decide, by decide, by decide!, by decide!,
    (showCount_armed_iff 2 (by decide) (by decide) (f32round (1 / 20))
      [DT_015, f32round (1 / 10)] [1 / 4] (by decide!)).1.mpr (by decide!),
    (showCount_armed_iff 2 (by decide) (by decide) (f32round (1 / 20))
      [DT_015, f32round (1 / 10)] [1 / 4] (by decide!)).2.2.2.2.1 (by decide!)⟩

/-- C10, as stated, fails.  After a single tick of 0.125 s showing the count 3 the
cumulative elapsed time is 0.125 s (below 0.2 s) but `holdTime` is 0; after a second tick
of 0.0625 s `holdTime` is 0.0625, not 0.1875: the first tick is not accumulated.  And with
elapsed times 0, `0.15f` and `13421771 / 2^28`, whose sum `53687091 / 2^28` is below 0.2,
`holdTime` after the third tick is `0.2f`, not that sum: the additions are rounded to
`float`. -/
theorem holdTime_skips_first_tick :
    ([1 / 8] : List ℚ).sum = 1 / 8 ∧ (1 / 8 : ℚ) < REQUIRED_HOLD_TIME ∧
    (showCount 3 [1 / 8]).holdTime = 0 ∧
    (showCount 3 [1 / 8]).holdTime ≠ ([1 / 8] : List ℚ).sum ∧
    (showCount 3 [1 / 8, 1 / 16]).holdTime = 1 / 16 ∧
    (showCount 3 [1 / 8, 1 / 16]).holdTime ≠ ([1 / 8, 1 / 16] : List ℚ).sum ∧
    f32round DT_015 = DT_015 ∧ f32round DT_SHORT = DT_SHORT ∧
    ([0, DT_015, DT_SHORT] : List ℚ).sum = 53687091 / 268435456 ∧
    ([0, DT_015] : List ℚ).sum < 1 / 5 ∧ ([0, DT_015, DT_SHORT] : List ℚ).sum < 1 / 5 ∧
    (showCount 3 [0, DT_015, DT_SHORT]).holdTime = 13421773 / 67108864 ∧
    (showCount 3 [0, DT_015, DT_SHORT]).holdTime ≠ ([0, DT_015, DT_SHORT] : List ℚ).sum := by
  decide!

/-- C10, amended: from a freshly constructed tracker with a constant count `c > 0` shown
on ticks with elapsed times `e1, e2, ..., ek` and no `consumeTrigger` in between,
`holdTime` after tick `k` is the `float` sum of `e2, ..., ek`: the first tick records the
count with `holdTime = 0`, and every later tick replaces `holdTime` by `holdTime + e`
rounded to the nearest `float`.  With non-negative elapsed times `holdTime` exceeds
`e2 + ... + ek` by at most the factor `(1 + 2^-24)^(k-1)`, up to `(k-1) * 2^-150`. -/
theorem holdTime_sum_after_first (c : Int) (hc : c > 0) (e1 : ℚ) (es : List ℚ) :
    (showCount c (e1 :: es)).holdTime = f32sum es ∧
    (showCount c [e1]).holdTime = 0 ∧
    (∀ e : ℚ, (showCount c (e1 :: (es ++ [e]))).holdTime
      = f32round ((showCount c (e1 :: es)).holdTime + e)) ∧
    f32sum [] = 0 ∧ (∀ (l : List ℚ) (e : ℚ), f32sum (l ++ [e]) = f32round (f32sum l + e)) ∧
    ((∀ e ∈ es, 0 ≤ e) → (showCount c (e1 :: es)).holdTime
      ≤ (1 + 1 / 2 ^ 24) ^ es.length * (es.sum + (es.length : ℚ) / 2 ^ 150)) := by
  refine ⟨(showCount_cons c hc e1 es).2.1, ?_, ?_, rfl, f32sum_concat, ?_⟩
  rotate_right
  · intro hes
    rw [(showCount_cons c hc e1 es).2.1]
    exact f32sum_upper es hes
  · simpa [f32sum] using (showCount_cons c hc e1 []).2.1
  · intro e
    rw [(showCount_cons c hc e1 (es ++ [e])).2.1, (showCount_cons c hc e1 es).2.1,
      f32sum_concat]

/-- Witness for C10: the count 3 with elapsed times `0.05f`, `0.1f`, `0.1f`. -/
theorem holdTime_sum_after_first_witness :
    (3 : Int) > 0 ∧
    (showCount 3 (f32round (1 / 20) :: [f32round (1 / 10), f32round (1 / 10)])).holdTime
      = f32sum [f32round (1 / 10), f32round (1 / 10)] :=
  ⟨by decide, (holdTime_sum_after_first 3 (by decide) (f32round (1 / 20))
    [f32round (1 / 10), f32round (1 / 10)]).1⟩

/-! ## Ticks with raw count 0 -/

/-- The raw finger count is 0 exactly when there is no contour or the largest area does
not pass the gate. -/
theorem rawFingerCount_zero_iff (cs : List Contour) :
    rawFingerCount cs = some 0 ↔ (cs = [] ∨ (largest cs).2 ≤ 3000) := by
  constructor
  · intro h
    by_contra hn
    have hne : cs ≠ [] := fun h0 => hn (Or.inl h0)
    have harea : (largest cs).2 > 3000 := by
      by_contra h0
      exact hn (Or.inr (not_lt.mp h0))
    have hlt := largest_lt_length cs hne
    have hc : cs[(largest cs).1]? = some cs[(largest cs).1] := List.getElem?_eq_getElem hlt
    have h1 := rawFingerCount_dominant_some cs _ 0 hc harea h
    have hg : (0 : Int) ≤ (gaps cs[(largest cs).1] : Int) := Nat.cast_nonneg _
    split at h1
    · have : (1 : Int) ≤ min ((gaps cs[(largest cs).1] : Int) + 1) 5 :=
        le_min (by omega) (by norm_num)
      omega
    · omega
  · rintro (h | h)
    · rw [h]
      exact rawFingerCount_empty
    · exact rawFingerCount_small cs (not_lt.mpr h)

/-- C11, as stated, fails: the claim counts a contour with insufficient hull points among
the ticks with raw count 0, but a triangular blob of area 5000, whose hull has 3 points,
gives raw count 1; seen by a tracker that already holds 1, on a tick of 0.25 s, it leaves
the tracker armed with `holdTime = 0.25`. -/
theorem small_hull_tick_arms :
    triangleContour.hullIndices.length < 4 ∧ rawFingerCount [triangleContour] = some 1 ∧
    (tick (setEnabled GestureTracker.init true true false) 1 (1 / 4)).capOpened = true ∧
    (tick (setEnabled GestureTracker.init true true false) 1 (1 / 4)).lastStableCount = 1 ∧
    (update (tick (setEnabled GestureTracker.init true true false) 1 (1 / 4)) (1 / 4) true
      (some [triangleContour])).map (fun s => (s.triggerAction, s.holdTime))
      = some (true, 1 / 4) := by
  decide!

/-- C11, amended: on every processed tick whose raw finger count is computed as 0, which
happens exactly when the contour set is empty or the largest area is at most 3000, and
from every prior state, the state after that tick has `triggerAction = false` and
`holdTime = 0`. -/
theorem no_hand_tick_resets (s : GestureTracker) (dt : ℚ) (contours : List Contour)
    (hcap : s.capOpened = true) (hraw : contours = [] ∨ (largest contours).2 ≤ 3000) :
    rawFingerCount contours = some 0 ∧
    (∃ s1, update s dt true (some contours) = some s1 ∧
      s1.triggerAction = false ∧ s1.holdTime = 0) ∧
    (tick s 0 dt).triggerAction = false ∧ (tick s 0 dt).holdTime = 0 ∧
    (∀ cs : List Contour, rawFingerCount cs = some 0 ↔ (cs = [] ∨ (largest cs).2 ≤ 3000)) := by
  have hzero : rawFingerCount contours = some 0 := (rawFingerCount_zero_iff contours).mpr hraw
  have h : ¬ ((0 : Int) = s.lastStableCount ∧ (0 : Int) > 0) := by omega
  have ht : (tick s 0 dt).triggerAction = false ∧ (tick s 0 dt).holdTime = 0 := by
    rw [tick_reset s 0 dt h]
    exact ⟨rfl, rfl⟩
  refine ⟨hzero, ⟨tick s 0 dt, ?_, ht.1, ht.2⟩, ht.1, ht.2, rawFingerCount_zero_iff⟩
  simp [update, hcap, hzero]

/-- Witness for C11: the armed tracker holding 3 sees only a noise blob. -/
theorem no_hand_tick_resets_witness :
    heldThree.capOpened = true ∧
    ([noiseContour] = [] ∨ (largest [noiseContour]).2 ≤ 3000) ∧
    heldThree.triggerAction = true ∧
    rawFingerCount [noiseContour] = some 0 ∧
    (∃ s1, update heldThree (1 / 8) true (some [noiseContour]) = some s1 ∧
      s1.triggerAction = false ∧ s1.holdTime = 0) :=
  ⟨by decide!, Or.inr (by decide!), by decide!,
    (no_hand_tick_resets heldThree (1 / 8) [noiseContour] (by decide!)
      (Or.inr (by decide!))).1,
    (no_hand_tick_resets heldThree (1 / 8) [noiseContour] (by decide!)
      (Or.inr (by decide!))).2.1⟩

/-! ## Armed implies held -/

theorem tick_armedHolds (s : GestureTracker) (raw : Int) (dt : ℚ) :
    ArmedHolds (tick s raw dt) := by
  intro harmed
  by_cases h : raw = s.lastStableCount ∧ raw > 0
  · rw [tick_hold s raw dt h.1 h.2] at harmed ⊢
    simp only [decide_eq_true_eq] at harmed
    exact ⟨h.1.symm, h.2, le_trans (le_of_lt fifth_lt_required) harmed⟩
  · rw [tick_reset s raw dt h] at harmed
    simp at harmed

theorem update_armedHolds (s s1 : GestureTracker) (dt : ℚ) (isActive : Bool)
    (frame : Option (List Contour)) (hs : ArmedHolds s)
    (h : update s dt isActive frame = some s1) : ArmedHolds s1 := by
  unfold update at h
  split at h
  · simp only [Option.some.injEq] at h
    exact h ▸ hs
  · split at h
    · split at h <;> (simp only [Option.some.injEq] at h; subst h; exact hs)
    · split at h
      · simp only [Option.some.injEq] at h
        exact h ▸ hs
      · split at h
        · exact absurd h (by simp)
        · rename_i raw hraw
          simp only [Option.some.injEq] at h
          subst h
          exact tick_armedHolds s raw dt

theorem setEnabled_gesture_fields (s : GestureTracker) (enabled open0 open1 : Bool) :
    (setEnabled s enabled open0 open1).detectedFingers = s.detectedFingers ∧
    (setEnabled s enabled open0 open1).lastStableCount = s.lastStableCount ∧
    (setEnabled s enabled open0 open1).holdTime = s.holdTime ∧
    (setEnabled s enabled open0 open1).triggerAction = s.triggerAction := by
  unfold setEnabled stopCamera
  simp only
  split_ifs <;> exact ⟨rfl, rfl, rfl, rfl⟩

theorem setEnabled_armedHolds (s : GestureTracker) (enabled open0 open1 : Bool)
    (hs : ArmedHolds s) : ArmedHolds (setEnabled s enabled open0 open1) := by
  obtain ⟨h1, h2, h3, h4⟩ := setEnabled_gesture_fields s enabled open0 open1
  unfold ArmedHolds
  rw [h1, h2, h3, h4]
  exact hs

theorem consume_keeps_armedHolds (s : GestureTracker) (outFingerCount : Int)
    (hs : ArmedHolds s) : ArmedHolds (consumeTrigger s outFingerCount).2.2 := by
  by_cases h : s.triggerAction = true
  · intro harmed
    simp [consumeTrigger, h] at harmed
  · simp only [consumeTrigger, h]
    exact hs

theorem reachable_armedHolds (s : GestureTracker) (h : Reachable s) : ArmedHolds s := by
  induction h with
  | init => intro harmed; simp [GestureTracker.init] at harmed
  | setEnabled enabled open0 open1 _ ih => exact setEnabled_armedHolds _ _ _ _ ih
  | update dt isActive frame _ hupd ih => exact update_armedHolds _ _ dt isActive frame ih hupd
  | tick raw dt _ _ _ _ => exact tick_armedHolds _ raw dt
  | consumeTrigger outFingerCount _ ih => exact consume_keeps_armedHolds _ _ ih

/-- C12: in every state reachable from a freshly constructed tracker by `setEnabled`,
`update` (processed or skipped) and `consumeTrigger` calls, `triggerAction = true` implies
that `lastStableCount` equals the current raw count `detectedFingers`, that this count is
positive, and that `holdTime` is at least 0.2. -/
theorem armed_implies_held (s : GestureTracker) (hreach : Reachable s)
    (harmed : s.triggerAction = true) :
    s.lastStableCount = s.detectedFingers ∧ s.detectedFingers > 0 ∧ s.holdTime ≥ 1 / 5 :=
  reachable_armedHolds s hreach harmed

/-- Witness for C12: the tracker armed after the count 3 was held for three ticks. -/
theorem armed_implies_held_witness :
    Reachable heldThree ∧ heldThree.triggerAction = true ∧
    heldThree.lastStableCount = heldThree.detectedFingers ∧ heldThree.detectedFingers > 0 ∧
    heldThree.holdTime ≥ 1 / 5 :=
  ⟨heldThree_reachable, by decide!, armed_implies_held heldThree heldThree_reachable (by decide!)⟩

/-! ## Firing again on a sustained gesture -/

/-- C13, as stated, fails: after `consumeTrigger` delivered the held count 3, one more tick
of 0.25 s still showing 3 arms the tracker again, and the next `consumeTrigger` delivers a
second event with no release and no other count in between.  The hold is timed in `float`
arithmetic: two more ticks of `0.15f` and `13421771 / 2^28` seconds, together less than
0.2 s, also bring the second event. -/
theorem sustained_gesture_fires_again :
    (consumeTrigger heldThree 0).1 = true ∧ (consumeTrigger heldThree 0).2.1 = 3 ∧
    (tick (consumeTrigger heldThree 0).2.2 3 (1 / 4)).detectedFingers = 3 ∧
    (consumeTrigger (tick (consumeTrigger heldThree 0).2.2 3 (1 / 4)) 0).1 = true ∧
    (consumeTrigger (tick (consumeTrigger heldThree 0).2.2 3 (1 / 4)) 0).2.1 = 3 ∧
    f32round DT_015 = DT_015 ∧ f32round DT_SHORT = DT_SHORT ∧
    ([DT_015, DT_SHORT] : List ℚ).sum < 1 / 5 ∧
    (consumeTrigger (tick (tick (consumeTrigger heldThree 0).2.2 3 DT_015) 3 DT_SHORT) 0).1
      = true ∧
    (consumeTrigger (tick (tick (consumeTrigger heldThree 0).2.2 3 DT_015) 3 DT_SHORT) 0).2.1
      = 3 := by
  decide!

/-- C13, amended: after `consumeTrigger` has returned an event for a held count, later
ticks that keep showing that count accumulate `holdTime` from 0 again, in `float`
arithmetic; the next `consumeTrigger` returns an event exactly when there was at least one
such tick and the `float` sum of their elapsed times is at least `0.2f` (equivalently, at
least 0.2), and the event carries the same count.  With non-negative elapsed times the `k`
ticks before the next event sum to at least `0.2 / (1 + 2^-24)^k`, up to `k * 2^-150`. -/
theorem fires_again_after_hold (s : GestureTracker) (out out1 : Int) (es : List ℚ)
    (harmed : s.triggerAction = true) (hpos : s.lastStableCount > 0) :
    ((consumeTrigger
        (es.foldl (fun t e => tick t s.lastStableCount e) (consumeTrigger s out).2.2) out1).1 = true
      ↔ (es ≠ [] ∧ f32sum es ≥ REQUIRED_HOLD_TIME)) ∧
    ((consumeTrigger
        (es.foldl (fun t e => tick t s.lastStableCount e) (consumeTrigger s out).2.2) out1).1 = true
      ↔ (es ≠ [] ∧ f32sum es ≥ 1 / 5)) ∧
    ((consumeTrigger
        (es.foldl (fun t e => tick t s.lastStableCount e) (consumeTrigger s out).2.2) out1).1 = true
      → (consumeTrigger
        (es.foldl (fun t e => tick t s.lastStableCount e) (consumeTrigger s out).2.2) out1).2.1
          = s.lastStableCount) ∧
    (es.foldl (fun t e => tick t s.lastStableCount e) (consumeTrigger s out).2.2).holdTime
      = f32sum es ∧
    (es.foldl (fun t e => tick t s.lastStableCount e) (consumeTrigger s out).2.2).lastStableCount
      = s.lastStableCount ∧
    ((∀ e ∈ es, 0 ≤ e) → (consumeTrigger
        (es.foldl (fun t e => tick t s.lastStableCount e) (consumeTrigger s out).2.2) out1).1 = true
      → 1 / 5 ≤ (1 + 1 / 2 ^ 24) ^ es.length * (es.sum + (es.length : ℚ) / 2 ^ 150)) := by
  have hc : (consumeTrigger s out).2.2 = { s with holdTime := 0, triggerAction := false } := by
    simp [consumeTrigger, harmed]
  have hl : (consumeTrigger s out).2.2.lastStableCount = s.lastStableCount := by rw [hc]
  have hh : (consumeTrigger s out).2.2.holdTime = 0 := by rw [hc]
  have ht : (consumeTrigger s out).2.2.triggerAction = false := by rw [hc]
  obtain ⟨f1, f2, f3⟩ := foldl_tick_hold s.lastStableCount hpos es (consumeTrigger s out).2.2 hl
  rw [hh] at f2 f3
  have hfire : ∀ t : GestureTracker, (consumeTrigger t out1).1 = true ↔ t.triggerAction = true := by
    intro t
    by_cases h : t.triggerAction = true
    · simp [consumeTrigger, h]
    · simp [consumeTrigger, h]
  have hiff : (consumeTrigger
      (es.foldl (fun t e => tick t s.lastStableCount e) (consumeTrigger s out).2.2) out1).1 = true
      ↔ (es ≠ [] ∧ f32sum es ≥ REQUIRED_HOLD_TIME) := by
    rw [hfire]
    by_cases hr : es = []
    · subst hr
      simp [ht]
    · rw [f3 hr]
      exact ⟨fun h => ⟨hr, h⟩, fun h => h.2⟩
  refine ⟨hiff, ?_, ?_, f2, f1, ?_⟩
  rotate_right
  · intro hes hev
    exact le_trans (le_trans (le_of_lt fifth_lt_required) (hiff.mp hev).2) (f32sum_upper es hes)
  · rw [hiff]
    constructor
    · rintro ⟨h1, h2⟩
      exact ⟨h1, (f32sum_ge_fifth es).mpr h2⟩
    · rintro ⟨h1, h2⟩
      exact ⟨h1, (f32sum_ge_fifth es).mp h2⟩
  · intro hev
    have hcount : ∀ t : GestureTracker, (consumeTrigger t out1).1 = true →
        (consumeTrigger t out1).2.1 = t.lastStableCount := by
      intro t h
      have htrig := (hfire t).mp h
      simp [consumeTrigger, htrig]
    rw [hcount _ hev]
    exact f1

/-- Witness for C13: after the event for 3, two more ticks of 0.125 s showing 3. -/
theorem fires_again_after_hold_witness :
    heldThree.triggerAction = true ∧ heldThree.lastStableCount > 0 ∧
    (consumeTrigger
      (([1 / 8, 1 / 8] : List ℚ).foldl (fun t e => tick t heldThree.lastStableCount e)
        (consumeTrigger heldThree 0).2.2) 0).1 = true :=
  ⟨by decide!, by decide!,
    (fires_again_after_hold heldThree 0 0 [1 / 8, 1 / 8] (by decide!) (by decide!)).1.mpr
      ⟨by decide, by decide!⟩⟩

/-! ## The area gate and the hull guard -/

theorem largestFrom_mem (cs : List Contour) (i : Nat) (acc : Nat × ℚ) :
    (largestFrom cs i acc).2 = acc.2 ∨ ∃ c ∈ cs, c.area = (largestFrom cs i acc).2 := by
  induction cs generalizing i acc with
  | nil => left; rfl
  | cons c rest ih =>
    obtain ⟨maxIdx, maxArea⟩ := acc
    by_cases hc : c.area > maxArea
    · simp only [largestFrom, hc, if_true]
      rcases ih (i + 1) (i, c.area) with h | ⟨d, hd, hda⟩
      · right
        exact ⟨c, List.mem_cons_self c rest, h.symm⟩
      · right
        exact ⟨d, List.mem_cons_of_mem c hd, hda⟩
    · simp only [largestFrom, hc, if_false]
      rcases ih (i + 1) (maxIdx, maxArea) with h | ⟨d, hd, hda⟩
      · left
        exact h
      · right
        exact ⟨d, List.mem_cons_of_mem c hd, hda⟩

/-- C14: when the mask yields no contours, or every contour (hence the largest) has area
below 3000, the raw finger count is 0 whatever the hulls and defects are; a single contour
of area 1000 gives 0 for any points, hull and defects. -/
theorem rawFingerCount_no_hand (contours : List Contour)
    (h : contours = [] ∨ ∀ c ∈ contours, c.area < 3000) :
    rawFingerCount contours = some 0 ∧
    ∀ (points : List Point) (hullIndices : List Int) (defects : List Vec4i),
      rawFingerCount [{ points := points, area := 1000, hullIndices := hullIndices,
                        defects := defects }] = some 0 := by
  have small : ∀ cs : List Contour, (∀ c ∈ cs, c.area < 3000) → rawFingerCount cs = some 0 := by
    intro cs hcs
    apply rawFingerCount_small
    rcases largestFrom_mem cs 0 (0, 0) with h0 | ⟨c, hc, hca⟩
    · unfold largest
      rw [h0]
      norm_num
    · unfold largest
      rw [← hca]
      exact not_lt.mpr (le_of_lt (hcs c hc))
  constructor
  · rcases h with h | h
    · rw [h]
      exact rawFingerCount_empty
    · exact small contours h
  · intro points hullIndices defects
    apply small
    intro c hc
    rw [List.mem_singleton] at hc
    rw [hc]
    norm_num

/-- Witness for C14: a single noise blob of area 12. -/
theorem rawFingerCount_no_hand_witness :
    ([noiseContour] = [] ∨ ∀ c ∈ [noiseContour], c.area < 3000) ∧
    rawFingerCount [noiseContour] = some 0 :=
  ⟨Or.inr (by decide!), (rawFingerCount_no_hand [noiseContour] (Or.inr (by decide!))).1⟩

/-- C15, as stated, fails: a triangular blob of area 5000 passes the area gate, its hull
has 3 points (fewer than 4), and the raw finger count is 1, not 0. -/
theorem rawFingerCount_triangle :
    triangleContour.area > 3000 ∧ triangleContour.hullIndices.length < 4 ∧
    [triangleContour][(largest [triangleContour]).1]? = some triangleContour ∧
    rawFingerCount [triangleContour] = some 1 ∧ rawFingerCount [triangleContour] ≠ some 0 := by
  decide!

/-- C15, amended: for every dominant contour that passes the area gate (area above 3000)
but whose convex hull has fewer than 4 points, no defect is examined and the raw finger
count for the tick is 1. -/
theorem small_hull_counts_one (contours : List Contour) (c : Contour)
    (hdom : contours[(largest contours).1]? = some c)
    (harea : c.area > 3000) (hhull : c.hullIndices.length < 4) :
    rawFingerCount contours = some 1 := by
  have hne : contours ≠ [] := by
    rintro rfl
    simp at hdom
  have hcs : (!contours.isEmpty) = true := by
    cases contours with
    | nil => exact absurd rfl hne
    | cons a l => rfl
  have hmem : c ∈ contours := List.getElem?_mem hdom
  have hbig : (largest contours).2 > 3000 :=
    lt_of_lt_of_le harea ((largestFrom_ge contours 0 (0, 0)).2 c hmem)
  have hh : ¬ c.hullIndices.length > 3 := by omega
  unfold rawFingerCount
  simp only [hcs, if_true, hbig, hdom, hh, if_false]
  norm_num

/-- Witness for C15: the triangular blob next to a noise blob. -/
theorem small_hull_counts_one_witness :
    [noiseContour, triangleContour][(largest [noiseContour, triangleContour]).1]?
      = some triangleContour ∧
    triangleContour.area > 3000 ∧ triangleContour.hullIndices.length < 4 ∧
    rawFingerCount [noiseContour, triangleContour] = some 1 :=
  ⟨by decide, by decide!, by decide,
    small_hull_counts_one [noiseContour, triangleContour] triangleContour (by decide)
      (by decide!) (by decide)⟩

/-! ## Skipped ticks -/

/-- C16: when the camera is not open, or `update` is called with `isActive = false`, or the
captured frame is empty, `update` returns with `detectedFingers`, `lastStableCount`,
`holdTime` and `triggerAction` (and the camera state) exactly as they were, for every
prior state and every `dt`. -/
theorem update_skipped (s : GestureTracker) (dt : ℚ) (isActive : Bool)
    (frame : Option (List Contour))
    (h : s.capOpened = false ∨ isActive = false ∨ frame = none) :
    ∃ s1, update s dt isActive frame = some s1 ∧
      s1.detectedFingers = s.detectedFingers ∧ s1.lastStableCount = s.lastStableCount ∧
      s1.holdTime = s.holdTime ∧ s1.triggerAction = s.triggerAction ∧
      s1.capOpened = s.capOpened := by
  unfold update
  by_cases hcap : s.capOpened = true
  · by_cases hact : isActive = true
    · have hf : frame = none := by
        rcases h with h | h | h
        · rw [hcap] at h
          exact absurd h (by decide)
        · rw [hact] at h
          exact absurd h (by decide)
        · exact h
      subst hf
      exact ⟨s, by simp [hcap, hact], rfl, rfl, rfl, rfl, rfl⟩
    · by_cases hw : s.isWindowOpen = true
      · exact ⟨{ s with isWindowOpen := false }, by simp [hcap, hact, hw], rfl, rfl, rfl, rfl, rfl⟩
      · exact ⟨s, by simp [hcap, hact, hw], rfl, rfl, rfl, rfl, rfl⟩
  · exact ⟨s, by simp [hcap], rfl, rfl, rfl, rfl, rfl⟩

/-- Witness for C16: the armed tracker, camera open, called with `isActive = false` while
a hand is in view. -/
theorem update_skipped_witness :
    (heldThree.capOpened = false ∨ false = false ∨ some [handContour] = none) ∧
    ∃ s1, update heldThree (1 / 10) false (some [handContour]) = some s1 ∧
      s1.detectedFingers = heldThree.detectedFingers ∧
      s1.lastStableCount = heldThree.lastStableCount ∧
      s1.holdTime = heldThree.holdTime ∧ s1.triggerAction = heldThree.triggerAction ∧
      s1.capOpened = heldThree.capOpened :=
  ⟨Or.inr (Or.inl rfl),
    update_skipped heldThree (1 / 10) false (some [handContour]) (Or.inr (Or.inl rfl))⟩

/-! ## Enabling and disabling the camera -/

theorem runCall_closed_camera (c : Call)
    (hfail : ∀ open0 open1 : Bool, c = Call.setEnabled true open0 open1 →
      open0 = false ∧ open1 = false) :
    runCall GestureTracker.init c = some (GestureTracker.init, none) := by
  cases c with
  | setEnabled enabled open0 open1 =>
    cases enabled with
    | true =>
      obtain ⟨h0, h1⟩ := hfail open0 open1 rfl
      subst h0
      subst h1
      rfl
    | false => rfl
  | update dt isActive frame => rfl
  | consumeTrigger outFingerCount => rfl

/-- C17: if both `cap.open` attempts fail at every `setEnabled(true)`, then for every
sequence of `setEnabled`, `update` and `consumeTrigger` calls on a freshly constructed
tracker the run completes, no `consumeTrigger` returns an event, and the tracker ends in
its initial state. -/
theorem camera_unavailable_stays_initial (calls : List Call)
    (hfail : ∀ open0 open1 : Bool, Call.setEnabled true open0 open1 ∈ calls →
      open0 = false ∧ open1 = false) :
    runCalls GestureTracker.init calls = some (GestureTracker.init, []) := by
  induction calls with
  | nil => rfl
  | cons c rest ih =>
    have hc : runCall GestureTracker.init c = some (GestureTracker.init, none) := by
      apply runCall_closed_camera
      intro open0 open1 heq
      exact hfail open0 open1 (heq ▸ List.mem_cons_self c rest)
    have hrest : runCalls GestureTracker.init rest = some (GestureTracker.init, []) :=
      ih (fun open0 open1 hmem => hfail open0 open1 (List.mem_cons_of_mem c hmem))
    simp only [runCalls, hc, hrest]
    rfl

/-- Witness for C17: enable with both devices failing, a tick with a hand in view, a
consume, disable, enable again, another tick and consume. -/
theorem camera_unavailable_stays_initial_witness :
    runCalls GestureTracker.init
      [Call.setEnabled true false false, Call.update (1 / 4) true (some [handContour]),
        Call.update (1 / 4) true (some [handContour]), Call.consumeTrigger 0,
        Call.setEnabled false false false, Call.setEnabled true false false,
        Call.update (1 / 4) true (some [handContour]), Call.consumeTrigger 0]
      = some (GestureTracker.init, []) :=
  camera_unavailable_stays_initial _ (by
    intro open0 open1 hmem
    simp only [List.mem_cons, Call.setEnabled.injEq, List.mem_singleton, List.not_mem_nil,
      reduceCtorEq, or_false, false_or] at hmem
    rcases hmem with ⟨_, h0, h1⟩ | ⟨hf, _, _⟩ | ⟨_, h0, h1⟩
    · exact ⟨h0, h1⟩
    · exact hf.elim
    · exact ⟨h0, h1⟩)

theorem holdingThree_reachable : Reachable holdingThree :=
  Reachable.tick 3 (f32round (1 / 10))
    (Reachable.tick 3 (f32round (1 / 20)) (Reachable.setEnabled true true false Reachable.init)
      (by decide) (by decide))
    (by decide) (by decide)

theorem stopCamera_closed (s : GestureTracker) :
    stopCamera s = { s with capOpened := false, isWindowOpen := false } := by
  cases s with
  | mk capOpened detectedFingers lastStableCount holdTime triggerAction isWindowOpen isActive =>
    cases capOpened <;> cases isWindowOpen <;> rfl

/-- C18, as stated, fails: disabling the camera on the armed tracker holding 3 leaves it
armed with `holdTime = 0.2f`, and a `consumeTrigger` right after disabling returns the event
3; disabling the not yet armed tracker holding 3 leaves `holdTime = 0.1f`, not 0. -/
theorem disable_keeps_pending_trigger :
    (setEnabled heldThree false false false).capOpened = false ∧
    (setEnabled heldThree false false false).triggerAction = true ∧
    (setEnabled heldThree false false false).holdTime = 13421773 / 67108864 ∧
    (setEnabled heldThree false false false).holdTime = f32round (1 / 5) ∧
    (consumeTrigger (setEnabled heldThree false false false) 0).1 = true ∧
    (consumeTrigger (setEnabled heldThree false false false) 0).2.1 = 3 ∧
    holdingThree.triggerAction = false ∧
    (setEnabled holdingThree false false false).holdTime = 13421773 / 134217728 ∧
    (setEnabled holdingThree false false false).holdTime = f32round (1 / 10) := by
  decide!

/-- C18, amended: for every tracker state, `setEnabled(false)` releases the camera and
closes the preview window and changes nothing else: `detectedFingers`, `lastStableCount`,
`holdTime` and `triggerAction` stay as they were, so a `consumeTrigger` issued right after
disabling returns an event exactly when the tracker was armed before disabling, and when
it was not armed it returns no event. -/
theorem disable_releases_camera_only (s : GestureTracker) (open0 open1 : Bool) (out : Int) :
    (setEnabled s false open0 open1).capOpened = false ∧
    (setEnabled s false open0 open1).isWindowOpen = false ∧
    setEnabled s false open0 open1 = { s with capOpened := false, isWindowOpen := false } ∧
    (setEnabled s false open0 open1).detectedFingers = s.detectedFingers ∧
    (setEnabled s false open0 open1).lastStableCount = s.lastStableCount ∧
    (setEnabled s false open0 open1).holdTime = s.holdTime ∧
    (setEnabled s false open0 open1).triggerAction = s.triggerAction ∧
    (consumeTrigger (setEnabled s false open0 open1) out).1 = s.triggerAction := by
  have h : setEnabled s false open0 open1 = { s with capOpened := false, isWindowOpen := false } := by
    simp only [setEnabled, Bool.false_eq_true, if_false]
    exact stopCamera_closed s
  rw [h]
  refine ⟨rfl, rfl, rfl, rfl, rfl, rfl, rfl, ?_⟩
  by_cases ht : s.triggerAction = true
  · simp [consumeTrigger, ht]
  · simp [consumeTrigger, ht]

/-- C19: releasing is idempotent and always safe: for every tracker state `stopCamera`
(and `setEnabled(false)`) applied twice gives the same state as applied once, with the
camera and the preview window closed; on a tracker whose camera and window are closed it
changes nothing, in particular on a freshly constructed tracker. -/
theorem stopCamera_idempotent (s : GestureTracker) (open0 open1 open2 open3 : Bool) :
    stopCamera (stopCamera s) = stopCamera s ∧
    setEnabled (setEnabled s false open0 open1) false open2 open3
      = setEnabled s false open0 open1 ∧
    (stopCamera s).capOpened = false ∧ (stopCamera s).isWindowOpen = false ∧
    stopCamera { s with capOpened := false, isWindowOpen := false }
      = { s with capOpened := false, isWindowOpen := false } ∧
    setEnabled GestureTracker.init false open0 open1 = GestureTracker.init ∧
    stopCamera GestureTracker.init = GestureTracker.init := by
  have h : ∀ (t : GestureTracker) (a b : Bool), setEnabled t false a b = stopCamera t := by
    intro t a b
    simp only [setEnabled, Bool.false_eq_true, if_false]
  refine ⟨?_, ?_, ?_, ?_, ?_, ?_, ?_⟩
  · rw [stopCamera_closed (stopCamera s), stopCamera_closed s]
  · rw [h, h, stopCamera_closed (stopCamera s), stopCamera_closed s]
  · rw [stopCamera_closed s]
  · rw [stopCamera_closed s]
  · rw [stopCamera_closed]
  · rw [h]
    rfl
  · rfl

/-- C20: `setEnabled(true)` on a closed camera calls `cap.open(0)` and, only when that
leaves the camera closed, `cap.open(1)`; on an open camera it calls neither.  Afterwards
the camera is open iff it was open before or device 0 opens or device 1 opens, and
`detectedFingers`, `lastStableCount`, `holdTime` and `triggerAction` are unchanged. -/
theorem setEnabled_true_opens (s : GestureTracker) (dev : Nat → Bool) :
    (setEnabledLog s true dev).1 = setEnabled s true (dev 0) (dev 1) ∧
    (setEnabledLog s true dev).2
      = (if s.capOpened then [] else if dev 0 then [0] else [0, 1]) ∧
    (setEnabled s true (dev 0) (dev 1)).capOpened = (s.capOpened || dev 0 || dev 1) ∧
    ((setEnabled s true (dev 0) (dev 1)).capOpened = true
      ↔ (s.capOpened = true ∨ dev 0 = true ∨ dev 1 = true)) ∧
    (setEnabled s true (dev 0) (dev 1)).lastStableCount = s.lastStableCount ∧
    (setEnabled s true (dev 0) (dev 1)).holdTime = s.holdTime ∧
    (setEnabled s true (dev 0) (dev 1)).triggerAction = s.triggerAction ∧
    (setEnabled s true (dev 0) (dev 1)).detectedFingers = s.detectedFingers ∧
    (setEnabled s true (dev 0) (dev 1)).isWindowOpen = s.isWindowOpen := by
  cases s with
  | mk capOpened detectedFingers lastStableCount holdTime triggerAction isWindowOpen isActive =>
    cases capOpened <;> cases h0 : dev 0 <;> cases h1 : dev 1 <;>
      simp [setEnabledLog, setEnabled, h0, h1]

/-! ## Dominant region selection: lines 174-182 -/

/-- C22: for every non-empty list of contours with non-negative areas the selection loop
ends with `maxArea` equal to the maximum of the areas (an upper bound that some contour
attains); when it is positive, `maxIdx` is the first index whose area attains it; when
every area is 0, `maxIdx = 0` and `maxArea = 0`. -/
theorem largest_is_first_maximum (contours : List Contour) (hne : contours ≠ [])
    (hnonneg : ∀ c ∈ contours, 0 ≤ c.area) :
    (∀ c ∈ contours, c.area ≤ (largest contours).2) ∧
    (∃ c ∈ contours, c.area = (largest contours).2) ∧
    ((largest contours).2 > 0 →
      ∃ c, contours[(largest contours).1]? = some c ∧ c.area = (largest contours).2 ∧
        ∀ (j : Nat) (d : Contour), j < (largest contours).1 → contours[j]? = some d →
          d.area < (largest contours).2) ∧
    ((∀ c ∈ contours, c.area = 0) → largest contours = (0, 0)) := by
  unfold largest
  rcases largestFrom_first contours 0 0 0 with ⟨h1, h2⟩ | ⟨k, c1, hk, hr, hlt, hfirst, hall⟩
  · rw [h1]
    obtain ⟨c0, l, rfl⟩ := List.exists_cons_of_ne_nil hne
    have hc0 : c0 ∈ c0 :: l := List.mem_cons_self c0 l
    refine ⟨h2, ⟨c0, hc0, le_antisymm (h2 c0 hc0) (hnonneg c0 hc0)⟩, ?_, fun _ => rfl⟩
    intro hpos
    exact absurd hpos (lt_irrefl _)
  · rw [hr]
    simp only [zero_add]
    refine ⟨hall, ⟨c1, List.getElem?_mem hk, rfl⟩, fun _ => ⟨c1, hk, rfl, hfirst⟩, ?_⟩
    intro hzero
    have := hzero c1 (List.getElem?_mem hk)
    rw [this] at hlt
    exact absurd hlt (lt_irrefl _)

/-- Witness for C22: a noise blob, the open hand, and a triangle of the same area as the
hand: the loop ends on index 1, the first of the two largest. -/
theorem largest_is_first_maximum_witness :
    [noiseContour, handContour, triangleContour] ≠ [] ∧
    largest [noiseContour, handContour, triangleContour] = (1, 5000) ∧
    (∀ c ∈ [noiseContour, handContour, triangleContour],
      c.area ≤ (largest [noiseContour, handContour, triangleContour]).2) :=
  ⟨by decide, by decide!,
    (largest_is_first_maximum [noiseContour, handContour, triangleContour]
      (by decide) (by decide!)).1⟩

/-- C23, as stated, fails: a rectangular blob of area exactly 3000 with a hull of 4
points is the dominant contour, and the raw finger count is 0, not 1. -/
theorem area_exactly_3000_rejected :
    rectangleContour.area = 3000 ∧ rectangleContour.hullIndices.length ≥ 4 ∧
    [noiseContour, rectangleContour][(largest [noiseContour, rectangleContour]).1]?
      = some rectangleContour ∧
    gaps rectangleContour + 1 = 1 ∧
    rawFingerCount [noiseContour, rectangleContour] = some 0 := by
  decide!

/-- C23, amended: the area gate rejects the dominant contour exactly when its area is at
most 3000: then, and only then, the raw finger count is 0, whatever the hull and the
defects (in particular at area exactly 3000); when the area is above 3000 and the hull has
at least 4 points the contour is processed as a hand, and with the defect indices inside
the contour the raw finger count is `min (gaps + 1) 5`, which is at least 1, where `gaps`
counts the defects that pass the depth test and the angle test as the code computes
them. -/
theorem area_gate_strict (contours : List Contour) (c : Contour)
    (hdom : contours[(largest contours).1]? = some c) :
    (c.area ≤ 3000 → rawFingerCount contours = some 0) ∧
    (c.area = 3000 → rawFingerCount contours = some 0) ∧
    (rawFingerCount contours = some 0 ↔ c.area ≤ 3000) ∧
    (c.area > 3000 → c.hullIndices.length ≥ 4 → DefectsInRange c →
      rawFingerCount contours = some (min ((gaps c : Int) + 1) 5) ∧
      (1 : Int) ≤ min ((gaps c : Int) + 1) 5) ∧
    (c.area > 3000 → ∀ n : Int, rawFingerCount contours = some n → 1 ≤ n) := by
  have hne : contours ≠ [] := by
    rintro rfl
    simp at hdom
  have hmem : c ∈ contours := List.getElem?_mem hdom
  obtain ⟨h0, harea⟩ := largest_dominant_area contours
  have hg : (0 : Int) ≤ (gaps c : Int) := Nat.cast_nonneg _
  have small : c.area ≤ 3000 → rawFingerCount contours = some 0 := by
    intro hle
    apply rawFingerCount_small
    intro hbig
    have hpos : (largest contours).2 > 0 := lt_trans (by norm_num) hbig
    rw [← harea c hdom hpos] at hbig
    exact absurd hbig (not_lt.mpr hle)
  have big : c.area > 3000 → ∀ n : Int, rawFingerCount contours = some n → 1 ≤ n := by
    intro hgt n hn
    have hbig : (largest contours).2 > 3000 :=
      lt_of_lt_of_le hgt ((largestFrom_ge contours 0 (0, 0)).2 c hmem)
    have h1 := rawFingerCount_dominant_some contours c n hdom hbig hn
    split at h1
    · rw [h1]
      exact le_min (by omega) (by norm_num)
    · omega
  refine ⟨small, fun h => small (le_of_eq h), ⟨?_, small⟩, ?_, big⟩
  · intro hzero
    by_contra hgt
    have := big (not_le.mp hgt) 0 hzero
    omega
  · intro hgt hhull hwf
    have hbig : (largest contours).2 > 3000 :=
      lt_of_lt_of_le hgt ((largestFrom_ge contours 0 (0, 0)).2 c hmem)
    have hh : c.hullIndices.length > 3 := hhull
    have hraw := rawFingerCount_dominant contours c hne hdom hbig hwf
    rw [if_pos hh] at hraw
    exact ⟨hraw, le_min (by omega) (by norm_num)⟩

/-- Witness for C23: the rectangle of area 3000 is rejected, the hand of area 5000 is
processed. -/
theorem area_gate_strict_witness :
    [noiseContour, rectangleContour][(largest [noiseContour, rectangleContour]).1]?
      = some rectangleContour ∧ rectangleContour.area = 3000 ∧
    rawFingerCount [noiseContour, rectangleContour] = some 0 ∧
    [noiseContour, handContour][(largest [noiseContour, handContour]).1]? = some handContour ∧
    handContour.area > 3000 ∧ handContour.hullIndices.length ≥ 4 ∧
    DefectsInRange handContour ∧
    rawFingerCount [noiseContour, handContour] = some (min ((gaps handContour : Int) + 1) 5) :=
  ⟨by decide, by decide!,
    (area_gate_strict [noiseContour, rectangleContour] rectangleContour (by decide)).2.1
      (by decide!),
    by decide, by decide!, by decide, by decide,
    ((area_gate_strict [noiseContour, handContour] handContour (by decide)).2.2.2.1
      (by decide!) (by decide) (by decide)).1⟩

/-! ## The angle test: lines 209-215 -/

/-- The angle computations that the `acos` threshold of `angleLE90Double` stands for: with
`acos(x)` equal to the `double` nearest to pi / 2 the code's angle
`acos(x) * 180 / CV_PI` is exactly 90, and with the next `double` above it the angle is
above 90. -/
theorem right_angle_degrees :
    f64round (f64round (HALF_PI_F64 * 180) / (2 * HALF_PI_F64)) = 90 ∧
    f64round (f64round ((HALF_PI_F64 + 1 / 4503599627370496) * 180) / (2 * HALF_PI_F64)) > 90 ∧
    f64round HALF_PI_F64 = HALF_PI_F64 ∧ f64round (2 * HALF_PI_F64) = 2 * HALF_PI_F64 ∧
    f64round (HALF_PI_F64 + 1 / 4503599627370496) = HALF_PI_F64 + 1 / 4503599627370496 ∧
    f64round ACOS_HALF_PI_SLACK = ACOS_HALF_PI_SLACK := by
  decide!

theorem countGaps_single (pts : List Point) (v : Vec4i) (pStart pEnd pFar : Point)
    (hS : at? pts v.v0 = some pStart) (hE : at? pts v.v1 = some pEnd)
    (hF : at? pts v.v2 = some pFar) (count : Int) :
    (isFingerGap pts v = true ↔
      ((v.v3 : ℚ) / 256 > 10 ∧ angleLE90Double pStart pEnd pFar = true)) ∧
    countGaps pts [v] count = some (if isFingerGap pts v then count + 1 else count) := by
  have hdepth := depth_test_iff v.v3
  by_cases hd : f32round (f32round (v.v3 : ℚ) / 256) > 10
  · have hd1 := hdepth.mp hd
    by_cases ha : angleLE90Double pStart pEnd pFar = true
    · have hg : isFingerGap pts v = true := by simp [isFingerGap, hd, hS, hE, hF, ha]
      exact ⟨by simp [hg, hd1, ha], by simp [countGaps, hd, hS, hE, hF, ha, hg]⟩
    · have hg : isFingerGap pts v = false := by simp [isFingerGap, hS, hE, hF, ha]
      exact ⟨by simp [hg, ha], by simp [countGaps, hd, hS, hE, hF, ha, hg]⟩
  · have hd1 : ¬ (v.v3 : ℚ) / 256 > 10 := fun h => hd (hdepth.mpr h)
    have hg : isFingerGap pts v = false := by simp [isFingerGap, hd]
    exact ⟨by simp [hg, hd1], by simp [countGaps, hd, hg]⟩

/-- C21, as stated, fails: the defect with start (0, 10), far point (0, 0) and end (10, 0)
has depth `3620 / 256 > 10` and a right angle at its far point, so the claim counts it; the
code's `double` evaluation of the angle, with `a = sqrt 200` rounded so that `a * a` comes
out just above 200, gives the cosine `-1.42e-16` and an angle above 90, and the defect is
not counted. -/
theorem right_angle_not_counted :
    at? [(⟨0, 10⟩ : Point), ⟨0, 0⟩, ⟨10, 0⟩] 0 = some ⟨0, 10⟩ ∧
    at? [(⟨0, 10⟩ : Point), ⟨0, 0⟩, ⟨10, 0⟩] 2 = some ⟨10, 0⟩ ∧
    at? [(⟨0, 10⟩ : Point), ⟨0, 0⟩, ⟨10, 0⟩] 1 = some ⟨0, 0⟩ ∧
    (3620 : ℚ) / 256 > 10 ∧
    dotAtFar ⟨0, 10⟩ ⟨10, 0⟩ ⟨0, 0⟩ = 0 ∧
    angleDegrees ⟨0, 10⟩ ⟨10, 0⟩ ⟨0, 0⟩ ≤ 90 ∧
    isExactGap [⟨0, 10⟩, ⟨0, 0⟩, ⟨10, 0⟩] ⟨0, 2, 1, 3620⟩ = true ∧
    normF64 ⟨10, 0⟩ ⟨0, 10⟩ * normF64 ⟨10, 0⟩ ⟨0, 10⟩ > 200 ∧
    normF64 ⟨10, 0⟩ ⟨0, 10⟩ * normF64 ⟨10, 0⟩ ⟨0, 10⟩ - 200 < 1 / 35184372088832 ∧
    cosineF64 ⟨0, 10⟩ ⟨10, 0⟩ ⟨0, 0⟩
      = some (-5764607523034235 / 40564819207303340847894502572032) ∧
    angleLE90Double ⟨0, 10⟩ ⟨10, 0⟩ ⟨0, 0⟩ = false ∧
    countGaps [⟨0, 10⟩, ⟨0, 0⟩, ⟨10, 0⟩] [⟨0, 2, 1, 3620⟩] 0 = some 0 := by
  refine ⟨by decide, by decide, by decide, by norm_num, by decide, ?_, by decide!, by decide!,
    by decide!, by decide!, by decide!, by decide!⟩
  exact (angleDegrees_le_iff ⟨0, 10⟩ ⟨10, 0⟩ ⟨0, 0⟩ (by decide) (by decide)).mpr (by decide)

/-- C21, amended: a defect with fixed-point depth `v3` and triangle (start, far, end) is
counted as a finger gap if and only if `v3 / 256 > 10` (strictly: depth 2560 is not
counted) and the test `angle <= 90` holds for the angle the code computes in `double`
arithmetic by the law of cosines.  The bound is inclusive on the computed value: the right
angle with start (0, 3), far point (0, 0), end (4, 0) is computed as exactly 90 and is
counted; a far point that coincides with the start or the end is never counted.  For a
triangle whose sides are at most 2048 pixels long the computed test agrees with exact
geometry except at right angles and degenerate triangles: what is counted has an angle of
at most 90 degrees, an angle above 90 degrees is never counted, and an angle below 90
degrees with start, far point and end not on one line is always counted. -/
theorem finger_gap_iff (pts : List Point) (v : Vec4i) (pStart pEnd pFar : Point)
    (hS : at? pts v.v0 = some pStart) (hE : at? pts v.v1 = some pEnd)
    (hF : at? pts v.v2 = some pFar) (count : Int) :
    (countGaps pts [v] count = some (count + 1) ↔
      ((v.v3 : ℚ) / 256 > 10 ∧ angleLE90Double pStart pEnd pFar = true)) ∧
    (countGaps pts [v] count = some count ↔
      ¬ ((v.v3 : ℚ) / 256 > 10 ∧ angleLE90Double pStart pEnd pFar = true)) ∧
    (isFingerGap pts v = true ↔
      ((v.v3 : ℚ) / 256 > 10 ∧ angleLE90Double pStart pEnd pFar = true)) ∧
    (v.v3 = 2560 → countGaps pts [v] count = some count) ∧
    (angleLE90Double pStart pEnd pFar = true ↔
      ∃ x, cosineF64 pStart pEnd pFar = some x ∧ -ACOS_HALF_PI_SLACK ≤ x ∧ x ≤ 1) ∧
    cosineF64 ⟨0, 3⟩ ⟨4, 0⟩ ⟨0, 0⟩ = some 0 ∧
    angleLE90Double ⟨0, 3⟩ ⟨4, 0⟩ ⟨0, 0⟩ = true ∧
    countGaps [⟨0, 3⟩, ⟨0, 0⟩, ⟨4, 0⟩] [⟨0, 2, 1, 2561⟩] 0 = some 1 ∧
    countGaps [⟨0, 3⟩, ⟨0, 0⟩, ⟨4, 0⟩] [⟨0, 2, 1, 2560⟩] 0 = some 0 ∧
    angleLE90Double ⟨0, 3⟩ ⟨4, 0⟩ ⟨0, 3⟩ = false ∧
    angleLE90Double ⟨0, 3⟩ ⟨4, 0⟩ ⟨4, 0⟩ = false ∧
    ((pFar = pStart ∨ pFar = pEnd) → countGaps pts [v] count = some count) ∧
    (normSq pEnd pStart ≤ 4194304 → normSq pFar pStart ≤ 4194304 →
      normSq pFar pEnd ≤ 4194304 →
      (countGaps pts [v] count = some (count + 1) →
        pFar ≠ pStart ∧ pFar ≠ pEnd ∧ angleDegrees pStart pEnd pFar ≤ 90) ∧
      (pFar ≠ pStart → pFar ≠ pEnd → angleDegrees pStart pEnd pFar > 90 →
        countGaps pts [v] count = some count) ∧
      ((v.v3 : ℚ) / 256 > 10 → pFar ≠ pStart → pFar ≠ pEnd →
        angleDegrees pStart pEnd pFar < 90 → crossAtFar pStart pEnd pFar ≠ 0 →
        countGaps pts [v] count = some (count + 1))) := by
  obtain ⟨hgap, hcount⟩ := countGaps_single pts v pStart pEnd pFar hS hE hF count
  have hplus : countGaps pts [v] count = some (count + 1) ↔ isFingerGap pts v = true := by
    rw [hcount]
    by_cases hg : isFingerGap pts v = true
    · simp [hg]
    · simp [hg]
  have hsame : countGaps pts [v] count = some count ↔ ¬ isFingerGap pts v = true := by
    rw [hcount]
    by_cases hg : isFingerGap pts v = true
    · simp [hg]
    · simp [hg]
  refine ⟨hplus.trans hgap, ?_, hgap, ?_, ?_, by decide!, by decide!, by decide!, by decide!,
    by decide!, by decide!, ?_, ?_⟩
  · rw [hsame, hgap]
  · intro h2560
    apply hsame.mpr
    rw [hgap, h2560]
    norm_num
  · unfold angleLE90Double
    cases hx : cosineF64 pStart pEnd pFar with
    | none => simp
    | some x => simp
  · intro hdeg
    apply hsame.mpr
    rw [hgap, angleLE90Double_degenerate pStart pEnd pFar hdeg]
    simp
  · intro ha hb hc
    have hgeo := angleLE90Double_geometry pStart pEnd pFar ha hb hc
    have hdot := normSq_dot pStart pEnd pFar
    refine ⟨?_, ?_, ?_⟩
    · intro hcounted
      have hd := ((hplus.trans hgap).mp hcounted).2
      have hex := (angleLE90_iff pStart pEnd pFar).mp
        (angleLE90Double_sound pStart pEnd pFar ha hb hc hd)
      exact ⟨hex.1, hex.2.1, (angleDegrees_le_iff pStart pEnd pFar hex.1 hex.2.1).mpr hex.2.2⟩
    · intro hs he hob
      apply hsame.mpr
      rw [hgap]
      have hn : ¬ (0 ≤ normSq pFar pStart + normSq pFar pEnd - normSq pEnd pStart) :=
        fun h => absurd ((angleDegrees_le_iff pStart pEnd pFar hs he).mpr h) (not_le.mpr hob)
      have hneg : dotAtFar pStart pEnd pFar < 0 := by omega
      rw [hgeo.1 hneg]
      simp
    · intro hd hs he hacute hcross
      apply (hplus.trans hgap).mpr
      have hp := (angleDegrees_lt_iff pStart pEnd pFar hs he).mp hacute
      have hpos : dotAtFar pStart pEnd pFar > 0 := by omega
      exact ⟨hd, hgeo.2 hpos hcross⟩

/-- Witness for C21: the first valley of the open hand, depth 10942 / 256 > 10 and an
acute angle at the far point (20, 20) between (0, 60) and (30, 65). -/
theorem finger_gap_iff_witness :
    at? handContour.points 1 = some ⟨0, 60⟩ ∧ at? handContour.points 4 = some ⟨30, 65⟩ ∧
    at? handContour.points 3 = some ⟨20, 20⟩ ∧
    countGaps handContour.points [⟨1, 4, 3, 10942⟩] 0 = some (0 + 1) ∧
    ((10942 : ℚ) / 256 > 10 ∧ angleLE90Double ⟨0, 60⟩ ⟨30, 65⟩ ⟨20, 20⟩ = true) :=
  ⟨by decide, by decide, by decide, by decide!,
    (finger_gap_iff handContour.points ⟨1, 4, 3, 10942⟩ ⟨0, 60⟩ ⟨30, 65⟩ ⟨20, 20⟩
      (by decide) (by decide) (by decide) 0).1.mp (by decide!)⟩

/-- C24: for integer points with `far ≠ start` and `far ≠ end`, the test
`acos((b*b + c*c - a*a) / (2*b*c)) * 180 / pi ≤ 90` over the reals holds if and only if
`|far - start|^2 + |far - end|^2 ≥ |end - start|^2`, if and only if the dot product
`(start - far) . (end - far)` is non-negative. -/
theorem angle_test_is_dot_product (pStart pEnd pFar : Point)
    (hs : pFar ≠ pStart) (he : pFar ≠ pEnd) :
    (angleDegrees pStart pEnd pFar ≤ 90 ↔
      normSq pFar pStart + normSq pFar pEnd ≥ normSq pEnd pStart) ∧
    (angleDegrees pStart pEnd pFar ≤ 90 ↔ dotAtFar pStart pEnd pFar ≥ 0) ∧
    (angleLE90 pStart pEnd pFar = true ↔ angleDegrees pStart pEnd pFar ≤ 90) := by
  have h := angleDegrees_le_iff pStart pEnd pFar hs he
  have hd := normSq_dot pStart pEnd pFar
  refine ⟨?_, ?_, ?_⟩
  · rw [h]
    constructor <;> intro h1 <;> omega
  · rw [h]
    constructor <;> intro h1 <;> omega
  · rw [angleLE90_iff, h]
    exact ⟨fun h1 => h1.2.2, fun h1 => ⟨hs, he, h1⟩⟩

/-- Witness for C24: the right angle at (0, 0) between (0, 3) and (4, 0). -/
theorem angle_test_is_dot_product_witness :
    (⟨0, 0⟩ : Point) ≠ ⟨0, 3⟩ ∧ (⟨0, 0⟩ : Point) ≠ ⟨4, 0⟩ ∧
    dotAtFar ⟨0, 3⟩ ⟨4, 0⟩ ⟨0, 0⟩ ≥ 0 ∧ angleDegrees ⟨0, 3⟩ ⟨4, 0⟩ ⟨0, 0⟩ ≤ 90 :=
  ⟨by decide, by decide, by decide,
    (angle_test_is_dot_product ⟨0, 3⟩ ⟨4, 0⟩ ⟨0, 0⟩ (by decide) (by decide)).2.1.mpr
      (by decide)⟩

/-! ## Debounce interval -/

theorem tick_meterCovers (s : GestureTracker) (m : Meter) (raw : Int) (dt : ℚ)
    (hinv : MeterCovers s m) :
    MeterCovers (tick s raw dt)
      (if raw = s.lastStableCount ∧ raw > 0 then
        { processed := m.processed ++ [dt], holding := m.holding ++ [dt] }
      else { processed := m.processed ++ [dt], holding := [] }) := by
  obtain ⟨h1, h2, _⟩ := hinv
  by_cases h : raw = s.lastStableCount ∧ raw > 0
  · rw [if_pos h, tick_hold s raw dt h.1 h.2]
    refine ⟨?_, ?_, ?_⟩
    · simp only
      rw [f32sum_concat, h1]
      rfl
    · obtain ⟨t, ht⟩ := h2
      refine ⟨t, ?_⟩
      simp only
      rw [← ht, List.append_assoc]
    · intro harmed
      simp only [decide_eq_true_eq] at harmed
      exact harmed
  · rw [if_neg h, tick_reset s raw dt h]
    refine ⟨rfl, List.nil_suffix, ?_⟩
    intro harmed
    simp at harmed

/-- The elapsed times on the meter are those passed to `update`. -/
theorem meterCall_nonneg (s : GestureTracker) (m : Meter) (c : Call)
    (hdt : ∀ (dt : ℚ) (isActive : Bool) (frame : Option (List Contour)),
      c = Call.update dt isActive frame → 0 ≤ dt)
    (hm : ∀ e ∈ m.processed, 0 ≤ e) : ∀ e ∈ (meterCall s m c).processed, 0 ≤ e := by
  cases c with
  | setEnabled enabled open0 open1 => exact hm
  | update dt isActive frame =>
    have hdt0 : 0 ≤ dt := hdt dt isActive frame rfl
    have happ : ∀ e ∈ m.processed ++ [dt], 0 ≤ e := by
      intro e he
      rcases List.mem_append.mp he with h | h
      · exact hm e h
      · rw [List.mem_singleton] at h
        rw [h]
        exact hdt0
    simp only [meterCall]
    split
    · cases frame with
      | none => exact hm
      | some contours =>
        simp only
        cases rawFingerCount contours with
        | none => exact hm
        | some raw =>
          simp only
          split
          · exact happ
          · exact happ
    · exact hm
  | consumeTrigger outFingerCount =>
    simp only [meterCall]
    split
    · intro e he
      exact absurd he (List.not_mem_nil e)
    · exact hm

theorem runCall_meterCovers (s s1 : GestureTracker) (m : Meter) (c : Call) (ev : Option Int)
    (hinv : MeterCovers s m) (hrun : runCall s c = some (s1, ev)) :
    MeterCovers s1 (meterCall s m c) ∧
      (ev.isSome = true → REQUIRED_HOLD_TIME ≤ f32sum m.holding) := by
  cases c with
  | setEnabled enabled open0 open1 =>
    simp only [runCall, Option.some.injEq, Prod.mk.injEq] at hrun
    obtain ⟨rfl, rfl⟩ := hrun
    obtain ⟨f1, f2, f3, f4⟩ := setEnabled_gesture_fields s enabled open0 open1
    refine ⟨?_, by simp⟩
    unfold MeterCovers
    rw [f3, f4]
    exact hinv
  | update dt isActive frame =>
    unfold runCall at hrun
    simp only at hrun
    split at hrun
    · exact absurd hrun (by simp)
    · rename_i s2 hupd
      simp only [Option.some.injEq, Prod.mk.injEq] at hrun
      obtain ⟨rfl, rfl⟩ := hrun
      refine ⟨?_, by simp⟩
      unfold update at hupd
      unfold meterCall
      by_cases hcap : s.capOpened = true
      · by_cases hact : isActive = true
        · simp only [hcap, hact, Bool.not_true, Bool.false_eq_true, if_false, Bool.and_self,
            if_true] at hupd ⊢
          cases frame with
          | none =>
            simp only [Option.some.injEq] at hupd
            subst hupd
            exact hinv
          | some contours =>
            simp only at hupd ⊢
            cases hraw : rawFingerCount contours with
            | none =>
              rw [hraw] at hupd
              exact absurd hupd (by simp)
            | some raw =>
              rw [hraw] at hupd
              simp only [Option.some.injEq] at hupd
              subst hupd
              exact tick_meterCovers s m raw dt hinv
        · have hact1 : isActive = false := by simpa using hact
          simp only [hcap, hact1, Bool.not_true, Bool.false_eq_true, if_false, Bool.not_false,
            if_true, Bool.and_false] at hupd ⊢
          split at hupd <;>
            (simp only [Option.some.injEq] at hupd; subst hupd; exact hinv)
      · have hcap1 : s.capOpened = false := by simpa using hcap
        simp only [hcap1, Bool.not_false, if_true, Option.some.injEq, Bool.false_and,
          Bool.false_eq_true, if_false] at hupd ⊢
        subst hupd
        exact hinv
  | consumeTrigger outFingerCount =>
    by_cases harmed : s.triggerAction = true
    · simp only [runCall, consumeTrigger, harmed, if_true, Option.some.injEq,
        Prod.mk.injEq] at hrun
      obtain ⟨rfl, rfl⟩ := hrun
      obtain ⟨h1, h2, h3⟩ := hinv
      have hheld := h3 harmed
      rw [h1] at hheld
      refine ⟨?_, fun _ => hheld⟩
      simp only [meterCall, harmed, if_true]
      exact ⟨rfl, List.nil_suffix, fun h => by simp at h⟩
    · have hnot : s.triggerAction = false := by simpa using harmed
      simp only [runCall, consumeTrigger, hnot, Bool.false_eq_true, if_false,
        Option.some.injEq, Prod.mk.injEq] at hrun
      obtain ⟨rfl, rfl⟩ := hrun
      refine ⟨?_, by simp⟩
      simp only [meterCall, hnot, Bool.false_eq_true, if_false]
      exact hinv

theorem eventGaps_covered (calls : List Call) (s : GestureTracker) (m : Meter)
    (gs : List Meter)
    (hdt : ∀ (dt : ℚ) (isActive : Bool) (frame : Option (List Contour)),
      Call.update dt isActive frame ∈ calls → 0 ≤ dt)
    (hinv : MeterCovers s m) (hm : ∀ e ∈ m.processed, 0 ≤ e)
    (hrun : eventGaps s m calls = some gs) :
    ∀ g ∈ gs, REQUIRED_HOLD_TIME ≤ f32sum g.holding ∧ g.holding <:+ g.processed ∧
      ∀ e ∈ g.processed, 0 ≤ e := by
  induction calls generalizing s m gs with
  | nil =>
    simp only [eventGaps, Option.some.injEq] at hrun
    subst hrun
    intro g hg
    exact absurd hg (List.not_mem_nil g)
  | cons c rest ih =>
    unfold eventGaps at hrun
    split at hrun
    · exact absurd hrun (by simp)
    · rename_i s1 ev hcall
      split at hrun
      · exact absurd hrun (by simp)
      · rename_i gs1 hrest
        simp only [Option.some.injEq] at hrun
        have hstep := runCall_meterCovers s s1 m c ev hinv hcall
        have hnn := meterCall_nonneg s m c
          (fun dt a f heq => hdt dt a f (heq ▸ List.mem_cons_self c rest)) hm
        have htail := ih s1 (meterCall s m c) gs1
          (fun dt a f hmem => hdt dt a f (List.mem_cons_of_mem c hmem)) hstep.1 hnn hrest
        subst hrun
        intro g hg
        by_cases hev : ev.isSome = true
        · rw [if_pos hev] at hg
          rcases List.mem_cons.mp hg with rfl | hg
          · exact ⟨hstep.2 hev, hinv.2.1, hm⟩
          · exact htail g hg
        · rw [if_neg hev] at hg
          exact htail g hg

/-- C25, as stated, fails: in `shortSession` all elapsed times are non-negative `float`s
and two events are delivered, and the ticks processed between the two events, which are
all holding ticks, have elapsed times `0.15f` and `13421771 / 2^28` that sum to
`53687091 / 2^28`, less than 0.2 s: `holdTime` is accumulated in `float` arithmetic, and
the sum rounds to `0.2f`. -/
theorem debounce_short_interval :
    eventGaps GestureTracker.init { processed := [], holding := [] } shortSession
      = some [{ processed := [1 / 4, 1 / 4], holding := [1 / 4] },
          { processed := [DT_015, DT_SHORT], holding := [DT_015, DT_SHORT] }] ∧
    (runCalls GestureTracker.init shortSession).map (fun r => r.2) = some [4, 4] ∧
    (0 : ℚ) ≤ DT_015 ∧ (0 : ℚ) ≤ DT_SHORT ∧
    f32round DT_015 = DT_015 ∧ f32round DT_SHORT = DT_SHORT ∧
    ([DT_015, DT_SHORT] : List ℚ).sum = 53687091 / 268435456 ∧
    ([DT_015, DT_SHORT] : List ℚ).sum < 1 / 5 ∧
    f32sum [DT_015, DT_SHORT] = 13421773 / 67108864 := by
  decide!

/-- C25, amended: in every run from a freshly constructed tracker whose update ticks have
non-negative elapsed times, every event delivered by `consumeTrigger` is preceded by at
least one holding tick, and the elapsed times of the holding ticks since `holdTime` was
last reset, added up in `float` arithmetic as the tracker does, amount to at least `0.2f`
(equivalently, at least 0.2); these holding ticks are the last of the ticks processed
since the previous event (or since construction for the first event), so their elapsed
times are part of the elapsed times of those processed ticks.  In exact terms the `k`
holding ticks sum to at least `0.2 / (1 + 2^-24)^k`, up to `k * 2^-150`. -/
theorem debounce_interval (calls : List Call) (gs : List Meter)
    (hdt : ∀ (dt : ℚ) (isActive : Bool) (frame : Option (List Contour)),
      Call.update dt isActive frame ∈ calls → 0 ≤ dt)
    (hrun : eventGaps GestureTracker.init { processed := [], holding := [] } calls = some gs) :
    ∀ g ∈ gs, f32sum g.holding ≥ REQUIRED_HOLD_TIME ∧ f32sum g.holding ≥ 1 / 5 ∧
      g.holding ≠ [] ∧ g.holding <:+ g.processed ∧ g.holding.sum ≤ g.processed.sum ∧
      1 / 5 ≤ (1 + 1 / 2 ^ 24) ^ g.holding.length
        * (g.holding.sum + (g.holding.length : ℚ) / 2 ^ 150) := by
  have hinit : MeterCovers GestureTracker.init { processed := [], holding := [] } :=
    ⟨rfl, List.nil_suffix, fun h => by simp [GestureTracker.init] at h⟩
  intro g hg
  obtain ⟨h1, h2, h3⟩ := eventGaps_covered calls GestureTracker.init _ gs hdt hinit
    (fun e he => absurd he (List.not_mem_nil e)) hrun g hg
  have hnn : ∀ e ∈ g.holding, 0 ≤ e := by
    intro e he
    obtain ⟨t, ht⟩ := h2
    apply h3
    rw [← ht]
    exact List.mem_append_right _ he
  refine ⟨h1, (f32sum_ge_fifth g.holding).mpr h1, ?_, h2, ?_,
    le_trans (le_trans (le_of_lt fifth_lt_required) h1) (f32sum_upper g.holding hnn)⟩
  · intro hnil
    rw [hnil, REQUIRED_HOLD_TIME_eq] at h1
    simp [f32sum] at h1
    norm_num at h1
  · obtain ⟨t, ht⟩ := h2
    rw [← ht, List.sum_append]
    have ht0 : 0 ≤ t.sum := by
      apply List.sum_nonneg
      intro e he
      apply h3
      rw [← ht]
      exact List.mem_append_left _ he
    linarith

/-- Witness for C25: the session at the camera delivers two events, after holding ticks of
`0.1f + 0.1f` and of 0.125 + 0.125 seconds. -/
theorem debounce_interval_witness :
    eventGaps GestureTracker.init { processed := [], holding := [] } handSession
      = some [{ processed := [f32round (1 / 10), f32round (1 / 10), f32round (1 / 10)],
                holding := [f32round (1 / 10), f32round (1 / 10)] },
              { processed := [1 / 8, 1 / 8], holding := [1 / 8, 1 / 8] }] ∧
    ∀ g ∈ [({ processed := [f32round (1 / 10), f32round (1 / 10), f32round (1 / 10)],
              holding := [f32round (1 / 10), f32round (1 / 10)] } : Meter),
        { processed := [1 / 8, 1 / 8], holding := [1 / 8, 1 / 8] }],
      f32sum g.holding ≥ REQUIRED_HOLD_TIME ∧ f32sum g.holding ≥ 1 / 5 ∧
        g.holding ≠ [] ∧ g.holding <:+ g.processed ∧ g.holding.sum ≤ g.processed.sum ∧
        1 / 5 ≤ (1 + 1 / 2 ^ 24) ^ g.holding.length
          * (g.holding.sum + (g.holding.length : ℚ) / 2 ^ 150) :=
  ⟨by decide!,
    debounce_interval handSession _ (by
      intro dt isActive frame hmem
      simp only [handSession, List.mem_cons, Call.update.injEq, List.mem_singleton,
        List.not_mem_nil, reduceCtorEq, or_false, false_or] at hmem
      rcases hmem with ⟨h, _⟩ | ⟨h, _⟩ | ⟨h, _⟩ | ⟨h, _⟩ | ⟨h, _⟩ <;> rw [h] <;> decide!)
      (by decide!)⟩

/-! ## The main loop: lines 715-717 -/

theorem consume_result_not_armed (s : GestureTracker) (out : Int) :
    (consumeTrigger s out).2.2.triggerAction = false := by
  by_cases h : s.triggerAction = true
  · simp [consumeTrigger, h]
  · simp [consumeTrigger, h]

theorem foldl_setEnabled_trigger (toggles : List (Bool × Bool × Bool)) (t : GestureTracker) :
    (toggles.foldl (fun t c => setEnabled t c.1 c.2.1 c.2.2) t).triggerAction
      = t.triggerAction := by
  induction toggles generalizing t with
  | nil => rfl
  | cons c rest ih =>
    simp only [List.foldl_cons]
    rw [ih, (setEnabled_gesture_fields t c.1 c.2.1 c.2.2).2.2.2]

theorem loopIteration_not_armed (s s1 : GestureTracker) (inp : LoopInput) (r : LoopRecord)
    (hs : s.triggerAction = false) (h : loopIteration s inp = some (s1, r)) :
    s1.triggerAction = false ∧ r.armedAtStart = false ∧ r.inQuizMode = inp.inQuizMode ∧
      (r.inQuizMode = false → r.gestureTriggered = false ∧ r.gestureFingers = 0) := by
  unfold loopIteration at h
  split at h
  · exact absurd h (by simp)
  · rename_i s2 hupd
    simp only [Option.some.injEq, Prod.mk.injEq] at h
    obtain ⟨rfl, rfl⟩ := h
    refine ⟨?_, hs, rfl, ?_⟩
    · rw [foldl_setEnabled_trigger]
      exact consume_result_not_armed s2 0
    · intro hq
      simp only at hq
      obtain ⟨s3, h3, _, _, _, htrig, _⟩ :=
        update_skipped s inp.dt inp.inQuizMode inp.frame (Or.inr (Or.inl hq))
      rw [hupd] at h3
      simp only [Option.some.injEq] at h3
      subst h3
      rw [hs] at htrig
      simp [consumeTrigger, htrig]

theorem mainLoop_not_armed (inputs : List LoopInput) (s s1 : GestureTracker)
    (log : List LoopRecord) (hs : s.triggerAction = false)
    (h : mainLoop s inputs = some (s1, log)) :
    s1.triggerAction = false ∧
      ∀ r ∈ log, r.armedAtStart = false ∧
        (r.inQuizMode = false → r.gestureTriggered = false ∧ r.gestureFingers = 0) := by
  induction inputs generalizing s log with
  | nil =>
    simp only [mainLoop, Option.some.injEq, Prod.mk.injEq] at h
    obtain ⟨rfl, rfl⟩ := h
    exact ⟨hs, fun r hr => absurd hr (List.not_mem_nil r)⟩
  | cons inp rest ih =>
    unfold mainLoop at h
    split at h
    · exact absurd h (by simp)
    · rename_i s2 r2 hit
      split at h
      · exact absurd h (by simp)
      · rename_i s3 rs hrest
        simp only [Option.some.injEq, Prod.mk.injEq] at h
        obtain ⟨rfl, rfl⟩ := h
        obtain ⟨h1, h2, _, h4⟩ := loopIteration_not_armed s s2 inp r2 hs hit
        obtain ⟨t1, t2⟩ := ih s2 rs h1 hrest
        refine ⟨t1, ?_⟩
        intro r hr
        rcases List.mem_cons.mp hr with rfl | hr
        · exact ⟨h2, h4⟩
        · exact t2 r hr

/-- C26: in the main loop, from a freshly constructed tracker, `triggerAction` is false at
the start of every iteration, and `consumeTrigger` returns an event only on an iteration
whose `update` ran with `isActive = true`: on an iteration that begins in a state other
than `QUIZ_MODE` no event is delivered and `gestureFingers` stays 0. -/
theorem main_loop_events_only_in_quiz (inputs : List LoopInput) (s : GestureTracker)
    (log : List LoopRecord) (h : mainLoop GestureTracker.init inputs = some (s, log)) :
    s.triggerAction = false ∧
    ∀ r ∈ log, r.armedAtStart = false ∧
      (r.gestureTriggered = true → r.inQuizMode = true) ∧
      (r.inQuizMode = false → r.gestureTriggered = false ∧ r.gestureFingers = 0) := by
  obtain ⟨h1, h2⟩ := mainLoop_not_armed inputs GestureTracker.init s log rfl h
  refine ⟨h1, ?_⟩
  intro r hr
  obtain ⟨a, b⟩ := h2 r hr
  refine ⟨a, ?_, b⟩
  intro htrig
  by_cases hq : r.inQuizMode = true
  · exact hq
  · have hq1 : r.inQuizMode = false := by simpa using hq
    rw [(b hq1).1] at htrig
    exact absurd htrig (by decide)

/-- Witness for C26: the camera is opened, the open hand fires once in quiz mode and is
not seen on the iteration outside quiz mode. -/
theorem main_loop_events_only_in_quiz_witness :
    mainLoop GestureTracker.init pausedSession = some (pausedSessionEnd, pausedSessionLog) ∧
    pausedSessionEnd.triggerAction = false ∧
    ∀ r ∈ pausedSessionLog, r.armedAtStart = false ∧
      (r.gestureTriggered = true → r.inQuizMode = true) ∧
      (r.inQuizMode = false → r.gestureTriggered = false ∧ r.gestureFingers = 0) :=
  ⟨by decide!,
    main_loop_events_only_in_quiz pausedSession pausedSessionEnd pausedSessionLog (by decide!)⟩

/-! ## Gesture input handling: lines 988-1038 -/

/-- C27: for a gesture event with finger count `f`: if `f = 5` the handler only toggles
`QUIZ_MODE` and `PAUSED` and leaves every other variable, so no answer is selected; if
`f` is in `1..4`, the state is `QUIZ_MODE`, the answer is not locked and the current
question is a loaded one, the selected option of the current question becomes `f - 1`,
which lies in `[0,3]`, and the answer becomes locked; for any other `f`, and whenever the
state is not `QUIZ_MODE` or the answer is locked, nothing changes. -/
theorem handleGesture_cases (g : Game) (f : Int) :
    (f = 5 →
      handleGesture g f = some { g with currentState :=
        if g.currentState = GameState.QUIZ_MODE then GameState.PAUSED
        else if g.currentState = GameState.PAUSED then GameState.QUIZ_MODE
        else g.currentState }) ∧
    ((1 ≤ f ∧ f ≤ 4) → g.currentState = GameState.QUIZ_MODE → g.isAnswerLocked = false →
      ∀ q, g.allQuestions[g.currentQuestionIndex]? = some q →
        (0 ≤ q.correctAnswerIndex ∧ q.correctAnswerIndex < 4) →
        (0 ≤ f - 1 ∧ f - 1 ≤ 3) ∧
        ∃ g1, handleGesture g f = some g1 ∧
          g1.allQuestions[g.currentQuestionIndex]? = some { q with userSelectedOption := f - 1 } ∧
          g1.isAnswerLocked = true ∧ g1.currentState = GameState.QUIZ_MODE ∧
          g1.currentQuestionIndex = g.currentQuestionIndex) ∧
    (f ≠ 5 → ¬ (1 ≤ f ∧ f ≤ 4) → handleGesture g f = some g) ∧
    (f ≠ 5 → ¬ (g.currentState = GameState.QUIZ_MODE ∧ g.isAnswerLocked = false) →
      handleGesture g f = some g) := by
  refine ⟨?_, ?_, ?_, ?_⟩
  · intro h5
    subst h5
    unfold handleGesture
    by_cases hq : g.currentState = GameState.QUIZ_MODE
    · simp [hq]
    · by_cases hp : g.currentState = GameState.PAUSED
      · simp [hp]
      · simp [hq, hp]
  · intro hf hstate hlock q hq hcorrect
    refine ⟨by omega, ?_⟩
    have hlt : g.currentQuestionIndex < g.allQuestions.length := by
      by_contra hge
      rw [List.getElem?_eq_none (by omega)] at hq
      exact absurd hq (by simp)
    have hsel : (if f = 1 then (0 : Int) else if f = 2 then 1 else if f = 3 then 2
        else if f = 4 then 3 else -1) = f - 1 := by
      split_ifs <;> omega
    have hf5 : f ≠ 5 := by omega
    have hne : f - 1 ≠ -1 := by omega
    have hin : 0 ≤ f - 1 ∧ f - 1 < 4 := by omega
    unfold handleGesture
    simp only [hf5, if_false, hstate, hlock, and_self, if_true, hsel, hne, ne_eq,
      not_false_eq_true, hq, hin, hcorrect]
    by_cases hc : f - 1 = q.correctAnswerIndex
    · simp only [hc, if_true]
      refine ⟨_, rfl, ?_, rfl, rfl, rfl⟩
      simp only [List.getElem?_set_self, hlt]
    · simp only [hc, if_false]
      refine ⟨_, rfl, ?_, rfl, rfl, rfl⟩
      simp only [List.getElem?_set_self, hlt]
  · intro h5 hrange
    unfold handleGesture
    have hsel : (if f = 1 then (0 : Int) else if f = 2 then 1 else if f = 3 then 2
        else if f = 4 then 3 else -1) = -1 := by
      split_ifs <;> omega
    simp only [h5, if_false, hsel]
    split_ifs <;> first | rfl | simp_all
  · intro h5 hcond
    unfold handleGesture
    simp only [h5, if_false, hcond]

/-- Witness for C27: three fingers on the first sample question select option C. -/
theorem handleGesture_cases_witness :
    ((1 : Int) ≤ 3 ∧ (3 : Int) ≤ 4) ∧ sampleGame.currentState = GameState.QUIZ_MODE ∧
    sampleGame.isAnswerLocked = false ∧
    ((0 : Int) ≤ 3 - 1 ∧ (3 : Int) - 1 ≤ 3) ∧
    ∃ g1, handleGesture sampleGame 3 = some g1 ∧
      g1.allQuestions[sampleGame.currentQuestionIndex]?
        = some { questionText := "2 + 2 = ?".toList,
                 options := ["2".toList, "3".toList, "4".toList, "5".toList],
                 correctAnswerIndex := 2, userSelectedOption := 3 - 1 } ∧
      g1.isAnswerLocked = true ∧ g1.currentState = GameState.QUIZ_MODE ∧
      g1.currentQuestionIndex = sampleGame.currentQuestionIndex :=
  ⟨by decide, by decide, by decide,
    (handleGesture_cases sampleGame 3).2.1 (by decide) (by decide) (by decide)
      { questionText := "2 + 2 = ?".toList,
        options := ["2".toList, "3".toList, "4".toList, "5".toList], correctAnswerIndex := 2 }
      (by decide) (by decide)⟩

/-! ## High score: lines 1526-1540 -/

/-- C30: with `highscore.txt` as a stored integer (missing or unreadable reads as 0),
after `saveHighScore(s)` the function `getHighScore` returns `max (h, s)` where `h` is
what it returned before; the stored high score never decreases, and the file is rewritten
(with `s`) exactly when `s` is strictly greater than `h`. -/
theorem saveHighScore_max (file : Option Int) (s : Int) :
    getHighScore (saveHighScore file s) = max (getHighScore file) s ∧
    getHighScore file ≤ getHighScore (saveHighScore file s) ∧
    (saveHighScore file s = if s > getHighScore file then some s else file) ∧
    (saveHighScore file s ≠ file → s > getHighScore file) ∧
    getHighScore none = 0 := by
  by_cases h : s > getHighScore file
  · have hs : saveHighScore file s = some s := by simp [saveHighScore, h]
    rw [hs]
    refine ⟨?_, ?_, by simp [h], fun _ => h, rfl⟩
    · simp only [getHighScore]
      exact (max_eq_right (le_of_lt h)).symm
    · simp only [getHighScore]
      exact le_of_lt h
  · have hs : saveHighScore file s = file := by simp [saveHighScore, h]
    rw [hs]
    refine ⟨?_, le_refl _, by simp [h], fun hne => absurd rfl hne, rfl⟩
    exact (max_eq_left (le_of_not_lt h)).symm

/-! ## Starting a game: lines 624-680 -/

theorem toUnsigned_pos (x : Int) (h1 : 1 ≤ x) (h2 : x ≤ 2147483647) : 0 < toUnsigned x := by
  unfold toUnsigned
  omega

/-- C29: for every `limit ≥ 1` (an `int`) and every non-empty list of loaded questions
with `totalQuestions` equal to its size, `startGame(limit)` sets `score = 0`,
`currentQuestionIndex = 0`, every question's `userSelectedOption = -1` and
`actualTotalQuestions = min(limit, totalQuestions)`, so that
`currentQuestionIndex < actualTotalQuestions ≤` number of questions, and the state becomes
`QUIZ_MODE` on an existing, unanswered current question. -/
theorem startGame_valid (g : Game) (limit : Int)
    (shuffle : List QuizQuestion → List QuizQuestion)
    (hlimit : 1 ≤ limit) (hint : limit ≤ 2147483647) (hne : g.allQuestions ≠ [])
    (htotal : g.totalQuestions = g.allQuestions.length)
    (hopts : ∀ q ∈ g.allQuestions, q.options.length = 4)
    (hperm : ∀ l, (shuffle l).Perm l) :
    ∃ g1, startGame g limit shuffle = some g1 ∧
      g1.score = 0 ∧ g1.currentQuestionIndex = 0 ∧
      (∀ q ∈ g1.allQuestions, q.userSelectedOption = -1) ∧
      g1.actualTotalQuestions = min limit g.totalQuestions ∧
      (g1.currentQuestionIndex : Int) < g1.actualTotalQuestions ∧
      g1.actualTotalQuestions ≤ g1.allQuestions.length ∧
      g1.allQuestions.length = g.allQuestions.length ∧
      g1.currentState = GameState.QUIZ_MODE ∧
      (∃ q, g1.allQuestions[g1.currentQuestionIndex]? = some q) ∧
      g1.isAnswerLocked = false := by
  have hp := hperm (g.allQuestions.map (fun q => { q with userSelectedOption := -1 }))
  have hlen : (shuffle (g.allQuestions.map (fun q => { q with userSelectedOption := -1 }))).length
      = g.allQuestions.length := by
    rw [hp.length_eq, List.length_map]
  have hall : ∀ q ∈ shuffle (g.allQuestions.map (fun q => { q with userSelectedOption := -1 })),
      q.userSelectedOption = -1 ∧ q.options.length = 4 := by
    intro q hq
    have hq1 := hp.mem_iff.mp hq
    rw [List.mem_map] at hq1
    obtain ⟨q0, hq0, rfl⟩ := hq1
    exact ⟨rfl, hopts q0 hq0⟩
  have hpos : 0 < g.allQuestions.length := List.length_pos.mpr hne
  have hmin1 : 1 ≤ min limit g.totalQuestions := le_min hlimit (by rw [htotal]; omega)
  have hmin2 : min limit g.totalQuestions ≤ 2147483647 := le_trans (min_le_left _ _) hint
  have hidx : 0 < toUnsigned (min limit g.totalQuestions) := toUnsigned_pos _ hmin1 hmin2
  have h0lt : 0 < (shuffle (g.allQuestions.map
      (fun q => { q with userSelectedOption := -1 }))).length := by
    rw [hlen]
    exact hpos
  have hq0 : (shuffle (g.allQuestions.map (fun q => { q with userSelectedOption := -1 })))[0]?
      = some ((shuffle (g.allQuestions.map
          (fun q => { q with userSelectedOption := -1 })))[0]) :=
    List.getElem?_eq_getElem h0lt
  obtain ⟨hsel, hfour⟩ := hall _ (List.getElem_mem h0lt)
  have hnot4 : ¬ ((shuffle (g.allQuestions.map
      (fun q => { q with userSelectedOption := -1 })))[0]).options.length < 4 := by
    rw [hfour]
    decide
  refine ⟨{ g with
      score := 0, currentQuestionIndex := 0,
      allQuestions := shuffle (g.allQuestions.map (fun q => { q with userSelectedOption := -1 })),
      actualTotalQuestions := min limit g.totalQuestions,
      isAnswerLocked := false, timeLeft := TIME_PER_QUESTION, autoNext := false,
      currentState := GameState.QUIZ_MODE, isTypingCustomAmount := false,
      customInputString := [] }, ?_, ?_⟩
  · unfold startGame loadQuestion
    simp only [hidx, if_true, hq0, hnot4, if_false, hsel, ne_eq, not_true_eq_false]
  · refine ⟨rfl, rfl, fun q hq => (hall q hq).1, rfl, ?_, ?_, hlen, rfl, ⟨_, hq0⟩, rfl⟩
    · show ((0 : Nat) : Int) < min limit g.totalQuestions
      simp only [Nat.cast_zero]
      omega
    · show min limit g.totalQuestions ≤ _
      rw [hlen, ← htotal]
      exact min_le_right _ _

/-- Witness for C29: the two sample questions, a limit of 5, and a shuffle that reverses
the list. -/
theorem startGame_valid_witness :
    ∃ g1, startGame sampleGame 5 List.reverse = some g1 ∧
      g1.score = 0 ∧ g1.currentQuestionIndex = 0 ∧
      (∀ q ∈ g1.allQuestions, q.userSelectedOption = -1) ∧
      g1.actualTotalQuestions = min 5 sampleGame.totalQuestions ∧
      (g1.currentQuestionIndex : Int) < g1.actualTotalQuestions ∧
      g1.actualTotalQuestions ≤ g1.allQuestions.length ∧
      g1.allQuestions.length = sampleGame.allQuestions.length ∧
      g1.currentState = GameState.QUIZ_MODE ∧
      (∃ q, g1.allQuestions[g1.currentQuestionIndex]? = some q) ∧
      g1.isAnswerLocked = false :=
  startGame_valid sampleGame 5 List.reverse (by decide) (by decide) (by decide) (by decide)
    (by decide) (fun l => List.reverse_perm l)

/-! ## Loading questions: lines 1480-1509 -/

theorem loadLoop_step (line : List Char) (rest : List (List Char))
    (questions : List QuizQuestion) :
    loadLoop (line :: rest) questions
      = loadLoop rest (questions ++ (lineQuestion line).toList) := by
  unfold lineQuestion
  by_cases hempty : line = []
  · subst hempty
    simp [loadLoop]
  · by_cases hhash : line.head? = some '#'
    · simp [loadLoop, hhash]
    · have hcond : ¬ (line.isEmpty = true ∨ line.head? = some '#') := by
        simp [hempty, hhash]
      rw [loadLoop]
      simp only [hcond, if_false, hempty, hhash]
      rcases hparts : getlines '|' line [] with _ | ⟨p0, _ | ⟨p1, _ | ⟨p2, _ | ⟨p3, _ | ⟨p4,
        _ | ⟨p5, _ | ⟨p6, tl⟩⟩⟩⟩⟩⟩⟩
      · simp
      · simp
      · simp
      · simp
      · simp
      · simp
      · simp only [List.length_cons, List.length_nil, ne_eq, not_true_eq_false, if_false,
          List.getD_cons_succ, List.getD_cons_zero]
        cases hn : stoi p5 with
        | none => simp
        | some n =>
          simp only
          by_cases hr : n ≥ 0 ∧ n < 4
          · have hr1 : 0 ≤ n ∧ n ≤ 3 := by omega
            simp [hr, hr1, hempty, hhash]
          · have hr1 : ¬ (0 ≤ n ∧ n ≤ 3) := by omega
            simp [hr, hr1, hempty, hhash]
      · simp

theorem loadLoop_eq (lines : List (List Char)) (questions : List QuizQuestion) :
    loadLoop lines questions = questions ++ lines.filterMap lineQuestion := by
  induction lines generalizing questions with
  | nil => simp [loadLoop]
  | cons line rest ih =>
    rw [loadLoop_step, ih]
    cases h : lineQuestion line with
    | none => simp [List.filterMap_cons, h]
    | some q => simp [List.filterMap_cons, h]

theorem lineQuestion_valid (line : List Char) (q : QuizQuestion)
    (h : lineQuestion line = some q) :
    q.options.length = 4 ∧ 0 ≤ q.correctAnswerIndex ∧ q.correctAnswerIndex ≤ 3 ∧
      q.userSelectedOption = -1 := by
  unfold lineQuestion at h
  split_ifs at h
  split at h
  · exact absurd h (by simp)
  · split_ifs at h with hr
    simp only [Option.some.injEq] at h
    subst h
    exact ⟨rfl, hr.1, hr.2, rfl⟩

/-- C28: every question returned by `loadQuestionsFromFile`, for every file content, has
exactly 4 options and a `correctAnswerIndex` in `[0,3]`; the result is the list of the
questions of the accepted lines in file order; and a line that is empty, starts with `#`,
does not split on `|` into exactly 6 fields, or whose sixth field does not parse as an
integer in `[0,3]` contributes no question. -/
theorem loadQuestionsFromFile_valid (file : Option (List Char)) :
    (∀ q ∈ loadQuestionsFromFile file,
      q.options.length = 4 ∧ 0 ≤ q.correctAnswerIndex ∧ q.correctAnswerIndex ≤ 3) ∧
    (∀ content : List Char, loadQuestionsFromFile (some content)
      = (getlines (Char.ofNat 10) content []).filterMap lineQuestion) ∧
    (∀ line : List Char,
      (line = [] ∨ line.head? = some '#' ∨ (getlines '|' line []).length ≠ 6 ∨
        (∀ n, stoi ((getlines '|' line []).getD 5 []) = some n → ¬ (0 ≤ n ∧ n ≤ 3))) →
      lineQuestion line = none) ∧
    loadQuestionsFromFile none = [] := by
  have heq : ∀ content : List Char, loadQuestionsFromFile (some content)
      = (getlines (Char.ofNat 10) content []).filterMap lineQuestion := by
    intro content
    simp only [loadQuestionsFromFile, loadLoop_eq, List.nil_append]
  refine ⟨?_, heq, ?_, rfl⟩
  · intro q hq
    cases file with
    | none => exact absurd hq (List.not_mem_nil q)
    | some content =>
      rw [heq, List.mem_filterMap] at hq
      obtain ⟨line, _, hline⟩ := hq
      obtain ⟨h1, h2, h3, _⟩ := lineQuestion_valid line q hline
      exact ⟨h1, h2, h3⟩
  · intro line hline
    unfold lineQuestion
    rcases hline with h | h | h | h
    · simp [h]
    · simp [h]
    · simp [h]
    · split_ifs
      · rfl
      · rfl
      · rfl
      · cases hn : stoi ((getlines '|' line []).getD 5 []) with
        | none => rfl
        | some n =>
          have := h n hn
          simp [this]

/-- Witness for C28: the sample file yields exactly its two well-formed lines, in order. -/
theorem loadQuestionsFromFile_valid_witness :
    loadQuestionsFromFile (some sampleFile) = sampleQuestions ∧
    ∀ q ∈ loadQuestionsFromFile (some sampleFile),
      q.options.length = 4 ∧ 0 ≤ q.correctAnswerIndex ∧ q.correctAnswerIndex ≤ 3 :=
  ⟨by decide!, (loadQuestionsFromFile_valid (some sampleFile)).1⟩

/-- Witness for C30: a stored high score of 7 and a new score of 9, then a score of 4. -/
theorem saveHighScore_max_witness :
    saveHighScore (some 7) 9 = some 9 ∧ getHighScore (saveHighScore (some 7) 9) = max 7 9 ∧
    saveHighScore (some 9) 4 = some 9 ∧ getHighScore (saveHighScore none (-1)) = 0 :=
  ⟨by decide, (saveHighScore_max (some 7) 9).1, by decide, by decide⟩

end GestureQuiz
